import Mathlib

/-!
Verification of the `idna` core of rust-url: the Punycode codec
(`src/idna/src/punycode.rs`) and the UTS #46 processor
(`src/idna/src/uts46.rs`), shallowly embedded over `List Char` with the
`u32` arithmetic of the source made explicit over `Nat`.
-/

namespace Idna

/-! ### Basic character utilities -/

def charVal (c : Char) : Nat := c.toNat

def isAsciiChar (c : Char) : Bool := c.toNat < 128

def isAsciiLower (c : Char) : Bool := 'a' ≤ c && c ≤ 'z'

def isAsciiDigit (c : Char) : Bool := '0' ≤ c && c ≤ '9'

def isAsciiUpper (c : Char) : Bool := 'A' ≤ c && c ≤ 'Z'

/-- Rust `u8::is_ascii_graphic`: `0x21..=0x7E`. -/
def isAsciiGraphic (c : Char) : Bool := 0x21 ≤ c.toNat && c.toNat ≤ 0x7E

/-- Number of bytes of the UTF-8 encoding of a scalar value. -/
def utf8Len (c : Char) : Nat :=
  if c.toNat < 0x80 then 1
  else if c.toNat < 0x800 then 2
  else if c.toNat < 0x10000 then 3
  else 4

/-- Byte length of the UTF-8 encoding of a string (Rust `str::len`). -/
def utf8Length (s : List Char) : Nat := (s.map utf8Len).sum

/-- UTF-8 encoding of one scalar value. -/
def utf8BytesChar (c : Char) : List Nat :=
  let n := c.toNat
  if n < 0x80 then [n]
  else if n < 0x800 then [0xC0 + n / 64, 0x80 + n % 64]
  else if n < 0x10000 then [0xE0 + n / 4096, 0x80 + n / 64 % 64, 0x80 + n % 64]
  else [0xF0 + n / 262144, 0x80 + n / 4096 % 64, 0x80 + n / 64 % 64, 0x80 + n % 64]

/-- UTF-8 encoding of a string (Rust `str::bytes`). -/
def utf8Bytes (s : List Char) : List Nat := (s.map utf8BytesChar).flatten

/-- Rust `char::from_u32`: `some` exactly on Unicode scalar values. -/
def charFromU32 (n : Nat) : Option Char :=
  if n.isValidChar then some (Char.ofNat n) else none

/-! ### Punycode: bootstring parameters and `adapt` (punycode.rs lines 19-39) -/

def BASE : Nat := 36
def T_MIN : Nat := 1
def T_MAX : Nat := 26
def SKEW : Nat := 38
def DAMP : Nat := 700
def INITIAL_BIAS : Nat := 72
def INITIAL_N : Nat := 0x80
def U32MAX : Nat := 4294967295

/-- The `while delta > ((BASE - T_MIN) * T_MAX) / 2` loop of `adapt`.
The loop runs at most five times on `u32` inputs; the fuel argument is
`delta + 1`, which always suffices since `delta` strictly decreases. -/
def adaptLoop : Nat → Nat → Nat → Nat × Nat
  | 0, delta, k => (delta, k)
  | fuel + 1, delta, k =>
    if delta > ((BASE - T_MIN) * T_MAX) / 2 then
      adaptLoop fuel (delta / (BASE - T_MIN)) (k + BASE)
    else (delta, k)

/-- `adapt` (punycode.rs lines 30-39). -/
def adapt (delta numPoints : Nat) (firstTime : Bool) : Nat :=
  let delta := delta / (if firstTime then DAMP else 2)
  let delta := delta + delta / numPoints
  let (delta, k) := adaptLoop (delta + 1) delta 0
  k + ((BASE - T_MIN + 1) * delta) / (delta + SKEW)

/-! ### Punycode decoding (punycode.rs lines 54-177) -/

/-- Decode one digit byte (punycode.rs lines 92-97). -/
def digitOfByte (b : Nat) : Option Nat :=
  if 48 ≤ b ∧ b ≤ 57 then some (b - 48 + 26)
  else if 65 ≤ b ∧ b ≤ 90 then some (b - 65)
  else if 97 ≤ b ∧ b ≤ 122 then some (b - 97)
  else none

/-- The threshold `t` (punycode.rs lines 102-108). -/
def tThreshold (k bias : Nat) : Nat :=
  if k ≤ bias then T_MIN else if k ≥ bias + T_MAX then T_MAX else k - bias

/-- The last `-`, if any, splits the input (punycode.rs lines 63-73).
`rfindDash` is the index of the last `-` (Rust `str::rfind`; for `-` the
byte index equals zero exactly when the char index does, and the split
at an ASCII `-` is a char split). -/
def rfindDashAux : List Char → Nat → Option Nat → Option Nat
  | [], _, acc => acc
  | c :: rest, idx, acc => rfindDashAux rest (idx + 1) (if c = '-' then some idx else acc)

def rfindDash (l : List Char) : Option Nat := rfindDashAux l 0 none

/-- `(base, extended)` as computed by `insertions` (punycode.rs lines 63-73):
before the last `-` / after it, except that when the last `-` is the very
first byte the whole input (including that `-`) is the extended part. -/
def decodeSplit (input : List Char) : List Char × List Char :=
  match rfindDash input with
  | none => ([], input)
  | some p => (input.take p, if p > 0 then input.drop (p + 1) else input)

/-- Why `decode` rejects an input (punycode.rs: the `return Err(())` sites
of `insertions`, lines 96, 99, 113, 118, 124, 132). -/
inductive DecErr where
  | invalidDigit
  | truncated
  | overflowDelta
  | overflowWeight
  | overflowCodePoint
  | invalidScalar
  deriving DecidableEq, Repr

/-- The loop state of `insertions` that survives across delimiterless
variable-length integers (punycode.rs lines 75-79). -/
structure InsSt where
  codePoint : Nat
  bias : Nat
  i : Nat
  length : Nat
  buf : List (Nat × Char)
  deriving Repr

/-- The nested loops of `insertions` (punycode.rs lines 81-144) as a
byte-at-a-time state machine.  `vli` is `none` at an integer boundary and
`some (previous_i, weight, k)` in the middle of a variable-length integer. -/
def insRunE (st : InsSt) (vli : Option (Nat × Nat × Nat)) :
    List Nat → Except DecErr (List (Nat × Char))
  | [] =>
    match vli with
    | none => .ok st.buf
    | some _ => .error .truncated
  | b :: rest =>
    let pw := match vli with
      | none => (st.i, 1, BASE)
      | some t => t
    match digitOfByte b with
    | none => .error .invalidDigit
    | some digit =>
      if digit > (U32MAX - st.i) / pw.2.1 then .error .overflowDelta
      else
        let i' := st.i + digit * pw.2.1
        let t := tThreshold pw.2.2 st.bias
        if digit < t then
          let bias' := adapt (i' - pw.1) (st.length + 1) (pw.1 == 0)
          if i' / (st.length + 1) > U32MAX - st.codePoint then .error .overflowCodePoint
          else
            let cp' := st.codePoint + i' / (st.length + 1)
            let pos := i' % (st.length + 1)
            match charFromU32 cp' with
            | none => .error .invalidScalar
            | some c =>
              insRunE
                { codePoint := cp', bias := bias', i := pos + 1, length := st.length + 1,
                  buf := st.buf.map (fun q => if pos ≤ q.1 then (q.1 + 1, q.2) else q)
                    ++ [(pos, c)] }
                none rest
        else
          if pw.2.1 > U32MAX / (BASE - t) then .error .overflowWeight
          else insRunE { st with i := i' } (some (pw.1, pw.2.1 * (BASE - t), pw.2.2 + BASE)) rest

/-- Stable-by-construction insertion of one `(position, char)` pair into a
position-sorted list. -/
def insertSorted (p : Nat × Char) : List (Nat × Char) → List (Nat × Char)
  | [] => [p]
  | q :: rest => if q.1 ≤ p.1 then q :: insertSorted p rest else p :: q :: rest

/-- `buf.sort_by_key(|(i, _)| *i)` (punycode.rs line 146).  The positions in
`buf` are pairwise distinct, so any sort by position agrees with Rust's
stable sort. -/
def sortByPos (l : List (Nat × Char)) : List (Nat × Char) := l.foldr insertSorted []

/-- The initial state of the `insertions` loop for a given base string. -/
def initSt (base : List Char) : InsSt :=
  { codePoint := INITIAL_N, bias := INITIAL_BIAS, i := 0, length := utf8Length base, buf := [] }

/-- `insertions` (punycode.rs lines 60-148), with the error reason kept. -/
def insertions (input : List Char) : Except DecErr (List Char × List (Nat × Char)) :=
  let (base, ext) := decodeSplit input
  match insRunE (initSt base) none (utf8Bytes ext) with
  | .error e => .error e
  | .ok buf => .ok (base, sortByPos buf)

/-- The `merge` loop (punycode.rs lines 158-174), fueled; `none` means the
fuel ran out.  A terminating run of the source loop consumes an insertion
or a base character at every step, so it takes at most
`ins.length + base.length` iterations and `merge`'s fuel returns `some`
exactly on it.  When the base is exhausted while an insertion position is
still ahead of the cursor, the source loop repeats that state forever and
the embedding returns `none` at EVERY fuel (`mergeLoop_stuck`): this
divergence is reachable, see `C4_merge_divergence`. -/
def mergeLoop : Nat → List (Nat × Char) → List Char → Nat → List Char → Option (List Char)
  | 0, _, _, _, _ => none
  | fuel + 1, ins, base, position, out =>
    match ins with
    | (pos, c) :: insRest =>
      if pos = position then mergeLoop fuel insRest base (position + 1) (out ++ [c])
      else
        match base with
        | b :: baseRest => mergeLoop fuel ins baseRest (position + 1) (out ++ [b])
        | [] => mergeLoop fuel ins [] position out
    | [] =>
      match base with
      | b :: baseRest => mergeLoop fuel [] baseRest (position + 1) (out ++ [b])
      | [] => some out

/-- `merge` (punycode.rs lines 151-177): `some` the source's return value
when the loop terminates, `none` when it diverges. -/
def merge (base : List Char) (ins : List (Nat × Char)) : Option (List Char) :=
  mergeLoop (ins.length + base.length + 1) ins base 0 []

/-- `decode` (punycode.rs lines 54-57): `None` on malformed input or
overflow.  The source unconditionally wraps `merge`'s value in `Some`;
when `merge` diverges the source never returns at all, which this total
embedding can only map to `none` (`decode` then disagrees with the
diverging source — the reachable case is isolated by
`C4_merge_divergence`). -/
def decode (input : List Char) : Option (List Char) :=
  match insertions input with
  | .error _ => none
  | .ok (base, buf) => merge base buf

/-! ### Punycode encoding (punycode.rs lines 192-282) -/

/-- How `encode_into` can stop abnormally: `Err(())` on overflow, a Rust
panic (the `_ => panic!()` arm of `value_to_digit` or the `.unwrap()` on
the minimum), or exhaustion of the fuel that drives the Lean embedding of
the two source loops (proved unreachable). -/
inductive EncErr where
  | overflow
  | panicked
  | fuelOut
  deriving DecidableEq, Repr

/-- `value_to_digit` (punycode.rs lines 276-282); `none` is the panic arm. -/
def valueToDigit (value : Nat) : Option Char :=
  if value ≤ 25 then some (Char.ofNat (value + 97))
  else if value ≤ 35 then some (Char.ofNat (value - 26 + 48))
  else none

/-- The generalized variable-length integer emission loop
(punycode.rs lines 245-263).  `q` strictly decreases on every recursive
call, so fuel `q + 1` always suffices. -/
def vliEmit : Nat → Nat → Nat → Nat → List Char → Except EncErr (List Char)
  | 0, _, _, _, _ => .error .fuelOut
  | fuel + 1, q, k, bias, out =>
    let t := tThreshold k bias
    if q < t then
      match valueToDigit q with
      | none => .error .panicked
      | some d => .ok (out ++ [d])
    else
      let value := t + (q - t) % (BASE - t)
      match valueToDigit value with
      | none => .error .panicked
      | some d => vliEmit fuel ((q - t) / (BASE - t)) (k + BASE) bias (out ++ [d])

/-- The `for c in input.clone()` pass of one round of `encode_into`
(punycode.rs lines 235-268); `codePoint` is fixed for the pass, and the
state `(delta, bias, processed, out)` is threaded through. -/
def encInner (basicLength codePoint : Nat) :
    List Char → Nat → Nat → Nat → List Char → Except EncErr (Nat × Nat × Nat × List Char)
  | [], delta, bias, processed, out => .ok (delta, bias, processed, out)
  | c :: rest, delta, bias, processed, out =>
    let cv := charVal c
    let delta' := if cv < codePoint then (delta + 1) % (U32MAX + 1) else delta
    if cv < codePoint ∧ delta' = 0 then .error .overflow
    else if cv = codePoint then
      match vliEmit (delta' + 1) delta' BASE bias out with
      | .error e => .error e
      | .ok out' =>
        let bias' := adapt delta' (processed + 1) (processed == basicLength)
        encInner basicLength codePoint rest 0 bias' (processed + 1) out'
    else encInner basicLength codePoint rest delta' bias processed out

/-- The `while processed < input_length` loop of `encode_into`
(punycode.rs lines 220-271).  Every round processes at least one code
point, so fuel `input_length + 1` always suffices. -/
def encLoop (input : List Char) (inputLength basicLength : Nat) :
    Nat → Nat → Nat → Nat → Nat → List Char → Except EncErr (List Char)
  | 0, _, _, _, _, _ => .error .fuelOut
  | fuel + 1, codePoint, delta, bias, processed, out =>
    if processed < inputLength then
      match ((input.map charVal).filter (fun c => decide (c ≥ codePoint))).min? with
      | none => .error .panicked
      | some m =>
        if m - codePoint > (U32MAX - delta) / (processed + 1) then .error .overflow
        else
          let delta := delta + (m - codePoint) * (processed + 1)
          match encInner basicLength m input delta bias processed out with
          | .error e => .error e
          | .ok (delta, bias, processed, out) =>
            encLoop input inputLength basicLength fuel (m + 1) ((delta + 1) % (U32MAX + 1))
              bias processed out
    else .ok out

/-- `encode_into` (punycode.rs lines 199-273). -/
def encodeInto (input : List Char) : Except EncErr (List Char) :=
  let basicPart := input.filter isAsciiChar
  let inputLength := input.length
  let basicLength := basicPart.length
  let out := basicPart ++ (if basicLength > 0 then ['-'] else [])
  encLoop input inputLength basicLength (inputLength + 1) INITIAL_N 0 INITIAL_BIAS
    basicLength out

/-- `encode` / `encode_str` (punycode.rs lines 183-197): `None` on
overflow. -/
def encode (input : List Char) : Option (List Char) :=
  match encodeInto input with
  | .ok out => some out
  | .error _ => none

/-! ### UTS #46 data model (uts46.rs lines 41-51, 400-421, 511-525) -/

/-- The `Mapping` kinds, with the string-table slices resolved to the
strings they denote (uts46.rs lines 41-51). -/
inductive Mapping where
  | Valid
  | Ignored
  | Mapped (s : List Char)
  | Deviation (s : List Char)
  | Disallowed
  | DisallowedStd3Valid
  | DisallowedStd3Mapped (s : List Char)
  deriving DecidableEq, Repr

/-- The bidi classes distinguished by `passes_bidi` and `is_bidi_domain`,
plus a representative of every other class (`B`). -/
inductive BidiClass where
  | L | R | AL | AN | EN | ES | CS | ET | ON | BN | NSM | B
  deriving DecidableEq, Repr

/-- `Config` (uts46.rs lines 400-406). -/
structure Config where
  use_std3_ascii_rules : Bool
  transitional_processing : Bool
  verify_dns_length : Bool
  check_hyphens : Bool
  deriving DecidableEq, Repr

/-- `Config::default` (uts46.rs lines 409-422). -/
def Config.default : Config :=
  { use_std3_ascii_rules := false, transitional_processing := false,
    check_hyphens := false, verify_dns_length := false }

/-- The `Config::transitional_processing` builder (uts46.rs lines 432-435). -/
def Config.withTransitionalProcessing (c : Config) (value : Bool) : Config :=
  { c with transitional_processing := value }

/-- `Errors` (uts46.rs lines 515-525). -/
structure Errors where
  punycode : Bool
  validity_criteria : Bool
  disallowed_by_std3_ascii_rules : Bool
  disallowed_mapped_in_std3 : Bool
  disallowed_character : Bool
  too_long_for_dns : Bool
  too_short_for_dns : Bool
  deriving DecidableEq, Repr

/-- `Errors::default` (uts46.rs line 515, `#[derive(Default)]`). -/
def Errors.default : Errors :=
  { punycode := false, validity_criteria := false,
    disallowed_by_std3_ascii_rules := false, disallowed_mapped_in_std3 := false,
    disallowed_character := false, too_long_for_dns := false, too_short_for_dns := false }

/-- `From<Errors> for Result<(), Errors>` (uts46.rs lines 527-542): ok iff
no flag fired. -/
def Errors.isOk (e : Errors) : Bool :=
  !(e.punycode || e.validity_criteria || e.disallowed_by_std3_ascii_rules ||
    e.disallowed_mapped_in_std3 || e.disallowed_character || e.too_long_for_dns ||
    e.too_short_for_dns)

/-- The external Unicode services consumed by uts46.rs: the generated
mapping table behind `find_char` (uts46.rs line 20 includes
`uts46_mapping_table.rs`, which is not part of the sources), and the
`unicode-bidi` / `unicode-normalization` crates (uts46.rs lines 16-18). -/
structure Uts46Env where
  findChar : Char → Mapping
  nfc : List Char → List Char
  isNfc : List Char → Bool
  isCombiningMark : Char → Bool
  bidiClass : Char → BidiClass

/-! ### `map_char` (uts46.rs lines 85-119) -/

/-- One step of the mapping pass: `map_char` appends to `output` and may
set error flags. -/
def mapChar (env : Uts46Env) (config : Config) (c : Char) (acc : List Char × Errors) :
    List Char × Errors :=
  if c = '.' ∨ c = '-' ∨ isAsciiLower c ∨ isAsciiDigit c then (acc.1 ++ [c], acc.2)
  else
    match env.findChar c with
    | .Valid => (acc.1 ++ [c], acc.2)
    | .Ignored => acc
    | .Mapped s => (acc.1 ++ s, acc.2)
    | .Deviation s =>
      if config.transitional_processing then (acc.1 ++ s, acc.2) else (acc.1 ++ [c], acc.2)
    | .Disallowed => (acc.1 ++ [c], { acc.2 with disallowed_character := true })
    | .DisallowedStd3Valid =>
      (acc.1 ++ [c],
        if config.use_std3_ascii_rules then
          { acc.2 with disallowed_by_std3_ascii_rules := true }
        else acc.2)
    | .DisallowedStd3Mapped s =>
      (acc.1 ++ s,
        if config.use_std3_ascii_rules then
          { acc.2 with disallowed_mapped_in_std3 := true }
        else acc.2)

/-- The `for c in domain.chars() { map_char(..) }` pass
(uts46.rs lines 338-341). -/
def mapAll (env : Uts46Env) (config : Config) :
    List Char → (List Char × Errors) → List Char × Errors
  | [], acc => acc
  | c :: rest, acc => mapAll env config rest (mapChar env config c acc)

/-! ### `is_valid` (uts46.rs lines 255-298) -/

/-- Whether a code point fails the V6 mapping-table criterion under the
given config (uts46.rs lines 283-288). -/
def badV6 (env : Uts46Env) (config : Config) (c : Char) : Bool :=
  match env.findChar c with
  | .Valid => false
  | .Deviation _ => config.transitional_processing
  | .DisallowedStd3Valid => config.use_std3_ascii_rules
  | _ => true

/-- `is_valid` (uts46.rs lines 255-298). -/
def isValid (env : Uts46Env) (config : Config) (label : List Char) : Bool :=
  match label.head? with
  | none => true
  | some first =>
    if config.check_hyphens && (label.head? = some '-' || label.getLast? = some '-') then
      false
    else if env.isCombiningMark first then false
    else if label.any (badV6 env config) then false
    else true

/-! ### `passes_bidi` (uts46.rs lines 122-248) and `is_bidi_domain`
(uts46.rs lines 498-509) -/

/-- The character classes allowed after an LTR first character (rule 5,
uts46.rs lines 139-153). -/
def ltrAllowed (b : BidiClass) : Bool :=
  match b with
  | .L | .EN | .ES | .CS | .ET | .ON | .BN | .NSM => true
  | _ => false

/-- The character classes allowed after an RTL first character (rule 2,
uts46.rs lines 185-208). -/
def rtlAllowed (b : BidiClass) : Bool :=
  match b with
  | .R | .AL | .AN | .EN | .ES | .CS | .ET | .ON | .BN | .NSM => true
  | _ => false

/-- The last character ignoring trailing `NSM`s (the `rev_chars` loops of
rules 6 and 3, uts46.rs lines 157-169 and 210-223). -/
def lastNonNsm (env : Uts46Env) (label : List Char) : Option Char :=
  label.reverse.find? (fun c => !(env.bidiClass c == .NSM))

/-- `passes_bidi` (uts46.rs lines 122-248). -/
def passesBidi (env : Uts46Env) (label : List Char) (isBidiDomain : Bool) : Bool :=
  if !isBidiDomain then true
  else
    match label with
    | [] => true
    | first :: rest =>
      match env.bidiClass first with
      | .L =>
        if rest.any (fun c => !ltrAllowed (env.bidiClass c)) then false
        else
          match lastNonNsm env label with
          | some c => env.bidiClass c == .L || env.bidiClass c == .EN
          | none => true
      | .R | .AL =>
        let foundEn := rest.any (fun c => env.bidiClass c == .EN)
        let foundAn := rest.any (fun c => env.bidiClass c == .AN)
        if rest.any (fun c => !rtlAllowed (env.bidiClass c)) then false
        else
          match lastNonNsm env label with
          | some c =>
            if env.bidiClass c == .R || env.bidiClass c == .AL ||
                env.bidiClass c == .EN || env.bidiClass c == .AN then
              !(foundAn && foundEn)
            else false
          | none => false
      | _ => false

/-- `is_bidi_domain` (uts46.rs lines 498-509). -/
def isBidiDomain (env : Uts46Env) (s : List Char) : Bool :=
  s.any (fun c =>
    !isAsciiGraphic c &&
      (env.bidiClass c == .R || env.bidiClass c == .AL || env.bidiClass c == .AN))

/-! ### Splitting on `.` -/

/-- `str::split('.')` over `List Char` (an empty string yields one empty
label, as in Rust). -/
def splitDots : List Char → List (List Char)
  | [] => [[]]
  | c :: rest =>
    match splitDots rest with
    | [] => [[]]
    | h :: t => if c = '.' then [] :: h :: t else (c :: h) :: t

/-- Joining labels with `.`, the inverse of `splitDots`. -/
def joinDots : List (List Char) → List Char
  | [] => []
  | [l] => l
  | l :: ls => l ++ '.' :: joinDots ls

/-! ### `processing` (uts46.rs lines 301-398) -/

/-- The character expected at position `puny_prefix` of `['x','n','-','-']`
(uts46.rs line 317). -/
def xnElem (i : Nat) : Char :=
  match i with
  | 0 => 'x'
  | 1 => 'n'
  | 2 => '-'
  | _ => '-'

/-- The fast-path scan of `processing` (uts46.rs lines 304-332): the loop
body, with `prev` and `puny_prefix` threaded; returns the final value of
`simple` for a non-empty domain. -/
def simpleGo (prev : Char) (puny : Nat) : List Char → Bool
  | [] => true
  | c :: rest =>
    if c = '.' then
      if prev = '-' then false
      else simpleGo prev 0 rest
    else
      if puny = 0 ∧ c = '-' then false
      else
        let punyNext :=
          if puny < 5 then (if c = xnElem puny then puny + 1 else 5) else puny
        if (puny < 5 ∧ c = xnElem puny) ∧ punyNext = 4 then false
        else if !isAsciiLower c && !isAsciiDigit c then false
        else simpleGo c punyNext rest

/-- `simple` after the scan (uts46.rs lines 304-332): initially
`!domain.is_empty()`. -/
def simpleScan (domain : List Char) : Bool :=
  !domain.isEmpty && simpleGo '?' 0 domain

/-- The literal `"xn--"` test (uts46.rs lines 22, 353). -/
def hasPunyMarker (label : List Char) : Bool :=
  ['x', 'n', '-', '-'].isPrefixOf label

/-- The per-label loop of `processing` (uts46.rs lines 345-381), threading
`(validated, first, valid, has_bidi_labels, errors)`. -/
def labelLoop (env : Uts46Env) (config : Config) :
    List (List Char) → List Char → Bool → Bool → Bool → Errors →
      List Char × Bool × Bool × Errors
  | [], validated, _, valid, hasBidi, errors => (validated, valid, hasBidi, errors)
  | label :: rest, validated, first, valid, hasBidi, errors =>
    let validated := if !first then validated ++ ['.'] else validated
    if hasPunyMarker label then
      match decode (label.drop 4) with
      | some decoded =>
        let hasBidi := if !hasBidi then hasBidi || isBidiDomain env decoded else hasBidi
        let valid :=
          if valid &&
              (!env.isNfc decoded ||
                !isValid env (config.withTransitionalProcessing false) decoded) then
            false
          else valid
        labelLoop env config rest (validated ++ decoded) false valid hasBidi errors
      | none =>
        labelLoop env config rest validated false valid true
          { errors with punycode := true }
    else
      let hasBidi := if !hasBidi then hasBidi || isBidiDomain env label else hasBidi
      let valid := valid && isValid env config label
      labelLoop env config rest (validated ++ label) false valid hasBidi errors

/-- `processing` (uts46.rs lines 301-398). -/
def processing (env : Uts46Env) (config : Config) (domain : List Char) :
    List Char × Errors :=
  if simpleScan domain then (domain, Errors.default)
  else
    let (mapped, errors) := mapAll env config domain ([], Errors.default)
    let normalized := env.nfc mapped
    let (validated, valid, hasBidi, errors) :=
      labelLoop env config (splitDots normalized) [] true true false errors
    let valid := valid && (splitDots validated).all (fun label => passesBidi env label hasBidi)
    let errors := if !valid then { errors with validity_criteria := true } else errors
    (validated, errors)

/-! ### `Config::to_ascii` and `Config::to_unicode` (uts46.rs lines 450-495) -/

/-- The per-label loop of `to_ascii` (uts46.rs lines 454-472). -/
def toAsciiLabels : List (List Char) → List Char → Bool → Errors → List Char × Errors
  | [], result, _, errors => (result, errors)
  | label :: rest, result, first, errors =>
    let result := if !first then result ++ ['.'] else result
    if label.all isAsciiChar then toAsciiLabels rest (result ++ label) false errors
    else
      match encode label with
      | some x => toAsciiLabels rest (result ++ ['x', 'n', '-', '-'] ++ x) false errors
      | none => toAsciiLabels rest result false { errors with punycode := true }

/-- `to_ascii` before the DNS-length verification (uts46.rs lines 450-472). -/
def toAsciiRaw (env : Uts46Env) (config : Config) (domain : List Char) :
    List Char × Errors :=
  let (d, errors) := processing env config domain
  toAsciiLabels (splitDots d) [] true errors

/-- The trailing-dot strip of the DNS length check (uts46.rs lines 475-479). -/
def stripTrailingDot (r : List Char) : List Char :=
  if r.getLast? = some '.' then r.dropLast else r

/-- `to_ascii` including the DNS-length verification, returning the final
result string and error set (uts46.rs lines 450-489). -/
def toAsciiFull (env : Uts46Env) (config : Config) (domain : List Char) :
    List Char × Errors :=
  let (result, errors) := toAsciiRaw env config domain
  let errors :=
    if config.verify_dns_length then
      let stripped := stripTrailingDot result
      let errors :=
        if stripped.isEmpty ∨ (splitDots stripped).any (fun l => l.isEmpty) then
          { errors with too_short_for_dns := true }
        else errors
      if utf8Length stripped > 253 ∨ (splitDots stripped).any (fun l => utf8Length l > 63) then
        { errors with too_long_for_dns := true }
      else errors
    else errors
  (result, errors)

/-- `Config::to_ascii` (uts46.rs lines 450-489). -/
def toAscii (env : Uts46Env) (config : Config) (domain : List Char) :
    Except Errors (List Char) :=
  let (result, errors) := toAsciiFull env config domain
  if errors.isOk then .ok result else .error errors

/-- `Config::to_unicode` (uts46.rs lines 492-495). -/
def toUnicode (env : Uts46Env) (config : Config) (domain : List Char) :
    List Char × Except Errors Unit :=
  let (d, errors) := processing env config domain
  (d, if errors.isOk then .ok () else .error errors)

/-! ### A concrete environment for witnesses and counterexamples -/

/-- Modelled from the spec: the generated mapping table
(`uts46_mapping_table.rs`, included at uts46.rs line 20) is not among the
sources, so this models the entries the spec pins down, restricted to the
code points the concrete witnesses use.  Per §4.A the table agrees with
the ASCII fast path (`{-, ., 0-9, a-z}` map to `Valid`; the repository's
own `mapping_fast_path` test in uts46.rs asserts the same), uppercase
ASCII letters are `Mapped` to their lowercase forms (§8 scenario 4 folds
fullwidth and uppercase letters), ASCII outside the STD3
letter-digit-hyphen set, such as `_`, is `DisallowedStd3Valid` (§3, §7:
STD3 rules are the RFC 1123 LDH host-name rules, and
`disallowed_by_std3_ascii_rules` fires only when STD3 rules are on), and
every other code point is taken as `Disallowed`. -/
def specFindChar (c : Char) : Mapping :=
  if ('a' ≤ c ∧ c ≤ 'z') ∨ ('0' ≤ c ∧ c ≤ '9') ∨ c = '.' ∨ c = '-' then .Valid
  else if 'A' ≤ c ∧ c ≤ 'Z' then .Mapped [Char.ofNat (c.toNat + 32)]
  else if c = '_' then .DisallowedStd3Valid
  else .Disallowed

/-- Modelled from the spec: the `unicode-bidi` crate's `bidi_class` is an
external collaborator (§1); this assigns the classes the concrete
witnesses rely on (ASCII digits are `EN`, Hebrew letters are `R`, Arabic
letters are `AL`, Arabic-Indic digits are `AN`, combining diacritics are
`NSM`, everything else `L`). -/
def specBidiClass (c : Char) : BidiClass :=
  if '0' ≤ c ∧ c ≤ '9' then .EN
  else if 0x5D0 ≤ c.toNat ∧ c.toNat ≤ 0x5EA then .R
  else if 0x620 ≤ c.toNat ∧ c.toNat ≤ 0x64A then .AL
  else if 0x660 ≤ c.toNat ∧ c.toNat ≤ 0x669 then .AN
  else if 0x300 ≤ c.toNat ∧ c.toNat ≤ 0x36F then .NSM
  else .L

/-- Modelled from the spec: the external NFC service and combining-mark
test (§1), restricted to the witnesses' inputs — all of which are already
NFC-normalized, so normalization is the identity, and none of which
contain combining marks outside U+0300..U+036F. -/
def specEnv : Uts46Env :=
  { findChar := specFindChar
    nfc := fun l => l
    isNfc := fun _ => true
    isCombiningMark := fun c => 0x300 ≤ c.toNat ∧ c.toNat ≤ 0x36F
    bidiClass := specBidiClass }

/-! ## Lemmas: the decode split -/

theorem rfindDashAux_no_dash (l : List Char) (idx : Nat) (acc : Option Nat)
    (h : '-' ∉ l) : rfindDashAux l idx acc = acc := by
  induction l generalizing idx acc with
  | nil => rfl
  | cons c rest ih =>
    simp only [List.mem_cons, not_or] at h
    have hc : ¬ c = '-' := fun hc => h.1 hc.symm
    simp only [rfindDashAux, if_neg hc]
    exact ih _ _ h.2

theorem rfindDashAux_last (l : List Char) (j : Nat) (idx : Nat) (acc : Option Nat)
    (hj : l[j]? = some '-')
    (hlast : ∀ k, j < k → k < l.length → l[k]? ≠ some '-') :
    rfindDashAux l idx acc = some (idx + j) := by
  induction l generalizing j idx acc with
  | nil => simp at hj
  | cons c rest ih =>
    cases j with
    | zero =>
      rw [List.getElem?_cons_zero] at hj
      injection hj with hj
      have hrest : '-' ∉ rest := by
        intro hmem
        obtain ⟨k, hk⟩ := List.mem_iff_getElem?.mp hmem
        have hklen : k < rest.length := (List.getElem?_eq_some.mp hk).1
        exact hlast (k + 1) (Nat.succ_pos k) (by simpa using Nat.succ_lt_succ hklen)
          (by simpa using hk)
      simp only [rfindDashAux, if_pos hj]
      rw [rfindDashAux_no_dash rest (idx + 1) (some idx) hrest]
      simp
    | succ j' =>
      rw [List.getElem?_cons_succ] at hj
      have hlast' : ∀ k, j' < k → k < rest.length → rest[k]? ≠ some '-' := by
        intro k hk1 hk2
        have := hlast (k + 1) (Nat.succ_lt_succ hk1) (by simpa using Nat.succ_lt_succ hk2)
        simpa using this
      simp only [rfindDashAux]
      rw [ih j' (idx + 1) _ hj hlast']
      congr 1
      omega

theorem rfindDash_no_dash (l : List Char) (h : '-' ∉ l) : rfindDash l = none :=
  rfindDashAux_no_dash l 0 none h

theorem rfindDash_last (l : List Char) (j : Nat) (hj : l[j]? = some '-')
    (hlast : ∀ k, j < k → k < l.length → l[k]? ≠ some '-') :
    rfindDash l = some j := by
  have := rfindDashAux_last l j 0 none hj hlast
  simpa [rfindDash] using this

/-- C3: the claim asserts that when the input's only `-` is its first
byte, the extended tail is the remainder after that `-`.  The code
instead keeps the whole input — including the leading `-` — as the
extended tail (punycode.rs lines 67-71), so decoding then fails on the
`-` byte: at input `"-a"` the claim predicts extended `"a"`, the code
yields extended `"-a"` and `decode "-a" = none`. -/
theorem C3_counterexample :
    (decodeSplit ['-', 'a']).2 ≠ ['a'] ∧ decodeSplit ['-', 'a'] = ([], ['-', 'a']) ∧
      decode ['-', 'a'] = none := by decide

/-- C3 (amended): if the input contains no `-`, the base is empty and the
whole input is the extended tail; if the last `-` sits at a positive
position `p`, the base is the prefix before `p` and the extended tail is
everything after `p`; but if the last `-` is the very first character,
the base is empty and the extended tail is the ENTIRE input, leading `-`
included. -/
theorem C3_split (input : List Char) :
    ('-' ∉ input → decodeSplit input = ([], input)) ∧
    (∀ p, input[p]? = some '-' →
      (∀ k, p < k → k < input.length → input[k]? ≠ some '-') →
      0 < p → decodeSplit input = (input.take p, input.drop (p + 1))) ∧
    (input[0]? = some '-' →
      (∀ k, 0 < k → k < input.length → input[k]? ≠ some '-') →
      decodeSplit input = ([], input)) := by
  refine ⟨?_, ?_, ?_⟩
  · intro h
    simp only [decodeSplit, rfindDash_no_dash input h]
  · intro p hp hlast hpos
    simp only [decodeSplit, rfindDash_last input p hp hlast]
    rw [if_pos hpos]
  · intro h0 hlast
    simp only [decodeSplit, rfindDash_last input 0 h0 hlast]
    simp

/-- Concrete instances of the amended C3 split. -/
theorem C3_split_witness :
    decodeSplit ['a', 'b', '-', 'c'] = (['a', 'b'], ['c']) ∧
      decodeSplit ['-', 'a'] = ([], ['-', 'a']) ∧
      decodeSplit ['x'] = ([], ['x']) := by
  refine ⟨?_, ?_, ?_⟩
  · have h := (C3_split ['a', 'b', '-', 'c']).2.1 2 (by decide)
      (fun k h1 h2 => by
        simp only [List.length_cons, List.length_nil] at h2
        interval_cases k <;> decide)
      (by decide)
    simpa using h
  · exact (C3_split ['-', 'a']).2.2 (by decide)
      (fun k h1 h2 => by
        simp only [List.length_cons, List.length_nil] at h2
        interval_cases k <;> decide)
  · exact (C3_split ['x']).1 (by decide)

/-! ## C4: decode is not total -/

/-- The stuck state of the `merge` loop (punycode.rs lines 158-174): with
the base exhausted and an insertion still pending at a position other
than the cursor, neither branch of the loop body makes progress — the
source repeats this state forever, and the embedding returns `none` at
every fuel. -/
theorem mergeLoop_stuck (fuel : Nat) : ∀ (p : Nat) (c : Char)
    (rest : List (Nat × Char)) (position : Nat) (out : List Char), p ≠ position →
    mergeLoop fuel ((p, c) :: rest) [] position out = none := by
  induction fuel with
  | zero =>
    intro p c rest position out _
    rfl
  | succ f ih =>
    intro p c rest position out hne
    simp only [mergeLoop]
    rw [if_neg hne]
    exact ih p c rest position out hne

/-- C4: `decode` is not total.  On the input `é-ca` the `insertions`
state machine succeeds — the base is `é` and the `length` counter starts
at its BYTE length 2, so the single decoded character U+0080 is assigned
insertion position 2 — but `merge` walks the base CHARACTER by character
and its cursor reaches at most position 1, so the source's `merge` loop
(punycode.rs lines 158-174) runs forever: no fuel makes the embedded
loop terminate.  The input is reachable from the public API as
`to_unicode("xn--é-ca")`. -/
theorem C4_merge_divergence :
    insertions ['é', '-', 'c', 'a'] = .ok (['é'], [(2, Char.ofNat 0x80)]) ∧
    ∀ fuel : Nat, mergeLoop fuel [(2, Char.ofNat 0x80)] ['é'] 0 [] = none := by
  constructor
  · rfl
  · intro fuel
    cases fuel with
    | zero => rfl
    | succ f =>
      simp only [mergeLoop]
      rw [if_neg (by omega)]
      exact mergeLoop_stuck f 2 (Char.ofNat 0x80) [] 1 ([] ++ ['é']) (by omega)

/-! ## C9: the encoder never reaches a panic -/

theorem tThreshold_pos (k bias : Nat) : 1 ≤ tThreshold k bias := by
  simp only [tThreshold, T_MIN, T_MAX]
  split_ifs <;> omega

theorem tThreshold_le (k bias : Nat) : tThreshold k bias ≤ 26 := by
  simp only [tThreshold, T_MIN, T_MAX]
  split_ifs <;> omega

theorem valueToDigit_ok (v : Nat) (h : v ≤ 35) : ∃ c, valueToDigit v = some c := by
  unfold valueToDigit
  by_cases h1 : v ≤ 25
  · rw [if_pos h1]
    exact ⟨_, rfl⟩
  · rw [if_neg h1, if_pos (by omega)]
    exact ⟨_, rfl⟩

theorem vliEmit_ok (fuel : Nat) : ∀ q k bias out, q < fuel →
    ∃ out', vliEmit fuel q k bias out = .ok out' := by
  induction fuel with
  | zero => intro q k bias out h; omega
  | succ f ih =>
    intro q k bias out h
    have ht1 := tThreshold_pos k bias
    have ht2 := tThreshold_le k bias
    simp only [vliEmit]
    by_cases hq : q < tThreshold k bias
    · rw [if_pos hq]
      obtain ⟨c, hc⟩ := valueToDigit_ok q (by omega)
      rw [hc]
      exact ⟨_, rfl⟩
    · rw [if_neg hq]
      have hmod : (q - tThreshold k bias) % (BASE - tThreshold k bias) <
          BASE - tThreshold k bias :=
        Nat.mod_lt _ (by simp only [BASE]; omega)
      obtain ⟨c, hc⟩ := valueToDigit_ok
        (tThreshold k bias + (q - tThreshold k bias) % (BASE - tThreshold k bias))
        (by simp only [BASE] at hmod ⊢; omega)
      rw [hc]
      exact ih _ _ _ _ (by
        have hdiv : (q - tThreshold k bias) / (BASE - tThreshold k bias) ≤
            q - tThreshold k bias := Nat.div_le_self _ _
        omega)

/-- `encInner` either reports overflow or succeeds, and on success the
count of processed code points grows by the number of occurrences of
`codePoint` in the input. -/
theorem encInner_ok (bl cp : Nat) (input : List Char) :
    ∀ delta bias processed out,
      encInner bl cp input delta bias processed out = .error .overflow ∨
      ∃ d b o, encInner bl cp input delta bias processed out =
        .ok (d, b, processed + ((input.map charVal).filter (fun v => v == cp)).length, o) := by
  induction input with
  | nil =>
    intro delta bias processed out
    right
    exact ⟨delta, bias, ⟨out, by simp [encInner]⟩⟩
  | cons c rest ih =>
    intro delta bias processed out
    simp only [encInner]
    by_cases hlt : charVal c < cp
    · have hne : ¬ charVal c = cp := by omega
      have hb : (charVal c == cp) = false := by simp [hne]
      simp only [eq_true hlt, if_true, true_and, List.map_cons, List.filter_cons, hb,
        Bool.false_eq_true, if_false]
      by_cases hz : (delta + 1) % (U32MAX + 1) = 0
      · rw [if_pos hz]
        left
        rfl
      · rw [if_neg hz, if_neg hne]
        exact ih ((delta + 1) % (U32MAX + 1)) bias processed out
    · simp only [eq_false hlt, if_false, false_and, List.map_cons, List.filter_cons]
      by_cases heq : charVal c = cp
      · have hb : (charVal c == cp) = true := by simp [heq]
        simp only [hb, if_true, List.length_cons]
        rw [if_pos heq]
        obtain ⟨out', hout⟩ := vliEmit_ok (delta + 1) delta BASE bias out (Nat.lt_succ_self _)
        rw [hout]
        rcases ih 0 (adapt delta (processed + 1) (processed == bl)) (processed + 1) out' with
          h | ⟨d, b, o, h⟩
        · left
          exact h
        · right
          refine ⟨d, b, o, ?_⟩
          have harith : processed + 1 +
              (List.filter (fun v => v == cp) (List.map charVal rest)).length =
              processed + ((List.filter (fun v => v == cp) (List.map charVal rest)).length + 1) := by
            omega
          rw [harith] at h
          exact h
      · have hb : (charVal c == cp) = false := by simp [heq]
        simp only [hb, Bool.false_eq_true, if_false]
        rw [if_neg heq]
        exact ih delta bias processed out

theorem natMin?_eq_some {l : List Nat} {a : Nat} (h : l.min? = some a) :
    a ∈ l ∧ ∀ b ∈ l, a ≤ b := by
  refine (List.min?_eq_some_iff ?_ ?_ ?_).mp h
  · exact fun a => Nat.le_refl a
  · intro a b
    rcases Nat.le_total a b with hab | hab
    · left
      exact Nat.min_eq_left hab
    · right
      exact Nat.min_eq_right hab
  · exact fun a b c => Nat.le_min

theorem count_lt_succ (vals : List Nat) (cp m : Nat) (hcp : cp ≤ m)
    (hgap : ∀ v ∈ vals, cp ≤ v → m ≤ v) :
    (vals.filter (fun v => decide (v < m + 1))).length =
      (vals.filter (fun v => decide (v < cp))).length +
        (vals.filter (fun v => v == m)).length := by
  induction vals with
  | nil => simp
  | cons v rest ih =>
    have hv := hgap v (List.mem_cons_self v rest)
    have ih' := ih (fun x hx h => hgap x (List.mem_cons_of_mem v hx) h)
    simp only [List.filter_cons]
    by_cases h1 : v < cp
    · have h2 : v < m + 1 := by omega
      have h3 : (v == m) = false := by
        simp only [beq_eq_false_iff_ne, ne_eq]
        omega
      simp only [decide_eq_true_eq, h1, h2, if_true, h3, Bool.false_eq_true, if_false,
        List.length_cons, ih']
      omega
    · by_cases h4 : v = m
      · have h2 : v < m + 1 := by omega
        have h3 : (v == m) = true := by simp [h4]
        simp only [decide_eq_true_eq, h1, h2, if_true, if_false, h3, List.length_cons, ih']
        omega
      · have hge : m ≤ v := hv (by omega)
        have h2 : ¬ (v < m + 1) := by omega
        have h3 : (v == m) = false := by simp [h4]
        simp only [decide_eq_true_eq, h1, h2, if_false, h3, Bool.false_eq_true, ih']

/-- The encoder's outer loop either reports overflow or succeeds, given
the invariant that `processed` counts the code points below `codePoint`
and enough fuel for the remaining code points. -/
theorem encLoop_ok (fuel : Nat) :
    ∀ (input : List Char) (bl cp delta bias processed : Nat) (out : List Char),
      processed = ((input.map charVal).filter (fun v => decide (v < cp))).length →
      input.length - processed < fuel →
      encLoop input input.length bl fuel cp delta bias processed out = .error .overflow ∨
        ∃ s, encLoop input input.length bl fuel cp delta bias processed out = .ok s := by
  induction fuel with
  | zero =>
    intro input bl cp delta bias processed out hinv hfuel
    omega
  | succ f ih =>
    intro input bl cp delta bias processed out hinv hfuel
    simp only [encLoop]
    by_cases hlt : processed < input.length
    · rw [if_pos hlt]
      cases hmin : ((input.map charVal).filter (fun c => decide (c ≥ cp))).min? with
      | none =>
        exfalso
        have hnil := List.min?_eq_none_iff.mp hmin
        have hall : ∀ v ∈ input.map charVal, v < cp := by
          intro v hv
          by_contra hcon
          have : v ∈ (input.map charVal).filter (fun c => decide (c ≥ cp)) :=
            List.mem_filter.mpr ⟨hv, by simpa using Nat.le_of_not_lt hcon⟩
          rw [hnil] at this
          exact List.not_mem_nil v this
        have : (input.map charVal).filter (fun v => decide (v < cp)) = input.map charVal :=
          List.filter_eq_self.mpr (fun a ha => by simpa using hall a ha)
        rw [this] at hinv
        simp only [List.length_map] at hinv
        omega
      | some m =>
        dsimp only
        obtain ⟨hmem, hmin'⟩ := natMin?_eq_some hmin
        obtain ⟨hmVals, hmCp⟩ := List.mem_filter.mp hmem
        have hmCp' : cp ≤ m := by simpa using hmCp
        by_cases hov : m - cp > (U32MAX - delta) / (processed + 1)
        · rw [if_pos hov]
          left
          rfl
        · rw [if_neg hov]
          rcases encInner_ok bl m input (delta + (m - cp) * (processed + 1)) bias processed out
            with h | ⟨d, b, o, h⟩
          · rw [h]
            left
            rfl
          · rw [h]
            have hcount1 : 1 ≤ ((input.map charVal).filter (fun v => v == m)).length := by
              have : m ∈ (input.map charVal).filter (fun v => v == m) :=
                List.mem_filter.mpr ⟨hmVals, by simp⟩
              exact List.length_pos.mpr (List.ne_nil_of_mem this)
            have hgap : ∀ v ∈ input.map charVal, cp ≤ v → m ≤ v := by
              intro v hv hcpv
              exact hmin' v (List.mem_filter.mpr ⟨hv, by simpa using hcpv⟩)
            have hinv' : processed + ((input.map charVal).filter (fun v => v == m)).length =
                ((input.map charVal).filter (fun v => decide (v < m + 1))).length := by
              rw [count_lt_succ (input.map charVal) cp m hmCp' hgap, ← hinv]
            exact ih input bl (m + 1) ((d + 1) % (U32MAX + 1)) b
              (processed + ((input.map charVal).filter (fun v => v == m)).length) o
              hinv' (by omega)
    · rw [if_neg hlt]
      right
      exact ⟨out, rfl⟩

/-- C9: every value handed to `value_to_digit` during encoding is below
`BASE`, so its panic arm is unreachable; together with the minimum's
`.unwrap()` being safe and the loop fuel sufficing, `encode_into` never
panics — it either succeeds or reports overflow. -/
theorem C9_encode_no_panic (input : List Char) :
    encodeInto input ≠ .error .panicked ∧ encodeInto input ≠ .error .fuelOut := by
  have hinv : (input.filter isAsciiChar).length =
      ((input.map charVal).filter (fun v => decide (v < INITIAL_N))).length := by
    rw [List.filter_map, List.length_map]
    rfl
  have henc : encodeInto input = encLoop input input.length
      (input.filter isAsciiChar).length (input.length + 1) INITIAL_N 0 INITIAL_BIAS
      (input.filter isAsciiChar).length
      (input.filter isAsciiChar ++
        if (input.filter isAsciiChar).length > 0 then ['-'] else []) := rfl
  rw [henc]
  rcases encLoop_ok (input.length + 1) input (input.filter isAsciiChar).length INITIAL_N 0
      INITIAL_BIAS (input.filter isAsciiChar).length
      (input.filter isAsciiChar ++
        if (input.filter isAsciiChar).length > 0 then ['-'] else [])
      hinv (by omega) with h | ⟨s, h⟩ <;> rw [h] <;> exact ⟨by simp, by simp⟩

/-! ## Lemmas: splitting and joining on dots -/

theorem splitDots_ne_nil (l : List Char) : splitDots l ≠ [] := by
  cases l with
  | nil => simp [splitDots]
  | cons c rest =>
    simp only [splitDots]
    cases splitDots rest with
    | nil => simp
    | cons h t =>
      by_cases hc : c = '.'
      · simp [hc]
      · simp [hc]

theorem joinDots_splitDots (l : List Char) : joinDots (splitDots l) = l := by
  induction l with
  | nil => rfl
  | cons c rest ih =>
    rcases hsp : splitDots rest with _ | ⟨h, t⟩
    · exact absurd hsp (splitDots_ne_nil rest)
    · rw [hsp] at ih
      by_cases hc : c = '.'
      · subst hc
        have hs : splitDots ('.' :: rest) = [] :: h :: t := by
          simp [splitDots, hsp]
        rw [hs]
        show '.' :: joinDots (h :: t) = '.' :: rest
        rw [ih]
      · have hs : splitDots (c :: rest) = (c :: h) :: t := by
          simp only [splitDots, hsp, if_neg hc]
        rw [hs]
        cases t with
        | nil =>
          show c :: h = c :: rest
          simp only [joinDots] at ih
          rw [ih]
        | cons t0 ts =>
          show (c :: h) ++ '.' :: joinDots (t0 :: ts) = c :: rest
          simp only [joinDots] at ih
          simp only [List.cons_append]
          rw [ih]

theorem splitDots_dotfree (p : List Char) (hdf : '.' ∉ p) : splitDots p = [p] := by
  induction p with
  | nil => rfl
  | cons c rest ih =>
    simp only [List.mem_cons, not_or] at hdf
    have hc : ¬ c = '.' := fun h => hdf.1 h.symm
    simp only [splitDots, ih hdf.2, if_neg hc]

theorem splitDots_dotfree_append (p rest : List Char) (hdf : '.' ∉ p) :
    splitDots (p ++ '.' :: rest) = p :: splitDots rest := by
  induction p with
  | nil =>
    rcases hsp : splitDots rest with _ | ⟨h, t⟩
    · exact absurd hsp (splitDots_ne_nil rest)
    · simp [splitDots, hsp]
  | cons c p' ih =>
    simp only [List.mem_cons, not_or] at hdf
    have hc : ¬ c = '.' := fun h => hdf.1 h.symm
    have ih' := ih hdf.2
    simp only [List.cons_append, splitDots, List.append_eq, ih', if_neg hc]

theorem splitDots_joinDots (ps : List (List Char)) (hne : ps ≠ [])
    (hdf : ∀ p ∈ ps, '.' ∉ p) : splitDots (joinDots ps) = ps := by
  induction ps with
  | nil => exact absurd rfl hne
  | cons p rest ih =>
    cases rest with
    | nil =>
      show splitDots (joinDots [p]) = [p]
      simp only [joinDots]
      exact splitDots_dotfree p (hdf p (List.mem_cons_self p []))
    | cons q qs =>
      show splitDots (p ++ '.' :: joinDots (q :: qs)) = p :: q :: qs
      rw [splitDots_dotfree_append p _ (hdf p (List.mem_cons_self p _))]
      rw [ih (by simp) (fun x hx => hdf x (List.mem_cons_of_mem p hx))]

theorem joinDots_cons (p : List Char) (ps : List (List Char)) :
    joinDots (p :: ps) = p ++ (ps.map (fun q => '.' :: q)).flatten := by
  cases ps with
  | nil => simp [joinDots]
  | cons q qs =>
    show p ++ '.' :: joinDots (q :: qs) = _
    rw [joinDots_cons q qs]
    simp

/-! ## Lemmas: the label pass of `processing` as per-label functions -/

/-- What one label contributes to `validated` (uts46.rs lines 352-380):
the Punycode decoding for an `xn--` label that decodes, nothing for an
`xn--` label that fails to decode, the label itself otherwise. -/
def pieceOf (label : List Char) : List Char :=
  if hasPunyMarker label then
    match decode (label.drop 4) with
    | some d => d
    | none => []
  else label

/-- Whether one label keeps `valid` true (uts46.rs lines 360-364, 378). -/
def labelOk (env : Uts46Env) (config : Config) (label : List Char) : Bool :=
  if hasPunyMarker label then
    match decode (label.drop 4) with
    | some d => env.isNfc d && isValid env (config.withTransitionalProcessing false) d
    | none => true
  else isValid env config label

/-- Whether one label turns `has_bidi_labels` on (uts46.rs lines 356-358,
368, 373-375). -/
def labelBidi (env : Uts46Env) (label : List Char) : Bool :=
  if hasPunyMarker label then
    match decode (label.drop 4) with
    | some d => isBidiDomain env d
    | none => true
  else isBidiDomain env label

/-- Whether one label sets the `punycode` error (uts46.rs lines 367-370). -/
def labelPunyBad (label : List Char) : Bool :=
  hasPunyMarker label && (decode (label.drop 4)).isNone

theorem labelLoop_spec (env : Uts46Env) (config : Config) (labels : List (List Char)) :
    ∀ (validated : List Char) (first valid hasBidi : Bool) (errors : Errors),
      labelLoop env config labels validated first valid hasBidi errors =
        ((if first then validated ++ joinDots (labels.map pieceOf)
          else validated ++ (labels.map (fun l => '.' :: pieceOf l)).flatten),
         valid && labels.all (labelOk env config),
         hasBidi || labels.any (labelBidi env),
         { errors with punycode := errors.punycode || labels.any labelPunyBad }) := by
  induction labels with
  | nil =>
    intro validated first valid hasBidi errors
    cases first <;> simp [labelLoop, joinDots]
  | cons label rest ih =>
    intro validated first valid hasBidi errors
    simp only [labelLoop]
    by_cases hp : hasPunyMarker label
    · rw [if_pos hp]
      cases hd : decode (label.drop 4) with
      | some d =>
        dsimp only
        rw [ih]
        have hpiece : pieceOf label = d := by simp [pieceOf, hp, hd]
        have hok : labelOk env config label =
            (env.isNfc d && isValid env (config.withTransitionalProcessing false) d) := by
          simp [labelOk, hp, hd]
        have hbd : labelBidi env label = isBidiDomain env d := by simp [labelBidi, hp, hd]
        have hpb : labelPunyBad label = false := by simp [labelPunyBad, hd]
        refine congrArg₂ Prod.mk ?_ (congrArg₂ Prod.mk ?_ (congrArg₂ Prod.mk ?_ ?_))
        · cases first <;>
            simp [hpiece, joinDots_cons, List.map_map, Function.comp_def, List.append_assoc]
        · simp only [List.all_cons, hok]
          cases valid <;> cases hx : env.isNfc d <;>
            cases hy : isValid env (config.withTransitionalProcessing false) d <;> simp [hx, hy]
        · simp only [List.any_cons, hbd]
          cases hasBidi <;> cases hb : isBidiDomain env d <;> simp [hb]
        · simp only [List.any_cons, hpb, Bool.false_or]
      | none =>
        dsimp only
        rw [ih]
        have hpiece : pieceOf label = [] := by simp [pieceOf, hp, hd]
        have hok : labelOk env config label = true := by simp [labelOk, hp, hd]
        have hbd : labelBidi env label = true := by simp [labelBidi, hp, hd]
        have hpb : labelPunyBad label = true := by simp [labelPunyBad, hp, hd]
        refine congrArg₂ Prod.mk ?_ (congrArg₂ Prod.mk ?_ (congrArg₂ Prod.mk ?_ ?_))
        · cases first <;>
            simp [hpiece, joinDots_cons, List.map_map, Function.comp_def, List.append_assoc]
        · simp only [List.all_cons, hok, Bool.true_and]
        · simp only [List.any_cons, hbd, Bool.true_or]
          cases hasBidi <;> simp
        · simp only [List.any_cons, hpb, Bool.true_or]
          cases he : errors.punycode <;> simp [he]
    · rw [if_neg hp]
      rw [ih]
      have hpiece : pieceOf label = label := by simp [pieceOf, hp]
      have hok : labelOk env config label = isValid env config label := by
        simp [labelOk, hp]
      have hbd : labelBidi env label = isBidiDomain env label := by simp [labelBidi, hp]
      have hpb : labelPunyBad label = false := by simp [labelPunyBad, hp]
      refine congrArg₂ Prod.mk ?_ (congrArg₂ Prod.mk ?_ (congrArg₂ Prod.mk ?_ ?_))
      · cases first <;>
          simp [hpiece, joinDots_cons, List.map_map, Function.comp_def, List.append_assoc]
      · simp only [List.all_cons, hok, Bool.and_assoc]
      · simp only [List.any_cons, hbd]
        cases hasBidi <;> cases hb : isBidiDomain env label <;> simp [hb]
      · simp only [List.any_cons, hpb, Bool.false_or]

/-! ## Lemmas: the slow path of `processing`, named stage by stage -/

/-- The output of the mapping pass with its errors (uts46.rs lines 337-341). -/
def mappedOf (env : Uts46Env) (config : Config) (domain : List Char) : List Char × Errors :=
  mapAll env config domain ([], Errors.default)

/-- The NFC-normalized mapped string (uts46.rs lines 342-343). -/
def normalizedOf (env : Uts46Env) (config : Config) (domain : List Char) : List Char :=
  env.nfc (mappedOf env config domain).1

/-- The labels examined by the label pass (uts46.rs line 348). -/
def labelsOf (env : Uts46Env) (config : Config) (domain : List Char) : List (List Char) :=
  splitDots (normalizedOf env config domain)

/-- The `validated` string (uts46.rs lines 345-381). -/
def validatedOf (env : Uts46Env) (config : Config) (domain : List Char) : List Char :=
  joinDots ((labelsOf env config domain).map pieceOf)

/-- The final `has_bidi_labels` flag (uts46.rs lines 347-381). -/
def hasBidiOf (env : Uts46Env) (config : Config) (domain : List Char) : Bool :=
  (labelsOf env config domain).any (labelBidi env)

/-- Whether every label kept `valid` true in the label pass. -/
def allOkOf (env : Uts46Env) (config : Config) (domain : List Char) : Bool :=
  (labelsOf env config domain).all (labelOk env config)

/-- Whether every label of `validated` passes the bidi check
(uts46.rs lines 383-391). -/
def bidiPassOf (env : Uts46Env) (config : Config) (domain : List Char) : Bool :=
  (splitDots (validatedOf env config domain)).all
    (fun label => passesBidi env label (hasBidiOf env config domain))

/-- Whether some label's Punycode decoding failed (uts46.rs lines 367-370). -/
def punyBadOf (env : Uts46Env) (config : Config) (domain : List Char) : Bool :=
  (labelsOf env config domain).any labelPunyBad

/-- The error set `processing` returns on its slow path. -/
def slowErrors (env : Uts46Env) (config : Config) (domain : List Char) : Errors :=
  let e := (mappedOf env config domain).2
  let e1 := { e with punycode := e.punycode || punyBadOf env config domain }
  if !(allOkOf env config domain && bidiPassOf env config domain) then
    { e1 with validity_criteria := true }
  else e1

theorem charFromU32_toNat {n : Nat} {c : Char} (h : charFromU32 n = some c) :
    charVal c = n := by
  simp only [charFromU32] at h
  by_cases hv : n.isValidChar
  · rw [if_pos hv] at h
    injection h with h
    subst h
    show (Char.ofNat n).toNat = n
    unfold Char.ofNat
    rw [dif_pos hv]
    rfl
  · rw [if_neg hv] at h
    exact absurd h (by simp)

/-- Everything in a `mergeLoop` result comes from the accumulator, the
base, or an insertion. -/
theorem mergeLoop_mem (fuel : Nat) :
    ∀ (ins : List (Nat × Char)) (base : List Char) (position : Nat) (out : List Char)
      (r : List Char) (c : Char), mergeLoop fuel ins base position out = some r →
      c ∈ r → c ∈ out ∨ c ∈ base ∨ ∃ p, (p, c) ∈ ins := by
  induction fuel with
  | zero =>
    intro ins base position out r c hr _
    exact absurd hr (by simp [mergeLoop])
  | succ f ih =>
    intro ins base position out r c hr h
    match ins, base with
    | (pos, d) :: insRest, base =>
      simp only [mergeLoop] at hr
      by_cases hpos : pos = position
      · rw [if_pos hpos] at hr
        rcases ih insRest base (position + 1) (out ++ [d]) r c hr h with h1 | h1 | ⟨p, h1⟩
        · rcases List.mem_append.mp h1 with h2 | h2
          · exact Or.inl h2
          · simp only [List.mem_singleton] at h2
            subst h2
            exact Or.inr (Or.inr ⟨pos, List.mem_cons_self _ _⟩)
        · exact Or.inr (Or.inl h1)
        · exact Or.inr (Or.inr ⟨p, List.mem_cons_of_mem _ h1⟩)
      · rw [if_neg hpos] at hr
        match base with
        | b :: baseRest =>
          rcases ih _ _ _ _ _ c hr h with h1 | h1 | ⟨p, h1⟩
          · rcases List.mem_append.mp h1 with h2 | h2
            · exact Or.inl h2
            · simp only [List.mem_singleton] at h2
              subst h2
              exact Or.inr (Or.inl (List.mem_cons_self _ _))
          · exact Or.inr (Or.inl (List.mem_cons_of_mem _ h1))
          · exact Or.inr (Or.inr ⟨p, h1⟩)
        | [] =>
          rcases ih _ _ _ _ _ c hr h with h1 | h1 | ⟨p, h1⟩
          · exact Or.inl h1
          · exact Or.inr (Or.inl h1)
          · exact Or.inr (Or.inr ⟨p, h1⟩)
    | [], b :: baseRest =>
      simp only [mergeLoop] at hr
      rcases ih _ _ _ _ _ c hr h with h1 | h1 | ⟨p, h1⟩
      · rcases List.mem_append.mp h1 with h2 | h2
        · exact Or.inl h2
        · simp only [List.mem_singleton] at h2
          subst h2
          exact Or.inr (Or.inl (List.mem_cons_self _ _))
      · exact Or.inr (Or.inl (List.mem_cons_of_mem _ h1))
      · exact absurd h1 (List.not_mem_nil _)
    | [], [] =>
      simp only [mergeLoop] at hr
      injection hr with hr
      subst hr
      exact Or.inl h

theorem merge_mem (base : List Char) (ins : List (Nat × Char)) (r : List Char)
    (c : Char) (hr : merge base ins = some r) (h : c ∈ r) :
    c ∈ base ∨ ∃ p, (p, c) ∈ ins := by
  rcases mergeLoop_mem _ ins base 0 [] r c hr h with h1 | h1 | h1
  · exact absurd h1 (List.not_mem_nil _)
  · exact Or.inl h1
  · exact Or.inr h1

/-- Every character inserted by the `insertions` state machine has a code
point at least `INITIAL_N`, the starting `code_point`. -/
theorem insRunE_mem_ge (bytes : List Nat) :
    ∀ (st : InsSt) (vli : Option (Nat × Nat × Nat)) (buf' : List (Nat × Char)),
      insRunE st vli bytes = .ok buf' →
      (∀ q ∈ st.buf, INITIAL_N ≤ charVal q.2) →
      INITIAL_N ≤ st.codePoint →
      ∀ q ∈ buf', INITIAL_N ≤ charVal q.2 := by
  induction bytes with
  | nil =>
    intro st vli buf' h hbuf hcp
    cases vli with
    | none =>
      simp only [insRunE] at h
      injection h with h
      subst h
      exact hbuf
    | some t => simp [insRunE] at h
  | cons b rest ih =>
    intro st vli buf' h hbuf hcp
    simp only [insRunE] at h
    cases hdig : digitOfByte b with
    | none => rw [hdig] at h; exact absurd h (by simp)
    | some digit =>
      rw [hdig] at h
      dsimp only at h
      set pw := (match vli with | none => (st.i, 1, BASE) | some t => t) with hpw
      by_cases hov : digit > (U32MAX - st.i) / pw.2.1
      · rw [if_pos hov] at h
        exact absurd h (by simp)
      · rw [if_neg hov] at h
        by_cases hbr : digit < tThreshold pw.2.2 st.bias
        · rw [if_pos hbr] at h
          by_cases hov2 : (st.i + digit * pw.2.1) / (st.length + 1) > U32MAX - st.codePoint
          · rw [if_pos hov2] at h
            exact absurd h (by simp)
          · rw [if_neg hov2] at h
            cases hch : charFromU32 (st.codePoint + (st.i + digit * pw.2.1) / (st.length + 1)) with
            | none => rw [hch] at h; exact absurd h (by simp)
            | some c =>
              rw [hch] at h
              refine ih _ none buf' h ?_ ?_
              · intro q hq
                rcases List.mem_append.mp hq with h1 | h1
                · obtain ⟨q0, hq0, rfl⟩ := List.mem_map.mp h1
                  have := hbuf q0 hq0
                  by_cases hle : (st.i + digit * pw.2.1) % (st.length + 1) ≤ q0.1 <;>
                    simp [hle] at * <;> omega
                · simp only [List.mem_singleton] at h1
                  subst h1
                  show INITIAL_N ≤ charVal c
                  rw [charFromU32_toNat hch]
                  exact le_trans hcp (Nat.le_add_right _ _)
              · show INITIAL_N ≤ st.codePoint + (st.i + digit * pw.2.1) / (st.length + 1)
                exact le_trans hcp (Nat.le_add_right _ _)
        · rw [if_neg hbr] at h
          by_cases hov3 : pw.2.1 > U32MAX / (BASE - tThreshold pw.2.2 st.bias)
          · rw [if_pos hov3] at h
            exact absurd h (by simp)
          · rw [if_neg hov3] at h
            exact ih _ _ buf' h hbuf hcp

theorem insertSorted_mem (p : Nat × Char) (l : List (Nat × Char)) (q : Nat × Char)
    (h : q ∈ insertSorted p l) : q = p ∨ q ∈ l := by
  induction l with
  | nil => simpa [insertSorted] using h
  | cons r rest ih =>
    simp only [insertSorted] at h
    by_cases hr : r.1 ≤ p.1
    · rw [if_pos hr] at h
      rcases List.mem_cons.mp h with h1 | h1
      · exact Or.inr (h1 ▸ List.mem_cons_self _ _)
      · rcases ih h1 with h2 | h2
        · exact Or.inl h2
        · exact Or.inr (List.mem_cons_of_mem _ h2)
    · rw [if_neg hr] at h
      rcases List.mem_cons.mp h with h1 | h1
      · exact Or.inl h1
      · exact Or.inr h1

theorem sortByPos_mem (l : List (Nat × Char)) (q : Nat × Char) (h : q ∈ sortByPos l) :
    q ∈ l := by
  induction l with
  | nil => simpa [sortByPos] using h
  | cons r rest ih =>
    rcases insertSorted_mem r (sortByPos rest) q h with h1 | h1
    · exact h1 ▸ List.mem_cons_self _ _
    · exact List.mem_cons_of_mem _ (ih h1)

theorem decodeSplit_base_subset (s : List Char) : (decodeSplit s).1 ⊆ s := by
  unfold decodeSplit
  cases rfindDash s with
  | none => simp
  | some p => simpa using List.take_subset p s

theorem decodeSplit_ext_subset (s : List Char) : (decodeSplit s).2 ⊆ s := by
  unfold decodeSplit
  cases rfindDash s with
  | none => simp
  | some p =>
    by_cases hp : p > 0
    · simpa [hp] using List.drop_subset (p + 1) s
    · simp [hp]

/-- Every character of a decoded string is a character of the input or a
code point at least U+0080. -/
theorem decode_mem (s d : List Char) (h : decode s = some d) :
    ∀ c ∈ d, c ∈ s ∨ INITIAL_N ≤ charVal c := by
  intro c hc
  simp only [decode, insertions] at h
  rcases hsplit : decodeSplit s with ⟨base, ext⟩
  rw [hsplit] at h
  cases hrun : insRunE (initSt base) none (utf8Bytes ext) with
  | error e => rw [hrun] at h; exact absurd h (by simp)
  | ok buf =>
    rw [hrun] at h
    simp only at h
    rcases merge_mem base (sortByPos buf) d c h hc with h1 | ⟨p, h1⟩
    · left
      have : base = (decodeSplit s).1 := by rw [hsplit]
      exact decodeSplit_base_subset s (this ▸ h1)
    · right
      have hmem := sortByPos_mem buf (p, c) h1
      exact insRunE_mem_ge (utf8Bytes ext) (initSt base) none buf hrun
        (by intro q hq; simp [initSt] at hq)
        (by simp [initSt]) (p, c) hmem

theorem splitDots_not_mem_dot (l : List Char) :
    ∀ label ∈ splitDots l, '.' ∉ label := by
  induction l with
  | nil =>
    intro label hl
    simp only [splitDots, List.mem_singleton] at hl
    subst hl
    simp
  | cons c rest ih =>
    intro label hl
    rcases hsp : splitDots rest with _ | ⟨h, t⟩
    · exact absurd hsp (splitDots_ne_nil rest)
    · rw [hsp] at ih
      by_cases hc : c = '.'
      · subst hc
        have hs : splitDots ('.' :: rest) = [] :: h :: t := by simp [splitDots, hsp]
        rw [hs] at hl
        rcases List.mem_cons.mp hl with rfl | hl'
        · simp
        · exact ih label hl'
      · have hs : splitDots (c :: rest) = (c :: h) :: t := by
          simp only [splitDots, hsp, if_neg hc]
        rw [hs] at hl
        rcases List.mem_cons.mp hl with rfl | hl'
        · intro hmem
          rcases List.mem_cons.mp hmem with h1 | h1
          · exact hc h1.symm
          · exact ih h (List.mem_cons_self _ _) h1
        · exact ih label (List.mem_cons_of_mem _ hl')

theorem pieceOf_dotfree (label : List Char) (hdf : '.' ∉ label) :
    '.' ∉ pieceOf label := by
  unfold pieceOf
  by_cases hp : hasPunyMarker label
  · rw [if_pos hp]
    cases hd : decode (label.drop 4) with
    | none => simp
    | some d =>
      intro hmem
      rcases decode_mem _ d hd '.' hmem with h1 | h1
      · exact hdf (List.drop_subset 4 label h1)
      · simp only [INITIAL_N, charVal] at h1
        have : ('.' : Char).toNat = 46 := rfl
        omega
  · rw [if_neg hp]
    exact hdf

/-- The labels of `validated` are exactly the per-label pieces. -/
theorem splitDots_validatedOf (env : Uts46Env) (config : Config) (domain : List Char) :
    splitDots (validatedOf env config domain) = (labelsOf env config domain).map pieceOf := by
  apply splitDots_joinDots
  · intro hcon
    have := splitDots_ne_nil (normalizedOf env config domain)
    rw [labelsOf] at hcon
    exact this (List.map_eq_nil_iff.mp hcon)
  · intro p hp
    obtain ⟨label, hl, rfl⟩ := List.mem_map.mp hp
    exact pieceOf_dotfree label (splitDots_not_mem_dot _ label hl)

/-! ## Lemmas: the fast-path scan -/

theorem simpleGo_chars (l : List Char) : ∀ (prev : Char) (puny : Nat),
    simpleGo prev puny l = true →
    ∀ c ∈ l, c = '.' ∨ isAsciiLower c = true ∨ isAsciiDigit c = true := by
  induction l with
  | nil =>
    intro prev puny _ c hc
    simp at hc
  | cons a rest ih =>
    intro prev puny h c hc
    simp only [simpleGo] at h
    by_cases ha : a = '.'
    · rw [if_pos ha] at h
      by_cases hprev : prev = '-'
      · rw [if_pos hprev] at h
        exact absurd h (by simp)
      · rw [if_neg hprev] at h
        rcases List.mem_cons.mp hc with rfl | hc'
        · exact Or.inl ha
        · exact ih prev 0 h c hc'
    · rw [if_neg ha] at h
      by_cases hd : puny = 0 ∧ a = '-'
      · rw [if_pos hd] at h
        exact absurd h (by simp)
      · rw [if_neg hd] at h
        by_cases hbr : (puny < 5 ∧ a = xnElem puny) ∧
            (if puny < 5 then (if a = xnElem puny then puny + 1 else 5) else puny) = 4
        · rw [if_pos hbr] at h
          exact absurd h (by simp)
        · rw [if_neg hbr] at h
          by_cases hld : (!isAsciiLower a && !isAsciiDigit a) = true
          · rw [if_pos hld] at h
            exact absurd h (by simp)
          · rw [if_neg hld] at h
            rcases List.mem_cons.mp hc with rfl | hc'
            · right
              simp only [Bool.and_eq_true, Bool.not_eq_true', not_and_or,
                Bool.not_eq_false] at hld
              rcases hld with h1 | h1
              · exact Or.inl h1
              · exact Or.inr h1
            · exact ih a _ h c hc'

theorem simpleScan_chars (domain : List Char) (h : simpleScan domain = true) :
    domain ≠ [] ∧
    ∀ c ∈ domain, c = '.' ∨ isAsciiLower c = true ∨ isAsciiDigit c = true := by
  simp only [simpleScan, Bool.and_eq_true] at h
  refine ⟨?_, simpleGo_chars domain '?' 0 h.2⟩
  intro hd
  subst hd
  simp at h

theorem processing_slow (env : Uts46Env) (config : Config) (domain : List Char)
    (h : simpleScan domain = false) :
    processing env config domain =
      (validatedOf env config domain, slowErrors env config domain) := by
  simp only [processing, h, Bool.false_eq_true, if_false]
  rcases hm : mapAll env config domain ([], Errors.default) with ⟨mp, er⟩
  rw [labelLoop_spec]
  simp only [if_true, List.nil_append]
  simp only [validatedOf, slowErrors, mappedOf, normalizedOf, labelsOf, hasBidiOf,
    allOkOf, bidiPassOf, punyBadOf, hm, Bool.true_and, Bool.false_or]

/-! ## C7 and C10: the label pass on `xn--` labels -/

/-- C7: during the label pass every `xn--` label whose Punycode decoding
succeeds is validated with `transitional_processing` forced to `false` —
whatever the caller's configuration says — and must additionally be
NFC-normalized; failing either check raises `validity_criteria`. -/
theorem C7_xn_nontransitional (env : Uts46Env) (config : Config) (domain : List Char)
    (label d : List Char)
    (hsimple : simpleScan domain = false)
    (hmem : label ∈ labelsOf env config domain)
    (hxn : hasPunyMarker label = true)
    (hdec : decode (label.drop 4) = some d)
    (hbad : env.isNfc d = false ∨
      isValid env (config.withTransitionalProcessing false) d = false) :
    (processing env config domain).2.validity_criteria = true := by
  rw [processing_slow env config domain hsimple]
  simp only [slowErrors]
  have hok : labelOk env config label = false := by
    simp only [labelOk, hxn, if_true, hdec]
    rcases hbad with h | h <;> simp [h]
  have hall : allOkOf env config domain = false := by
    simp only [allOkOf]
    exact List.all_eq_false.mpr ⟨label, hmem, by simp [hok]⟩
  simp [hall]

/-- C7 at a concrete input: under a transitional caller configuration the
label `xn--a` decodes to U+0080, which the mapping table disallows, so
`validity_criteria` fires. -/
theorem C7_witness :
    (processing specEnv (Config.default.withTransitionalProcessing true)
      ['x', 'n', '-', '-', 'a']).2.validity_criteria = true :=
  C7_xn_nontransitional specEnv (Config.default.withTransitionalProcessing true)
    ['x', 'n', '-', '-', 'a'] ['x', 'n', '-', '-', 'a'] [Char.ofNat 0x80]
    (by decide) (by decide) (by decide) (by decide)
    (Or.inr (by decide))

/-- C10: when an `xn--` label fails Punycode decoding, the `punycode`
error is recorded, the bidi pass is forced on for the whole domain, and
that label contributes nothing to the output: `to_unicode` returns a
string whose label at that position is empty. -/
theorem C10_xn_decode_failure (env : Uts46Env) (config : Config) (domain : List Char)
    (label : List Char) (j : Nat)
    (hsimple : simpleScan domain = false)
    (hj : (labelsOf env config domain)[j]? = some label)
    (hxn : hasPunyMarker label = true)
    (hdec : decode (label.drop 4) = none) :
    (processing env config domain).2.punycode = true ∧
    hasBidiOf env config domain = true ∧
    (splitDots (toUnicode env config domain).1)[j]? = some [] := by
  have hmem : label ∈ labelsOf env config domain := by
    exact List.getElem?_mem hj
  have hbad : labelPunyBad label = true := by simp [labelPunyBad, hxn, hdec]
  refine ⟨?_, ?_, ?_⟩
  · rw [processing_slow env config domain hsimple]
    simp only [slowErrors]
    have hpuny : punyBadOf env config domain = true := by
      simp only [punyBadOf]
      exact List.any_eq_true.mpr ⟨label, hmem, hbad⟩
    by_cases hv : allOkOf env config domain && bidiPassOf env config domain
    · simp [hv, hpuny]
    · simp only [Bool.not_eq_true] at hv
      simp [hv, hpuny]
  · simp only [hasBidiOf]
    refine List.any_eq_true.mpr ⟨label, hmem, ?_⟩
    simp [labelBidi, hxn, hdec]
  · have htu : (toUnicode env config domain).1 = validatedOf env config domain := by
      simp only [toUnicode, processing_slow env config domain hsimple]
    rw [htu, splitDots_validatedOf]
    rw [List.getElem?_map, hj]
    simp [pieceOf, hxn, hdec]

/-- C10 at a concrete input: in `xn--0.ab` the first label fails Punycode
decoding (truncated integer), the punycode error fires, the bidi pass is
forced on, and the first output label is empty. -/
theorem C10_witness :
    (processing specEnv Config.default ['x', 'n', '-', '-', '0', '.', 'a', 'b']).2.punycode
        = true ∧
      hasBidiOf specEnv Config.default ['x', 'n', '-', '-', '0', '.', 'a', 'b'] = true ∧
      (splitDots (toUnicode specEnv Config.default
        ['x', 'n', '-', '-', '0', '.', 'a', 'b']).1)[0]? = some [] :=
  C10_xn_decode_failure specEnv Config.default ['x', 'n', '-', '-', '0', '.', 'a', 'b']
    ['x', 'n', '-', '-', '0'] 0 (by decide) (by decide) (by decide) (by decide)

/-! ## C6: ASCII domains that need no work pass through unchanged -/

theorem splitDots_subset (l : List Char) :
    ∀ label ∈ splitDots l, ∀ c ∈ label, c ∈ l := by
  induction l with
  | nil =>
    intro label hl c hc
    simp only [splitDots, List.mem_singleton] at hl
    subst hl
    simp at hc
  | cons a rest ih =>
    intro label hl c hc
    rcases hsp : splitDots rest with _ | ⟨h, t⟩
    · exact absurd hsp (splitDots_ne_nil rest)
    · rw [hsp] at ih
      by_cases ha : a = '.'
      · subst ha
        have hs : splitDots ('.' :: rest) = [] :: h :: t := by simp [splitDots, hsp]
        rw [hs] at hl
        rcases List.mem_cons.mp hl with rfl | hl'
        · simp at hc
        · exact List.mem_cons_of_mem _ (ih label hl' c hc)
      · have hs : splitDots (a :: rest) = (a :: h) :: t := by
          simp only [splitDots, hsp, if_neg ha]
        rw [hs] at hl
        rcases List.mem_cons.mp hl with rfl | hl'
        · rcases List.mem_cons.mp hc with rfl | hc'
          · exact List.mem_cons_self _ _
          · exact List.mem_cons_of_mem _ (ih h (List.mem_cons_self _ _) c hc')
        · exact List.mem_cons_of_mem _ (ih label (List.mem_cons_of_mem _ hl') c hc)

/-- The `map_char` fast path: strings of `[a-z0-9.-]` map to themselves
with no errors. -/
theorem mapAll_fast (env : Uts46Env) (config : Config) (l : List Char) :
    ∀ acc : List Char × Errors,
      (∀ c ∈ l, c = '.' ∨ c = '-' ∨ isAsciiLower c = true ∨ isAsciiDigit c = true) →
      mapAll env config l acc = (acc.1 ++ l, acc.2) := by
  induction l with
  | nil =>
    intro acc _
    simp [mapAll]
  | cons c rest ih =>
    intro acc hc
    have hfast : c = '.' ∨ c = '-' ∨ isAsciiLower c = true ∨ isAsciiDigit c = true :=
      hc c (List.mem_cons_self _ _)
    have hmc : mapChar env config c acc = (acc.1 ++ [c], acc.2) := by
      simp only [mapChar]
      rw [if_pos (by simpa using hfast)]
    simp only [mapAll, hmc]
    rw [ih (acc.1 ++ [c], acc.2) (fun x hx => hc x (List.mem_cons_of_mem _ hx))]
    simp

theorem lowerDigit_ascii (c : Char)
    (h : c = '.' ∨ c = '-' ∨ isAsciiLower c = true ∨ isAsciiDigit c = true) :
    isAsciiChar c = true := by
  simp only [isAsciiChar, decide_eq_true_eq]
  rcases h with rfl | rfl | h | h
  · decide
  · decide
  · simp only [isAsciiLower, Bool.and_eq_true, decide_eq_true_eq] at h
    have h2 : c.toNat ≤ ('z' : Char).toNat := h.2
    have hz : ('z' : Char).toNat = 122 := by decide
    omega
  · simp only [isAsciiDigit, Bool.and_eq_true, decide_eq_true_eq] at h
    have h2 : c.toNat ≤ ('9' : Char).toNat := h.2
    have hz : ('9' : Char).toNat = 57 := by decide
    omega

theorem lowerDigit_graphic (c : Char)
    (h : c = '-' ∨ isAsciiLower c = true ∨ isAsciiDigit c = true) :
    isAsciiGraphic c = true := by
  simp only [isAsciiGraphic, Bool.and_eq_true, decide_eq_true_eq]
  rcases h with rfl | h | h
  · refine ⟨by decide, by decide⟩
  · simp only [isAsciiLower, Bool.and_eq_true, decide_eq_true_eq] at h
    have h1 : ('a' : Char).toNat ≤ c.toNat := h.1
    have h2 : c.toNat ≤ ('z' : Char).toNat := h.2
    have ha : ('a' : Char).toNat = 97 := by decide
    have hz : ('z' : Char).toNat = 122 := by decide
    exact ⟨by omega, by omega⟩
  · simp only [isAsciiDigit, Bool.and_eq_true, decide_eq_true_eq] at h
    have h1 : ('0' : Char).toNat ≤ c.toNat := h.1
    have h2 : c.toNat ≤ ('9' : Char).toNat := h.2
    have ha : ('0' : Char).toNat = 48 := by decide
    have hz : ('9' : Char).toNat = 57 := by decide
    exact ⟨by omega, by omega⟩

/-- C6: a non-empty domain containing only `[a-z0-9.-]`, in which no
label starts or ends with `-` and no label begins with `xn--`, passes
through `processing` verbatim with an empty error set, for every
configuration — provided the external services behave as UTS #46
specifies on ASCII: NFC is the identity on ASCII strings, ASCII
characters are not combining marks, and the mapping table agrees with
the fast path on `[a-z0-9-]` (the repository's `mapping_fast_path` test
asserts exactly this agreement). -/
theorem C6_simple_ascii (env : Uts46Env) (config : Config) (domain : List Char)
    (hnfc : ∀ l : List Char, (∀ c ∈ l, isAsciiChar c = true) → env.nfc l = l)
    (hcm : ∀ c : Char, isAsciiChar c = true → env.isCombiningMark c = false)
    (htab : ∀ c : Char, c = '-' ∨ isAsciiLower c = true ∨ isAsciiDigit c = true →
      env.findChar c = .Valid)
    (hne : domain ≠ [])
    (hchars : ∀ c ∈ domain,
      c = '.' ∨ c = '-' ∨ isAsciiLower c = true ∨ isAsciiDigit c = true)
    (hhyph : ∀ label ∈ splitDots domain,
      label.head? ≠ some '-' ∧ label.getLast? ≠ some '-')
    (hxn : ∀ label ∈ splitDots domain, hasPunyMarker label = false) :
    processing env config domain = (domain, Errors.default) := by
  have hascii : ∀ c ∈ domain, isAsciiChar c = true :=
    fun c hc => lowerDigit_ascii c (hchars c hc)
  have hnotdot : ∀ label ∈ splitDots domain, ∀ c ∈ label,
      c = '-' ∨ isAsciiLower c = true ∨ isAsciiDigit c = true := by
    intro label hl c hc
    rcases hchars c (splitDots_subset domain label hl c hc) with rfl | h | h | h
    · exact absurd hc (splitDots_not_mem_dot domain label hl)
    · exact Or.inl h
    · exact Or.inr (Or.inl h)
    · exact Or.inr (Or.inr h)
  by_cases hs : simpleScan domain
  · simp [processing, hs]
  · rw [processing_slow env config domain (by simpa using hs)]
    have hmap : mappedOf env config domain = (domain, Errors.default) := by
      simp only [mappedOf]
      rw [mapAll_fast env config domain ([], Errors.default) hchars]
      simp
    have hnorm : normalizedOf env config domain = domain := by
      simp only [normalizedOf, hmap]
      exact hnfc domain hascii
    have hlab : labelsOf env config domain = splitDots domain := by
      simp only [labelsOf, hnorm]
    have hpiece : ∀ label ∈ splitDots domain, pieceOf label = id label := by
      intro label hl
      simp [pieceOf, hxn label hl]
    have hmapid : (splitDots domain).map pieceOf = splitDots domain := by
      rw [List.map_congr_left hpiece, List.map_id]
    have hvall : validatedOf env config domain = domain := by
      simp only [validatedOf, hlab, hmapid]
      exact joinDots_splitDots domain
    have hok : ∀ label ∈ splitDots domain, labelOk env config label = true := by
      intro label hl
      simp only [labelOk, hxn label hl, Bool.false_eq_true, if_false]
      cases hhead : label.head? with
      | none => simp [isValid, hhead]
      | some first =>
        have hfmem : first ∈ label := List.mem_of_mem_head? hhead
        have hfirst := hnotdot label hl first hfmem
        simp only [isValid, hhead]
        rw [if_neg, if_neg, if_neg]
        · refine fun hcon => ?_
          rw [List.any_eq_true] at hcon
          obtain ⟨c, hc, hbad⟩ := hcon
          have := htab c (hnotdot label hl c hc)
          simp [badV6, this] at hbad
        · rw [hcm first (lowerDigit_ascii first (Or.inr hfirst))]
          simp
        · simp only [Bool.and_eq_true, not_and]
          intro _
          have h1 := (hhyph label hl).1
          have h2 := (hhyph label hl).2
          simp only [Bool.or_eq_true, decide_eq_true_eq]
          rintro (hcon | hcon)
          · exact h1 (hhead.trans hcon)
          · exact h2 hcon
    have hallok : allOkOf env config domain = true := by
      simp only [allOkOf, hlab]
      exact List.all_eq_true.mpr hok
    have hbd : ∀ label ∈ splitDots domain, labelBidi env label = false := by
      intro label hl
      simp only [labelBidi, hxn label hl, Bool.false_eq_true, if_false]
      simp only [isBidiDomain]
      refine List.any_eq_false.mpr ?_
      intro c hc
      have hgr := lowerDigit_graphic c (hnotdot label hl c hc)
      simp [hgr]
    have hbidi : hasBidiOf env config domain = false := by
      simp only [hasBidiOf, hlab]
      refine List.any_eq_false.mpr ?_
      intro label hl
      simp [hbd label hl]
    have hpass : bidiPassOf env config domain = true := by
      simp only [bidiPassOf, hvall, hbidi]
      refine List.all_eq_true.mpr ?_
      intro label _
      simp [passesBidi]
    have hpb : punyBadOf env config domain = false := by
      simp only [punyBadOf, hlab]
      refine List.any_eq_false.mpr ?_
      intro label hl
      simp [labelPunyBad, hxn label hl]
    simp only [slowErrors, hmap, hvall, hallok, hpass, hpb]
    simp

/-- C6 at a concrete input: the domain `a-b.c9` (which takes the slow
path, since the scan rejects every `-`) passes through unchanged under a
configuration with every option enabled. -/
theorem C6_witness :
    processing specEnv
      { use_std3_ascii_rules := true, transitional_processing := true,
        verify_dns_length := true, check_hyphens := true }
      ['a', '-', 'b', '.', 'c', '9'] = (['a', '-', 'b', '.', 'c', '9'], Errors.default) := by
  refine C6_simple_ascii specEnv _ _ ?_ ?_ ?_ (by decide) (by decide) (by decide) (by decide)
  · exact fun l _ => rfl
  · intro c hc
    simp only [isAsciiChar, decide_eq_true_eq] at hc
    simp only [specEnv]
    rw [decide_eq_false]
    intro hcon
    omega
  · intro c h
    have hgr := lowerDigit_graphic c h
    simp only [specEnv, specFindChar]
    rw [if_pos]
    rcases h with rfl | h | h
    · simp
    · simp only [isAsciiLower, Bool.and_eq_true, decide_eq_true_eq] at h
      exact Or.inl h
    · simp only [isAsciiDigit, Bool.and_eq_true, decide_eq_true_eq] at h
      exact Or.inr (Or.inl h)

/-! ## C5: the DNS length verification -/

theorem toAsciiLabels_dns (labels : List (List Char)) :
    ∀ (result : List Char) (first : Bool) (errors : Errors),
      (toAsciiLabels labels result first errors).2.too_short_for_dns =
          errors.too_short_for_dns ∧
        (toAsciiLabels labels result first errors).2.too_long_for_dns =
          errors.too_long_for_dns := by
  induction labels with
  | nil =>
    intro result first errors
    simp [toAsciiLabels]
  | cons label rest ih =>
    intro result first errors
    simp only [toAsciiLabels]
    by_cases ha : label.all isAsciiChar
    · rw [if_pos ha]
      exact ih _ _ _
    · rw [if_neg ha]
      cases he : encode label with
      | some x => exact ih _ _ _
      | none => exact ih _ _ _

theorem mapAll_dns (env : Uts46Env) (config : Config) (l : List Char) :
    ∀ acc : List Char × Errors,
      (mapAll env config l acc).2.too_short_for_dns = acc.2.too_short_for_dns ∧
        (mapAll env config l acc).2.too_long_for_dns = acc.2.too_long_for_dns := by
  induction l with
  | nil =>
    intro acc
    simp [mapAll]
  | cons c rest ih =>
    intro acc
    have hflags : (mapChar env config c acc).2.too_short_for_dns =
        acc.2.too_short_for_dns ∧
        (mapChar env config c acc).2.too_long_for_dns = acc.2.too_long_for_dns := by
      simp only [mapChar]
      split
      · simp
      · split <;> (try split) <;> simp
    simp only [mapAll]
    rcases ih (mapChar env config c acc) with ⟨h1, h2⟩
    rw [h1, h2, hflags.1, hflags.2]
    exact ⟨rfl, rfl⟩

theorem processing_dns (env : Uts46Env) (config : Config) (domain : List Char) :
    (processing env config domain).2.too_short_for_dns = false ∧
      (processing env config domain).2.too_long_for_dns = false := by
  by_cases hs : simpleScan domain
  · simp [processing, hs, Errors.default]
  · rw [processing_slow env config domain (by simpa using hs)]
    have hm := mapAll_dns env config domain ([], Errors.default)
    have hm1 : (mapAll env config domain ([], Errors.default)).2.too_short_for_dns = false :=
      hm.1.trans rfl
    have hm2 : (mapAll env config domain ([], Errors.default)).2.too_long_for_dns = false :=
      hm.2.trans rfl
    simp only [slowErrors, mappedOf]
    split <;> simp [hm1, hm2]

theorem toAsciiRaw_dns (env : Uts46Env) (config : Config) (domain : List Char) :
    (toAsciiRaw env config domain).2.too_short_for_dns = false ∧
      (toAsciiRaw env config domain).2.too_long_for_dns = false := by
  have hp := processing_dns env config domain
  simp only [toAsciiRaw]
  rcases hpr : processing env config domain with ⟨d, errors⟩
  rw [hpr] at hp
  have := toAsciiLabels_dns (splitDots d) [] true errors
  simp only at hp ⊢
  rw [this.1, this.2, hp.1, hp.2]
  exact ⟨rfl, rfl⟩

/-- C5: with `verify_dns_length` on, `to_ascii` records
`too_short_for_dns` iff the produced domain, once a trailing `.` is
stripped, is empty or has an empty label, and `too_long_for_dns` iff
that stripped domain exceeds 253 bytes or one of its labels exceeds 63
bytes; when neither condition holds no DNS-length flag is set. -/
theorem C5_dns_length (env : Uts46Env) (config : Config) (domain : List Char)
    (hv : config.verify_dns_length = true) :
    ((toAsciiFull env config domain).2.too_short_for_dns = true ↔
      (stripTrailingDot (toAsciiRaw env config domain).1).isEmpty = true ∨
        ∃ l ∈ splitDots (stripTrailingDot (toAsciiRaw env config domain).1),
          l.isEmpty = true) ∧
    ((toAsciiFull env config domain).2.too_long_for_dns = true ↔
      utf8Length (stripTrailingDot (toAsciiRaw env config domain).1) > 253 ∨
        ∃ l ∈ splitDots (stripTrailingDot (toAsciiRaw env config domain).1),
          utf8Length l > 63) := by
  have hdns := toAsciiRaw_dns env config domain
  simp only [toAsciiFull]
  rcases hr : toAsciiRaw env config domain with ⟨result, errors⟩
  rw [hr] at hdns
  simp only at hdns ⊢
  rw [hv]
  simp only [if_true]
  by_cases h2 : utf8Length (stripTrailingDot result) > 253 ∨
      ∃ l ∈ splitDots (stripTrailingDot result), utf8Length l > 63
  · rw [if_pos (by simpa [List.any_eq_true] using h2)]
    by_cases h1 : stripTrailingDot result = [] ∨ [] ∈ splitDots (stripTrailingDot result)
    · rw [if_pos (by simpa [List.any_eq_true, List.isEmpty_iff] using h1)]
      exact ⟨by simp [h1], by simp [h2]⟩
    · rw [if_neg (by simpa [List.any_eq_true, List.isEmpty_iff] using h1)]
      exact ⟨by simp [h1, hdns.1], by simp [h2]⟩
  · rw [if_neg (by simpa [List.any_eq_true] using h2)]
    by_cases h1 : stripTrailingDot result = [] ∨ [] ∈ splitDots (stripTrailingDot result)
    · rw [if_pos (by simpa [List.any_eq_true, List.isEmpty_iff] using h1)]
      exact ⟨by simp [h1], by simp [h2, hdns.2]⟩
    · rw [if_neg (by simpa [List.any_eq_true, List.isEmpty_iff] using h1)]
      exact ⟨by simp [h1, hdns.1], by simp [h2, hdns.2]⟩

/-- C5 at concrete inputs: `ab` sets no DNS flag, the empty domain sets
`too_short_for_dns`. -/
theorem C5_witness :
    (toAsciiFull specEnv { Config.default with verify_dns_length := true }
        ['a', 'b']).2.too_short_for_dns = false ∧
      (toAsciiFull specEnv { Config.default with verify_dns_length := true }
        []).2.too_short_for_dns = true := by
  constructor
  · rw [Bool.eq_false_iff]
    intro hcon
    have h := (C5_dns_length specEnv
      { Config.default with verify_dns_length := true } ['a', 'b'] rfl).1.mp hcon
    revert h
    decide
  · exact (C5_dns_length specEnv
      { Config.default with verify_dns_length := true } [] rfl).1.mpr (by decide)

/-! ## C8: bidi rule 4 -/

/-- Rule 4 (uts46.rs lines 235-238): an RTL label containing both an `EN`
and an `AN` character fails `passes_bidi`. -/
theorem rtl_en_an_fails (env : Uts46Env) (first : Char) (rest : List Char)
    (hfirst : env.bidiClass first = .R ∨ env.bidiClass first = .AL)
    (hEn : ∃ c ∈ first :: rest, env.bidiClass c = .EN)
    (hAn : ∃ c ∈ first :: rest, env.bidiClass c = .AN) :
    passesBidi env (first :: rest) true = false := by
  have hEn' : rest.any (fun c => env.bidiClass c == .EN) = true := by
    obtain ⟨c, hc, hcl⟩ := hEn
    rcases List.mem_cons.mp hc with rfl | hc'
    · rcases hfirst with h | h <;> rw [h] at hcl <;> exact absurd hcl (by simp)
    · exact List.any_eq_true.mpr ⟨c, hc', by simp [hcl]⟩
  have hAn' : rest.any (fun c => env.bidiClass c == .AN) = true := by
    obtain ⟨c, hc, hcl⟩ := hAn
    rcases List.mem_cons.mp hc with rfl | hc'
    · rcases hfirst with h | h <;> rw [h] at hcl <;> exact absurd hcl (by simp)
    · exact List.any_eq_true.mpr ⟨c, hc', by simp [hcl]⟩
  simp only [passesBidi, Bool.not_true, Bool.false_eq_true, if_false]
  rcases hfirst with h | h <;> rw [h] <;>
    simp only [hEn', hAn', Bool.and_true, Bool.not_true] <;>
    · split
      · rfl
      · cases lastNonNsm env (first :: rest) with
        | none => rfl
        | some c =>
          dsimp only
          split <;> rfl

/-- An `EN`-and-`AN` label fails the bidi check whatever its first
character is: `L` fails rule 5, `R`/`AL` fails rule 4, anything else
fails rule 1. -/
theorem en_an_fails (env : Uts46Env) (label : List Char)
    (hEn : ∃ c ∈ label, env.bidiClass c = .EN)
    (hAn : ∃ c ∈ label, env.bidiClass c = .AN) :
    passesBidi env label true = false := by
  cases label with
  | nil =>
    obtain ⟨c, hc, _⟩ := hEn
    simp at hc
  | cons first rest =>
    cases hcl : env.bidiClass first with
    | R => exact rtl_en_an_fails env first rest (Or.inl hcl) hEn hAn
    | AL => exact rtl_en_an_fails env first rest (Or.inr hcl) hEn hAn
    | L =>
      obtain ⟨c, hc, hcan⟩ := hAn
      rcases List.mem_cons.mp hc with rfl | hc'
      · rw [hcl] at hcan
        exact absurd hcan (by simp)
      · have hany : rest.any (fun c => !ltrAllowed (env.bidiClass c)) = true :=
          List.any_eq_true.mpr ⟨c, hc', by simp [hcan, ltrAllowed]⟩
        simp only [passesBidi, Bool.not_true, Bool.false_eq_true, if_false]
        rw [hcl]
        simp only [hany, if_true]
    | AN =>
      simp only [passesBidi, Bool.not_true, Bool.false_eq_true, if_false]
      rw [hcl]
    | EN =>
      simp only [passesBidi, Bool.not_true, Bool.false_eq_true, if_false]
      rw [hcl]
    | ES =>
      simp only [passesBidi, Bool.not_true, Bool.false_eq_true, if_false]
      rw [hcl]
    | CS =>
      simp only [passesBidi, Bool.not_true, Bool.false_eq_true, if_false]
      rw [hcl]
    | ET =>
      simp only [passesBidi, Bool.not_true, Bool.false_eq_true, if_false]
      rw [hcl]
    | ON =>
      simp only [passesBidi, Bool.not_true, Bool.false_eq_true, if_false]
      rw [hcl]
    | BN =>
      simp only [passesBidi, Bool.not_true, Bool.false_eq_true, if_false]
      rw [hcl]
    | NSM =>
      simp only [passesBidi, Bool.not_true, Bool.false_eq_true, if_false]
      rw [hcl]
    | B =>
      simp only [passesBidi, Bool.not_true, Bool.false_eq_true, if_false]
      rw [hcl]

/-- C8: in a bidi domain, a label whose first character is of class `R`
or `AL` and which contains both an `EN` and an `AN` character fails the
bidi check (rule 4); consequently — given that `AN`-class characters are
never ASCII-graphic, as in the real bidi table — no label of a
successfully processed domain contains both `EN` and `AN`. -/
theorem C8_bidi_rule4 :
    (∀ (env : Uts46Env) (first : Char) (rest : List Char),
      (env.bidiClass first = .R ∨ env.bidiClass first = .AL) →
      (∃ c ∈ first :: rest, env.bidiClass c = .EN) →
      (∃ c ∈ first :: rest, env.bidiClass c = .AN) →
      passesBidi env (first :: rest) true = false) ∧
    (∀ (env : Uts46Env) (config : Config) (domain : List Char),
      (∀ c : Char, env.bidiClass c = .AN → isAsciiGraphic c = false) →
      (processing env config domain).2.isOk = true →
      ∀ label ∈ splitDots (processing env config domain).1,
        ¬((∃ c ∈ label, env.bidiClass c = .EN) ∧
          (∃ c ∈ label, env.bidiClass c = .AN))) := by
  constructor
  · exact fun env first rest h1 h2 h3 => rtl_en_an_fails env first rest h1 h2 h3
  · intro env config domain han hsucc label hmem hcon
    obtain ⟨hEn, hAn⟩ := hcon
    obtain ⟨ca, hca, hcan⟩ := hAn
    have hgr : isAsciiGraphic ca = false := han ca hcan
    by_cases hs : simpleScan domain
    · -- fast path: the output is the domain itself, all ASCII graphic
      rw [processing] at hmem
      rw [if_pos hs] at hmem
      simp only at hmem
      have hchars := (simpleScan_chars domain hs).2
      have hcd : ca ∈ domain := splitDots_subset domain label hmem ca hca
      have : isAsciiGraphic ca = true := by
        rcases hchars ca hcd with rfl | h | h
        · exact absurd hca (splitDots_not_mem_dot domain label hmem)
        · exact lowerDigit_graphic ca (Or.inr (Or.inl h))
        · exact lowerDigit_graphic ca (Or.inr (Or.inr h))
      rw [this] at hgr
      exact absurd hgr (by simp)
    · rw [processing_slow env config domain (by simpa using hs)] at hmem hsucc
      simp only at hmem hsucc
      rw [splitDots_validatedOf] at hmem
      obtain ⟨lab0, hlab0, hpi⟩ := List.mem_map.mp hmem
      -- success forces the bidi pass to have accepted every label
      have hvalid : (allOkOf env config domain && bidiPassOf env config domain) = true := by
        by_contra hcon2
        have hb : (allOkOf env config domain && bidiPassOf env config domain) = false :=
          Bool.eq_false_iff.mpr hcon2
        simp only [slowErrors] at hsucc
        rw [if_pos (by simp [hb])] at hsucc
        simp [Errors.isOk] at hsucc
      have hpass : bidiPassOf env config domain = true := by
        cases hh : bidiPassOf env config domain
        · rw [hh, Bool.and_false] at hvalid
          exact absurd hvalid (by simp)
        · rfl
      -- the AN character forces has_bidi_labels
      have hbidilab : isBidiDomain env label = true := by
        refine List.any_eq_true.mpr ⟨ca, hca, ?_⟩
        simp [hgr, hcan]
      have hlb : labelBidi env lab0 = true := by
        simp only [labelBidi]
        by_cases hp : hasPunyMarker lab0
        · rw [if_pos hp]
          cases hd : decode (lab0.drop 4) with
          | some d =>
            have : pieceOf lab0 = d := by simp [pieceOf, hp, hd]
            rw [this] at hpi
            subst hpi
            exact hbidilab
          | none => rfl
        · rw [if_neg hp]
          have : pieceOf lab0 = lab0 := by simp [pieceOf, hp]
          rw [this] at hpi
          subst hpi
          exact hbidilab
      have hhb : hasBidiOf env config domain = true := by
        simp only [hasBidiOf]
        exact List.any_eq_true.mpr ⟨lab0, hlab0, hlb⟩
      -- but an EN-and-AN label cannot pass the bidi check
      have hmem' : label ∈ splitDots (validatedOf env config domain) := by
        rw [splitDots_validatedOf]
        exact hpi ▸ List.mem_map_of_mem pieceOf hlab0
      have hp2 := List.all_eq_true.mp hpass label hmem'
      rw [hhb] at hp2
      rw [en_an_fails env label hEn ⟨ca, hca, hcan⟩] at hp2
      exact absurd hp2 (by simp)

/-- C8 at concrete inputs: a Hebrew-initial label with an ASCII digit
(`EN`) and an Arabic-Indic digit (`AN`) fails the bidi check, and the
successfully processed `ab` has no label with both classes. -/
theorem C8_witness :
    passesBidi specEnv [Char.ofNat 0x5D0, '1', Char.ofNat 0x660] true = false ∧
      ¬((∃ c ∈ ['a', 'b'], specEnv.bidiClass c = .EN) ∧
        (∃ c ∈ ['a', 'b'], specEnv.bidiClass c = .AN)) := by
  constructor
  · exact C8_bidi_rule4.1 specEnv (Char.ofNat 0x5D0) ['1', Char.ofNat 0x660]
      (Or.inl (by decide)) ⟨'1', by decide, by decide⟩
      ⟨Char.ofNat 0x660, by decide, by decide⟩
  · refine C8_bidi_rule4.2 specEnv Config.default ['a', 'b'] ?_ (by decide)
      ['a', 'b'] (by decide)
    intro c h
    simp only [specEnv, specBidiClass] at h
    split_ifs at h with h1 h2 h3 h4 h5
    simp only [isAsciiGraphic, Bool.and_eq_false_iff, decide_eq_false_iff_not]
    right
    omega

/-! ## C2: characters of a successful `to_ascii` output -/

/-- The allowed output alphabet claimed for `to_ascii`. -/
def isAllowedAscii (c : Char) : Bool :=
  isAsciiUpper c || isAsciiLower c || isAsciiDigit c || c = '.' || c = '-'

theorem charOfNat_toNat {n : Nat} (h : n.isValidChar) : (Char.ofNat n).toNat = n := by
  unfold Char.ofNat
  rw [dif_pos h]
  rfl

theorem valueToDigit_chars (v : Nat) (d : Char) (h : valueToDigit v = some d) :
    isAsciiLower d = true ∨ isAsciiDigit d = true := by
  unfold valueToDigit at h
  by_cases h1 : v ≤ 25
  · rw [if_pos h1] at h
    injection h with h
    subst h
    left
    have hval : (Char.ofNat (v + 97)).toNat = v + 97 :=
      charOfNat_toNat (Or.inl (by omega))
    simp only [isAsciiLower, Bool.and_eq_true, decide_eq_true_eq]
    constructor
    · show ('a' : Char).toNat ≤ (Char.ofNat (v + 97)).toNat
      rw [hval]
      have : ('a' : Char).toNat = 97 := by decide
      omega
    · show (Char.ofNat (v + 97)).toNat ≤ ('z' : Char).toNat
      rw [hval]
      have : ('z' : Char).toNat = 122 := by decide
      omega
  · rw [if_neg h1] at h
    by_cases h2 : v ≤ 35
    · rw [if_pos h2] at h
      injection h with h
      subst h
      right
      have hval : (Char.ofNat (v - 26 + 48)).toNat = v - 26 + 48 :=
        charOfNat_toNat (Or.inl (by omega))
      simp only [isAsciiDigit, Bool.and_eq_true, decide_eq_true_eq]
      constructor
      · show ('0' : Char).toNat ≤ (Char.ofNat (v - 26 + 48)).toNat
        rw [hval]
        have : ('0' : Char).toNat = 48 := by decide
        omega
      · show (Char.ofNat (v - 26 + 48)).toNat ≤ ('9' : Char).toNat
        rw [hval]
        have : ('9' : Char).toNat = 57 := by decide
        omega
    · rw [if_neg h2] at h
      exact absurd h (by simp)

theorem vliEmit_chars (fuel : Nat) : ∀ (q k bias : Nat) (out out' : List Char),
    vliEmit fuel q k bias out = .ok out' →
    ∀ c ∈ out', c ∈ out ∨ isAsciiLower c = true ∨ isAsciiDigit c = true := by
  induction fuel with
  | zero =>
    intro q k bias out out' h
    exact absurd h (by simp [vliEmit])
  | succ f ih =>
    intro q k bias out out' h c hc
    simp only [vliEmit] at h
    by_cases hq : q < tThreshold k bias
    · rw [if_pos hq] at h
      cases hd : valueToDigit q with
      | none => rw [hd] at h; exact absurd h (by simp)
      | some d =>
        rw [hd] at h
        injection h with h
        subst h
        rcases List.mem_append.mp hc with h1 | h1
        · exact Or.inl h1
        · simp only [List.mem_singleton] at h1
          subst h1
          exact Or.inr (valueToDigit_chars q c hd)
    · rw [if_neg hq] at h
      cases hd : valueToDigit (tThreshold k bias +
          (q - tThreshold k bias) % (BASE - tThreshold k bias)) with
      | none => rw [hd] at h; exact absurd h (by simp)
      | some d =>
        rw [hd] at h
        rcases ih _ _ _ _ _ h c hc with h1 | h1
        · rcases List.mem_append.mp h1 with h2 | h2
          · exact Or.inl h2
          · simp only [List.mem_singleton] at h2
            subst h2
            exact Or.inr (valueToDigit_chars _ c hd)
        · exact Or.inr h1

theorem encInner_chars (bl cp : Nat) (input : List Char) :
    ∀ (delta bias processed : Nat) (out : List Char) (d2 b2 p2 : Nat) (o2 : List Char),
      encInner bl cp input delta bias processed out = .ok (d2, b2, p2, o2) →
      ∀ c ∈ o2, c ∈ out ∨ isAsciiLower c = true ∨ isAsciiDigit c = true := by
  induction input with
  | nil =>
    intro delta bias processed out d2 b2 p2 o2 h c hc
    simp only [encInner, Except.ok.injEq, Prod.mk.injEq] at h
    obtain ⟨-, -, -, rfl⟩ := h
    exact Or.inl hc
  | cons a rest ih =>
    intro delta bias processed out d2 b2 p2 o2 h c hc
    simp only [encInner] at h
    by_cases hlt : charVal a < cp
    · have hne : ¬ charVal a = cp := by omega
      simp only [eq_true hlt, if_true, true_and] at h
      by_cases hz : (delta + 1) % (U32MAX + 1) = 0
      · rw [if_pos hz] at h
        exact absurd h (by simp)
      · rw [if_neg hz, if_neg hne] at h
        exact ih _ _ _ _ _ _ _ _ h c hc
    · simp only [eq_false hlt, if_false, false_and] at h
      by_cases heq : charVal a = cp
      · rw [if_pos heq] at h
        cases hv : vliEmit (delta + 1) delta BASE bias out with
        | error e => rw [hv] at h; exact absurd h (by simp)
        | ok out' =>
          rw [hv] at h
          rcases ih _ _ _ _ _ _ _ _ h c hc with h1 | h1
          · rcases vliEmit_chars _ _ _ _ _ _ hv c h1 with h2 | h2
            · exact Or.inl h2
            · exact Or.inr h2
          · exact Or.inr h1
      · rw [if_neg heq] at h
        exact ih _ _ _ _ _ _ _ _ h c hc

theorem encLoop_chars (fuel : Nat) :
    ∀ (input : List Char) (il bl cp delta bias processed : Nat) (out res : List Char),
      encLoop input il bl fuel cp delta bias processed out = .ok res →
      ∀ c ∈ res, c ∈ out ∨ isAsciiLower c = true ∨ isAsciiDigit c = true := by
  induction fuel with
  | zero =>
    intro input il bl cp delta bias processed out res h
    exact absurd h (by simp [encLoop])
  | succ f ih =>
    intro input il bl cp delta bias processed out res h c hc
    simp only [encLoop] at h
    by_cases hlt : processed < il
    · rw [if_pos hlt] at h
      cases hmin : ((input.map charVal).filter (fun v => decide (v ≥ cp))).min? with
      | none => rw [hmin] at h; exact absurd h (by simp)
      | some m =>
        rw [hmin] at h
        dsimp only at h
        by_cases hov : m - cp > (U32MAX - delta) / (processed + 1)
        · rw [if_pos hov] at h
          exact absurd h (by simp)
        · rw [if_neg hov] at h
          cases hin : encInner bl m input (delta + (m - cp) * (processed + 1)) bias
              processed out with
          | error e => rw [hin] at h; exact absurd h (by simp)
          | ok t =>
            rcases t with ⟨d2, b2, p2, o2⟩
            rw [hin] at h
            rcases ih _ _ _ _ _ _ _ _ _ h c hc with h1 | h1
            · exact encInner_chars bl m input _ _ _ _ _ _ _ _ hin c h1
            · exact Or.inr h1
    · rw [if_neg hlt] at h
      injection h with h
      subst h
      exact Or.inl hc

/-- Every character of a Punycode encoding is an ASCII character of the
input, the delimiter `-`, or a digit from the output alphabet. -/
theorem encode_chars (input out : List Char) (h : encode input = some out) :
    ∀ c ∈ out, (c ∈ input ∧ isAsciiChar c = true) ∨ c = '-' ∨
      isAsciiLower c = true ∨ isAsciiDigit c = true := by
  intro c hc
  simp only [encode] at h
  cases he : encodeInto input with
  | error e => rw [he] at h; exact absurd h (by simp)
  | ok r =>
    rw [he] at h
    injection h with h
    subst h
    have henc : encodeInto input = encLoop input input.length
        (input.filter isAsciiChar).length (input.length + 1) INITIAL_N 0 INITIAL_BIAS
        (input.filter isAsciiChar).length
        (input.filter isAsciiChar ++
          if (input.filter isAsciiChar).length > 0 then ['-'] else []) := rfl
    rw [henc] at he
    rcases encLoop_chars _ _ _ _ _ _ _ _ _ _ he c hc with h1 | h1
    · rcases List.mem_append.mp h1 with h2 | h2
      · have := List.mem_filter.mp h2
        exact Or.inl ⟨this.1, this.2⟩
      · by_cases hb : (input.filter isAsciiChar).length > 0
        · rw [if_pos hb] at h2
          simp only [List.mem_singleton] at h2
          exact Or.inr (Or.inl h2)
        · rw [if_neg hb] at h2
          simp at h2
    · exact Or.inr (Or.inr h1)

theorem toAsciiLabels_chars (labels : List (List Char)) :
    ∀ (res : List Char) (first : Bool) (errs : Errors) (c : Char),
      c ∈ (toAsciiLabels labels res first errs).1 →
      c ∈ res ∨ c = '.' ∨ c = 'x' ∨ c = 'n' ∨ c = '-' ∨
        isAsciiLower c = true ∨ isAsciiDigit c = true ∨
        ∃ label ∈ labels, c ∈ label ∧ isAsciiChar c = true := by
  induction labels with
  | nil =>
    intro res first errs c hc
    simp only [toAsciiLabels] at hc
    exact Or.inl hc
  | cons label rest ih =>
    intro res first errs c hc
    simp only [toAsciiLabels] at hc
    have hsep : ∀ x : Char, x ∈ (if !first then res ++ ['.'] else res) → x ∈ res ∨ x = '.' := by
      intro x hx
      by_cases hf : first
      · simp only [hf, Bool.not_true, Bool.false_eq_true, if_false] at hx
        exact Or.inl hx
      · have hf' : first = false := Bool.eq_false_iff.mpr hf
        simp only [hf', Bool.not_false, if_true] at hx
        rcases List.mem_append.mp hx with h1 | h1
        · exact Or.inl h1
        · simp only [List.mem_singleton] at h1
          exact Or.inr h1
    by_cases ha : label.all isAsciiChar
    · rw [if_pos ha] at hc
      rcases ih _ _ _ _ hc with h1 | h1 | h1 | h1 | h1 | h1 | h1 | ⟨l, hl, h1, h2⟩
      · rcases List.mem_append.mp h1 with h2 | h2
        · rcases hsep c h2 with h3 | h3
          · exact Or.inl h3
          · exact Or.inr (Or.inl h3)
        · refine Or.inr (Or.inr (Or.inr (Or.inr (Or.inr (Or.inr (Or.inr ?_))))))
          exact ⟨label, List.mem_cons_self _ _, h2, List.all_eq_true.mp ha c h2⟩
      · exact Or.inr (Or.inl h1)
      · exact Or.inr (Or.inr (Or.inl h1))
      · exact Or.inr (Or.inr (Or.inr (Or.inl h1)))
      · exact Or.inr (Or.inr (Or.inr (Or.inr (Or.inl h1))))
      · exact Or.inr (Or.inr (Or.inr (Or.inr (Or.inr (Or.inl h1)))))
      · exact Or.inr (Or.inr (Or.inr (Or.inr (Or.inr (Or.inr (Or.inl h1))))))
      · exact Or.inr (Or.inr (Or.inr (Or.inr (Or.inr (Or.inr (Or.inr
          ⟨l, List.mem_cons_of_mem _ hl, h1, h2⟩))))))
    · rw [if_neg ha] at hc
      cases he : encode label with
      | some x =>
        rw [he] at hc
        rcases ih _ _ _ _ hc with h1 | h1 | h1 | h1 | h1 | h1 | h1 | ⟨l, hl, h1, h2⟩
        · rcases List.mem_append.mp h1 with h2 | h2
          · rcases List.mem_append.mp h2 with h3 | h3
            · rcases hsep c h3 with h4 | h4
              · exact Or.inl h4
              · exact Or.inr (Or.inl h4)
            · -- c ∈ "xn--"
              simp only [List.mem_cons, List.mem_singleton] at h3
              rcases h3 with rfl | rfl | rfl | h3
              · exact Or.inr (Or.inr (Or.inl rfl))
              · exact Or.inr (Or.inr (Or.inr (Or.inl rfl)))
              · exact Or.inr (Or.inr (Or.inr (Or.inr (Or.inl rfl))))
              · rcases h3 with h3 | h3
                · exact Or.inr (Or.inr (Or.inr (Or.inr (Or.inl h3))))
                · simp at h3
          · rcases encode_chars label x he c h2 with ⟨h3, h4⟩ | h3 | h3 | h3
            · exact Or.inr (Or.inr (Or.inr (Or.inr (Or.inr (Or.inr (Or.inr
                ⟨label, List.mem_cons_self _ _, h3, h4⟩))))))
            · exact Or.inr (Or.inr (Or.inr (Or.inr (Or.inl h3))))
            · exact Or.inr (Or.inr (Or.inr (Or.inr (Or.inr (Or.inl h3)))))
            · exact Or.inr (Or.inr (Or.inr (Or.inr (Or.inr (Or.inr (Or.inl h3))))))
        · exact Or.inr (Or.inl h1)
        · exact Or.inr (Or.inr (Or.inl h1))
        · exact Or.inr (Or.inr (Or.inr (Or.inl h1)))
        · exact Or.inr (Or.inr (Or.inr (Or.inr (Or.inl h1))))
        · exact Or.inr (Or.inr (Or.inr (Or.inr (Or.inr (Or.inl h1)))))
        · exact Or.inr (Or.inr (Or.inr (Or.inr (Or.inr (Or.inr (Or.inl h1))))))
        · exact Or.inr (Or.inr (Or.inr (Or.inr (Or.inr (Or.inr (Or.inr
            ⟨l, List.mem_cons_of_mem _ hl, h1, h2⟩))))))
      | none =>
        rw [he] at hc
        rcases ih _ _ _ _ hc with h1 | h1 | h1 | h1 | h1 | h1 | h1 | ⟨l, hl, h1, h2⟩
        · rcases hsep c h1 with h3 | h3
          · exact Or.inl h3
          · exact Or.inr (Or.inl h3)
        · exact Or.inr (Or.inl h1)
        · exact Or.inr (Or.inr (Or.inl h1))
        · exact Or.inr (Or.inr (Or.inr (Or.inl h1)))
        · exact Or.inr (Or.inr (Or.inr (Or.inr (Or.inl h1))))
        · exact Or.inr (Or.inr (Or.inr (Or.inr (Or.inr (Or.inl h1)))))
        · exact Or.inr (Or.inr (Or.inr (Or.inr (Or.inr (Or.inr (Or.inl h1))))))
        · exact Or.inr (Or.inr (Or.inr (Or.inr (Or.inr (Or.inr (Or.inr
            ⟨l, List.mem_cons_of_mem _ hl, h1, h2⟩))))))

theorem toAsciiLabels_errors (labels : List (List Char)) :
    ∀ (res : List Char) (first : Bool) (errs : Errors),
      ∃ b : Bool, (toAsciiLabels labels res first errs).2 =
        { errs with punycode := errs.punycode || b } := by
  induction labels with
  | nil =>
    intro res first errs
    exact ⟨false, by simp [toAsciiLabels]⟩
  | cons label rest ih =>
    intro res first errs
    simp only [toAsciiLabels]
    by_cases ha : label.all isAsciiChar
    · rw [if_pos ha]
      exact ih _ _ _
    · rw [if_neg ha]
      cases he : encode label with
      | some x => exact ih _ _ _
      | none =>
        obtain ⟨b, hb⟩ := ih (if !first then res ++ ['.'] else res) false
          { errs with punycode := true }
        refine ⟨true, ?_⟩
        rw [hb]
        simp

theorem isValid_badV6 (env : Uts46Env) (config : Config) (label : List Char)
    (h : isValid env config label = true) :
    ∀ c ∈ label, badV6 env config c = false := by
  intro c hc
  cases label with
  | nil => simp at hc
  | cons first rest =>
    simp only [isValid, List.head?_cons] at h
    split_ifs at h with h1 h2 h3
    rcases hb : badV6 env config c
    · rfl
    · exact absurd (List.any_eq_true.mpr ⟨c, hc, hb⟩) h3

theorem badV6_false_table (env : Uts46Env) (config : Config) (c : Char)
    (hstd3 : config.use_std3_ascii_rules = true)
    (h : badV6 env config c = false) :
    env.findChar c = .Valid ∨ ∃ s, env.findChar c = .Deviation s := by
  unfold badV6 at h
  cases hf : env.findChar c <;> rw [hf] at h
  · exact Or.inl rfl
  · exact absurd h (by simp)
  · exact absurd h (by simp)
  · exact Or.inr ⟨_, rfl⟩
  · exact absurd h (by simp)
  · rw [hstd3] at h
    exact absurd h (by simp)
  · exact absurd h (by simp)

theorem errors_isOk_iff (e : Errors) : e.isOk = true ↔
    e.punycode = false ∧ e.validity_criteria = false ∧
    e.disallowed_by_std3_ascii_rules = false ∧ e.disallowed_mapped_in_std3 = false ∧
    e.disallowed_character = false ∧ e.too_long_for_dns = false ∧
    e.too_short_for_dns = false := by
  simp [Errors.isOk, Bool.or_eq_false_iff, and_assoc]

theorem toAsciiFull_fst (env : Uts46Env) (config : Config) (domain : List Char) :
    (toAsciiFull env config domain).1 = (toAsciiRaw env config domain).1 := by
  simp only [toAsciiFull]

theorem toAsciiFull_flags (env : Uts46Env) (config : Config) (domain : List Char) :
    (toAsciiFull env config domain).2.punycode = (toAsciiRaw env config domain).2.punycode ∧
    (toAsciiFull env config domain).2.validity_criteria =
      (toAsciiRaw env config domain).2.validity_criteria ∧
    (toAsciiFull env config domain).2.disallowed_by_std3_ascii_rules =
      (toAsciiRaw env config domain).2.disallowed_by_std3_ascii_rules ∧
    (toAsciiFull env config domain).2.disallowed_mapped_in_std3 =
      (toAsciiRaw env config domain).2.disallowed_mapped_in_std3 ∧
    (toAsciiFull env config domain).2.disallowed_character =
      (toAsciiRaw env config domain).2.disallowed_character := by
  simp only [toAsciiFull]
  rcases hr : toAsciiRaw env config domain with ⟨res, errs⟩
  simp only
  split_ifs <;> simp

theorem slowErrors_ok (env : Uts46Env) (config : Config) (domain : List Char)
    (h : (slowErrors env config domain).isOk = true) :
    allOkOf env config domain = true ∧ bidiPassOf env config domain = true ∧
      punyBadOf env config domain = false := by
  simp only [slowErrors] at h
  cases hA : allOkOf env config domain <;> rw [hA] at h
  · rw [if_pos (by simp)] at h
    simp [Errors.isOk] at h
  · cases hB : bidiPassOf env config domain <;> rw [hB] at h
    · rw [if_pos (by simp)] at h
      simp [Errors.isOk] at h
    · rw [if_neg (by simp)] at h
      refine ⟨rfl, rfl, ?_⟩
      cases hP : punyBadOf env config domain
      · rfl
      · rw [hP] at h
        simp [Errors.isOk] at h

/-- Under STD3 rules and a table whose ASCII `Valid`/`Deviation` entries
are all lower-case LDH, every ASCII character of a label of a
successfully processed domain is `[a-z0-9-]`. -/
theorem processing_chars_lower (env : Uts46Env) (config : Config) (domain : List Char)
    (htab : ∀ c : Char, isAsciiChar c = true →
      (env.findChar c = .Valid ∨ ∃ s, env.findChar c = .Deviation s) →
      (isAsciiLower c = true ∨ isAsciiDigit c = true ∨ c = '-' ∨ c = '.'))
    (hstd3 : config.use_std3_ascii_rules = true)
    (hok : (processing env config domain).2.isOk = true) :
    ∀ label ∈ splitDots (processing env config domain).1, ∀ c ∈ label,
      isAsciiChar c = true →
      isAsciiLower c = true ∨ isAsciiDigit c = true ∨ c = '-' := by
  intro label hlabel c hc hascii
  by_cases hs : simpleScan domain
  · rw [processing] at hlabel
    rw [if_pos hs] at hlabel
    simp only at hlabel
    have hnd := splitDots_not_mem_dot domain label hlabel
    rcases (simpleScan_chars domain hs).2 c (splitDots_subset domain label hlabel c hc)
      with rfl | h | h
    · exact absurd hc hnd
    · exact Or.inl h
    · exact Or.inr (Or.inl h)
  · rw [processing_slow env config domain (by simpa using hs)] at hlabel hok
    simp only at hlabel hok
    obtain ⟨hA, hB, hP⟩ := slowErrors_ok env config domain hok
    rw [splitDots_validatedOf] at hlabel
    obtain ⟨lab0, hlab0, hpi⟩ := List.mem_map.mp hlabel
    have hok0 : labelOk env config lab0 = true :=
      List.all_eq_true.mp (by simpa [allOkOf] using hA) lab0 hlab0
    have hdotfree : '.' ∉ label :=
      hpi ▸ pieceOf_dotfree lab0 (splitDots_not_mem_dot _ lab0 hlab0)
    by_cases hxn : hasPunyMarker lab0
    · cases hd : decode (lab0.drop 4) with
      | none =>
        exfalso
        have hb : labelPunyBad lab0 = true := by simp [labelPunyBad, hxn, hd]
        have hany := List.any_eq_true.mpr ⟨lab0, hlab0, hb⟩
        simp only [punyBadOf] at hP
        rw [hany] at hP
        exact absurd hP (by simp)
      | some d =>
        have hpd : pieceOf lab0 = d := by simp [pieceOf, hxn, hd]
        have hld : d = label := by rw [← hpi, hpd]
        have hokd : labelOk env config lab0 =
            (env.isNfc d && isValid env (config.withTransitionalProcessing false) d) := by
          simp [labelOk, hxn, hd]
        rw [hokd] at hok0
        have hv : isValid env (config.withTransitionalProcessing false) d = true := by
          cases hn : env.isNfc d <;> rw [hn] at hok0
          · exact absurd hok0 (by simp)
          · simpa using hok0
        have hbad := isValid_badV6 env _ d hv c (hld ▸ hc)
        have hstd3' : (config.withTransitionalProcessing false).use_std3_ascii_rules = true := by
          simpa [Config.withTransitionalProcessing] using hstd3
        rcases htab c hascii (badV6_false_table env _ c hstd3' hbad) with h | h | h | h
        · exact Or.inl h
        · exact Or.inr (Or.inl h)
        · exact Or.inr (Or.inr h)
        · exact absurd (h ▸ hc) hdotfree
    · have hpd : pieceOf lab0 = lab0 := by simp [pieceOf, hxn]
      have hld : lab0 = label := by rw [← hpi, hpd]
      have hokd : labelOk env config lab0 = isValid env config lab0 := by
        simp [labelOk, hxn]
      rw [hokd] at hok0
      have hbad := isValid_badV6 env config lab0 hok0 c (hld ▸ hc)
      rcases htab c hascii (badV6_false_table env config c hstd3 hbad) with h | h | h | h
      · exact Or.inl h
      · exact Or.inr (Or.inl h)
      · exact Or.inr (Or.inr h)
      · exact absurd (h ▸ hc) hdotfree

/-- C2: the claim is refuted on the code under the default
configuration: `_` is `disallowed_STD3_valid`, so with
`use_std3_ascii_rules` off it passes through `to_ascii` without error,
and the successful output `a_b` contains `_`, which is outside
`[A-Za-z0-9.-]`. -/
theorem C2_counterexample :
    toAscii specEnv Config.default ['a', '_', 'b'] = .ok ['a', '_', 'b'] ∧
      isAllowedAscii '_' = false := ⟨rfl, rfl⟩

/-- C2 (amended): when `use_std3_ascii_rules` is on — and given a mapping
table whose ASCII `Valid` and `Deviation` entries are all in
`[a-z0-9.-]`, as in the real table — every code point of a successful
`to_ascii` output lies in `[A-Za-z0-9.-]`.  Under the default
configuration (`use_std3_ascii_rules` off) the property fails. -/
theorem C2_ascii_output (env : Uts46Env) (config : Config) (domain r : List Char)
    (htab : ∀ c : Char, isAsciiChar c = true →
      (env.findChar c = .Valid ∨ ∃ s, env.findChar c = .Deviation s) →
      (isAsciiLower c = true ∨ isAsciiDigit c = true ∨ c = '-' ∨ c = '.'))
    (hstd3 : config.use_std3_ascii_rules = true)
    (h : toAscii env config domain = .ok r) :
    ∀ c ∈ r, isAllowedAscii c = true := by
  intro c hc
  simp only [toAscii] at h
  rcases hF : toAsciiFull env config domain with ⟨result, errors⟩
  rw [hF] at h
  simp only at h
  by_cases hok : errors.isOk = true
  · rw [if_pos hok] at h
    injection h with h
    subst h
    -- r = (toAsciiRaw ...).1
    have hres : result = (toAsciiRaw env config domain).1 := by
      have := toAsciiFull_fst env config domain
      rw [hF] at this
      exact this
    -- the raw and processing error sets are clean
    have hflags := toAsciiFull_flags env config domain
    rw [hF] at hflags
    simp only at hflags
    obtain ⟨hf1, hf2, hf3, hf4, hf5⟩ := hflags
    have hokE := (errors_isOk_iff errors).mp hok
    obtain ⟨b, hb⟩ := toAsciiLabels_errors (splitDots (processing env config domain).1)
      [] true (processing env config domain).2
    have hraw : toAsciiRaw env config domain =
        toAsciiLabels (splitDots (processing env config domain).1) [] true
          (processing env config domain).2 := by
      simp only [toAsciiRaw]
    have hprocOk : (processing env config domain).2.isOk = true := by
      rw [errors_isOk_iff]
      have hpd := processing_dns env config domain
      have h1 : (toAsciiRaw env config domain).2.punycode = false := by
        rw [← hf1, hokE.1]
      have h2 : (toAsciiRaw env config domain).2.validity_criteria = false := by
        rw [← hf2, hokE.2.1]
      have h3 : (toAsciiRaw env config domain).2.disallowed_by_std3_ascii_rules = false := by
        rw [← hf3, hokE.2.2.1]
      have h4 : (toAsciiRaw env config domain).2.disallowed_mapped_in_std3 = false := by
        rw [← hf4, hokE.2.2.2.1]
      have h5 : (toAsciiRaw env config domain).2.disallowed_character = false := by
        rw [← hf5, hokE.2.2.2.2.1]
      rw [hraw, hb] at h1 h2 h3 h4 h5
      simp only at h1 h2 h3 h4 h5
      refine ⟨?_, h2, h3, h4, h5, hpd.2, hpd.1⟩
      cases hpp : (processing env config domain).2.punycode
      · rfl
      · rw [hpp] at h1
        exact absurd h1 (by simp)
    -- classify the character
    rw [hres, hraw] at hc
    rcases toAsciiLabels_chars _ _ _ _ c hc with h1 | h1 | h1 | h1 | h1 | h1 | h1 |
      ⟨label, hl, h1, h2⟩
    · simp at h1
    · simp [isAllowedAscii, h1]
    · subst h1; decide
    · subst h1; decide
    · simp [isAllowedAscii, h1]
    · simp [isAllowedAscii, h1]
    · simp [isAllowedAscii, h1]
    · rcases processing_chars_lower env config domain htab hstd3 hprocOk label hl c h1 h2
        with h3 | h3 | h3
      · simp [isAllowedAscii, h3]
      · simp [isAllowedAscii, h3]
      · simp [isAllowedAscii, h3]
  · rw [if_neg hok] at h
    exact absurd h (by simp)

/-- C2 at a concrete input: with STD3 rules on, `toAscii` of `ab`
succeeds and its output alphabet is within `[A-Za-z0-9.-]`. -/
theorem C2_witness :
    toAscii specEnv { Config.default with use_std3_ascii_rules := true } ['a', 'b'] =
        .ok ['a', 'b'] ∧
      isAllowedAscii 'a' = true ∧ isAllowedAscii 'b' = true := by
  refine ⟨rfl, ?_, ?_⟩
  · refine C2_ascii_output specEnv { Config.default with use_std3_ascii_rules := true }
      ['a', 'b'] ['a', 'b'] ?_ rfl rfl 'a' (by decide)
    intro c hascii hval
    simp only [specEnv, specFindChar] at hval
    split_ifs at hval with p1 p2 p3
    · rcases p1 with h | h | h | h
      · exact Or.inl (by simp [isAsciiLower, h.1, h.2])
      · exact Or.inr (Or.inl (by simp [isAsciiDigit, h.1, h.2]))
      · exact Or.inr (Or.inr (Or.inr h))
      · exact Or.inr (Or.inr (Or.inl h))
    · rcases hval with h | ⟨s, h⟩ <;> simp at h
    · rcases hval with h | ⟨s, h⟩ <;> simp at h
    · rcases hval with h | ⟨s, h⟩ <;> simp at h
  · refine C2_ascii_output specEnv { Config.default with use_std3_ascii_rules := true }
      ['a', 'b'] ['a', 'b'] ?_ rfl rfl 'b' (by decide)
    intro c hascii hval
    simp only [specEnv, specFindChar] at hval
    split_ifs at hval with p1 p2 p3
    · rcases p1 with h | h | h | h
      · exact Or.inl (by simp [isAsciiLower, h.1, h.2])
      · exact Or.inr (Or.inl (by simp [isAsciiDigit, h.1, h.2]))
      · exact Or.inr (Or.inr (Or.inr h))
      · exact Or.inr (Or.inr (Or.inl h))
    · rcases hval with h | ⟨s, h⟩ <;> simp at h
    · rcases hval with h | ⟨s, h⟩ <;> simp at h
    · rcases hval with h | ⟨s, h⟩ <;> simp at h

/-! ### C1: Punycode round-trip -/

/-- Number of values `≤ m` in a list of scalar values. -/
def cntLe (m : Nat) (l : List Nat) : Nat := l.countP (fun v => decide (v ≤ m))

/-- Number of values `< m` in a list of scalar values. -/
def cntLt (m : Nat) (l : List Nat) : Nat := l.countP (fun v => decide (v < m))

/-- The insertion entries for a scan of `l` under "processed" predicate `P`
on scalar values: `pos` counts processed characters seen so far, and an
entry is recorded for every processed non-basic character. -/
def entsP (P : Nat → Bool) : Nat → List Char → List (Nat × Char)
  | _, [] => []
  | pos, c :: rest =>
    if P (charVal c) then
      if 128 ≤ charVal c then (pos, c) :: entsP P (pos + 1) rest
      else entsP P (pos + 1) rest
    else entsP P pos rest

theorem entsP_append (P : Nat → Bool) (l1 l2 : List Char) : ∀ p0 : Nat,
    entsP P p0 (l1 ++ l2) =
      entsP P p0 l1 ++ entsP P (p0 + (l1.map charVal).countP P) l2 := by
  induction l1 with
  | nil => intro p0; simp [entsP]
  | cons c rest ih =>
    intro p0
    simp only [List.cons_append, entsP, List.map_cons, List.countP_cons, List.append_eq]
    by_cases h1 : P (charVal c)
    · rw [if_pos h1, if_pos h1]
      by_cases h2 : 128 ≤ charVal c
      · rw [if_pos h2, if_pos h2, ih (p0 + 1)]
        simp only [List.cons_append, eq_true h1, if_true]
        have harith : p0 + (List.countP P (List.map charVal rest) + 1) =
            p0 + 1 + List.countP P (List.map charVal rest) := by omega
        rw [harith]
      · rw [if_neg h2, if_neg h2, ih (p0 + 1)]
        simp only [eq_true h1, if_true]
        congr 2
        omega
    · rw [if_neg h1, if_neg h1, ih p0]
      simp only [eq_false h1, if_false]
      congr 2

theorem entsP_pos_ge (P : Nat → Bool) : ∀ (l : List Char) (p0 : Nat) (e : Nat × Char),
    e ∈ entsP P p0 l → p0 ≤ e.1 := by
  intro l
  induction l with
  | nil => intro p0 e h; simp [entsP] at h
  | cons c rest ih =>
    intro p0 e h
    simp only [entsP] at h
    by_cases h1 : P (charVal c)
    · rw [if_pos h1] at h
      by_cases h2 : 128 ≤ charVal c
      · rw [if_pos h2] at h
        rcases List.mem_cons.mp h with h | h
        · subst h; exact Nat.le_refl p0
        · exact Nat.le_of_succ_le (ih (p0 + 1) e h)
      · rw [if_neg h2] at h
        exact Nat.le_of_succ_le (ih (p0 + 1) e h)
    · rw [if_neg h1] at h
      exact ih p0 e h

theorem entsP_pos_lt (P : Nat → Bool) : ∀ (l : List Char) (p0 : Nat) (e : Nat × Char),
    e ∈ entsP P p0 l → e.1 < p0 + (l.map charVal).countP P := by
  intro l
  induction l with
  | nil => intro p0 e h; simp [entsP] at h
  | cons c rest ih =>
    intro p0 e h
    simp only [entsP] at h
    simp only [List.map_cons, List.countP_cons]
    by_cases h1 : P (charVal c)
    · rw [if_pos h1] at h
      simp only [eq_true h1, if_true]
      by_cases h2 : 128 ≤ charVal c
      · rw [if_pos h2] at h
        rcases List.mem_cons.mp h with h | h
        · subst h; simp
        · have := ih (p0 + 1) e h
          omega
      · rw [if_neg h2] at h
        have := ih (p0 + 1) e h
        omega
    · rw [if_neg h1] at h
      simp only [eq_false h1, if_false]
      have := ih p0 e h
      omega

theorem entsP_shift (P : Nat → Bool) : ∀ (l : List Char) (p0 : Nat),
    entsP P (p0 + 1) l = (entsP P p0 l).map (fun e => (e.1 + 1, e.2)) := by
  intro l
  induction l with
  | nil => intro p0; simp [entsP]
  | cons c rest ih =>
    intro p0
    simp only [entsP]
    by_cases h1 : P (charVal c)
    · rw [if_pos h1, if_pos h1]
      by_cases h2 : 128 ≤ charVal c
      · rw [if_pos h2, if_pos h2]
        simp only [List.map_cons]
        rw [ih (p0 + 1)]
      · rw [if_neg h2, if_neg h2]
        exact ih (p0 + 1)
    · rw [if_neg h1, if_neg h1]
      exact ih p0

theorem entsP_congr (P Q : Nat → Bool) : ∀ (l : List Char) (p0 : Nat),
    (∀ c ∈ l, P (charVal c) = Q (charVal c)) → entsP P p0 l = entsP Q p0 l := by
  intro l
  induction l with
  | nil => intro p0 _; simp [entsP]
  | cons c rest ih =>
    intro p0 h
    have hc := h c (List.mem_cons_self c rest)
    have hrest : ∀ x ∈ rest, P (charVal x) = Q (charVal x) :=
      fun x hx => h x (List.mem_cons_of_mem c hx)
    simp only [entsP, hc]
    by_cases h1 : Q (charVal c)
    · rw [if_pos h1, if_pos h1]
      by_cases h2 : 128 ≤ charVal c
      · rw [if_pos h2, if_pos h2, ih (p0 + 1) hrest]
      · rw [if_neg h2, if_neg h2]
        exact ih (p0 + 1) hrest
    · rw [if_neg h1, if_neg h1]
      exact ih p0 hrest

theorem entsP_empty (P : Nat → Bool) : ∀ (l : List Char) (p0 : Nat),
    (∀ c ∈ l, 128 ≤ charVal c → P (charVal c) = false) → entsP P p0 l = [] := by
  intro l
  induction l with
  | nil => intro p0 _; simp [entsP]
  | cons c rest ih =>
    intro p0 h
    have hrest : ∀ x ∈ rest, 128 ≤ charVal x → P (charVal x) = false :=
      fun x hx => h x (List.mem_cons_of_mem c hx)
    simp only [entsP]
    by_cases h1 : P (charVal c)
    · rw [if_pos h1]
      by_cases h2 : 128 ≤ charVal c
      · exact absurd h1 (by rw [h c (List.mem_cons_self c rest) h2]; simp)
      · rw [if_neg h2]
        exact ih (p0 + 1) hrest
    · rw [if_neg h1]
      exact ih p0 hrest

theorem entsP_pairwise (P : Nat → Bool) : ∀ (l : List Char) (p0 : Nat),
    (entsP P p0 l).Pairwise (fun a b => a.1 < b.1) := by
  intro l
  induction l with
  | nil => intro p0; simp [entsP]
  | cons c rest ih =>
    intro p0
    simp only [entsP]
    by_cases h1 : P (charVal c)
    · rw [if_pos h1]
      by_cases h2 : 128 ≤ charVal c
      · rw [if_pos h2]
        refine List.Pairwise.cons ?_ (ih (p0 + 1))
        intro e he
        have := entsP_pos_ge P rest (p0 + 1) e he
        omega
      · rw [if_neg h2]
        exact ih (p0 + 1)
    · rw [if_neg h1]
      exact ih p0

theorem entsP_length (P : Nat → Bool) : ∀ (l : List Char) (p0 : Nat),
    (entsP P p0 l).length =
      (l.filter (fun c => P (charVal c) && decide (128 ≤ charVal c))).length := by
  intro l
  induction l with
  | nil => intro p0; simp [entsP]
  | cons c rest ih =>
    intro p0
    simp only [entsP, List.filter_cons]
    by_cases h1 : P (charVal c)
    · rw [if_pos h1]
      by_cases h2 : 128 ≤ charVal c
      · rw [if_pos h2]
        have hb : (P (charVal c) && decide (128 ≤ charVal c)) = true := by
          simp [h1, h2]
        rw [hb]
        simp [ih (p0 + 1)]
      · rw [if_neg h2]
        have : (P (charVal c) && decide (128 ≤ charVal c)) = false := by
          simp [h2]
        rw [this]
        simp [ih (p0 + 1)]
    · rw [if_neg h1]
      have : (P (charVal c) && decide (128 ≤ charVal c)) = false := by
        simp [h1]
      rw [this]
      simp [ih p0]

theorem utf8Bytes_append (l1 l2 : List Char) :
    utf8Bytes (l1 ++ l2) = utf8Bytes l1 ++ utf8Bytes l2 := by
  simp [utf8Bytes]

theorem utf8Bytes_ascii (l : List Char) (h : ∀ c ∈ l, c.toNat < 128) :
    utf8Bytes l = l.map Char.toNat := by
  induction l with
  | nil => simp [utf8Bytes]
  | cons c rest ih =>
    have hc := h c (List.mem_cons_self c rest)
    have hrest := fun x hx => h x (List.mem_cons_of_mem c hx)
    simp only [utf8Bytes, List.map_cons, List.flatten_cons]
    rw [show utf8BytesChar c = [c.toNat] from by simp [utf8BytesChar, hc]]
    have := ih hrest
    simp only [utf8Bytes] at this
    simp [this]

theorem utf8Length_ascii (l : List Char) (h : ∀ c ∈ l, c.toNat < 128) :
    utf8Length l = l.length := by
  induction l with
  | nil => simp [utf8Length]
  | cons c rest ih =>
    have hc := h c (List.mem_cons_self c rest)
    have hrest := fun x hx => h x (List.mem_cons_of_mem c hx)
    simp only [utf8Length, List.map_cons, List.sum_cons]
    rw [show utf8Len c = 1 from by simp [utf8Len, hc]]
    have := ih hrest
    simp only [utf8Length] at this
    simp [this]
    omega

theorem charFromU32_self (c : Char) : charFromU32 c.toNat = some c := by
  have hv : c.toNat.isValidChar := c.valid
  simp only [charFromU32, if_pos hv]
  congr 1
  have h1 : (Char.ofNat c.toNat).toNat = c.toNat := charOfNat_toNat hv
  have h2 : (Char.ofNat c.toNat).val.toNat = c.val.toNat := h1
  have h3 : (Char.ofNat c.toNat).val = c.val := by
    have := UInt32.toNat.inj h2
    exact this
  exact Char.ext h3

theorem digitOfByte_valueToDigit (v : Nat) (d : Char) (h : valueToDigit v = some d) :
    digitOfByte d.toNat = some v ∧ d.toNat < 128 := by
  unfold valueToDigit at h
  by_cases h1 : v ≤ 25
  · rw [if_pos h1] at h
    injection h with h
    subst h
    have hval : (Char.ofNat (v + 97)).toNat = v + 97 :=
      charOfNat_toNat (Or.inl (by omega))
    rw [hval]
    constructor
    · simp only [digitOfByte]
      rw [if_neg (by omega), if_neg (by omega), if_pos (by omega)]
      congr 1
    · omega
  · rw [if_neg h1] at h
    by_cases h2 : v ≤ 35
    · rw [if_pos h2] at h
      injection h with h
      subst h
      have hval : (Char.ofNat (v - 26 + 48)).toNat = v - 26 + 48 :=
        charOfNat_toNat (Or.inl (by omega))
      rw [hval]
      constructor
      · simp only [digitOfByte]
        rw [if_pos (by omega)]
        congr 1
        omega
      · omega
    · rw [if_neg h2] at h
      exact absurd h (by simp)

theorem vliEmit_append (fuel : Nat) : ∀ (q k bias : Nat) (out : List Char),
    vliEmit fuel q k bias out =
      Except.map (fun ds => out ++ ds) (vliEmit fuel q k bias []) := by
  induction fuel with
  | zero => intro q k bias out; simp [vliEmit, Except.map]
  | succ f ih =>
    intro q k bias out
    simp only [vliEmit]
    by_cases hq : q < tThreshold k bias
    · rw [if_pos hq, if_pos hq]
      cases hv : valueToDigit q with
      | none => simp [Except.map]
      | some d => simp [Except.map]
    · rw [if_neg hq, if_neg hq]
      cases hv : valueToDigit (tThreshold k bias +
          (q - tThreshold k bias) % (BASE - tThreshold k bias)) with
      | none => simp [Except.map]
      | some d =>
        simp only
        rw [ih _ _ _ (out ++ [d]), ih _ _ _ ([] ++ [d])]
        cases hE : vliEmit f ((q - tThreshold k bias) / (BASE - tThreshold k bias))
            (k + BASE) bias [] with
        | error e => simp [Except.map, hE]
        | ok ds' => simp [Except.map, hE]

theorem vliEmit_grows (fuel : Nat) : ∀ (q k bias : Nat) (out r : List Char),
    vliEmit fuel q k bias out = .ok r → out.length < r.length := by
  induction fuel with
  | zero => intro q k bias out r h; exact absurd h (by simp [vliEmit])
  | succ f ih =>
    intro q k bias out r h
    simp only [vliEmit] at h
    by_cases hq : q < tThreshold k bias
    · rw [if_pos hq] at h
      cases hv : valueToDigit q with
      | none => rw [hv] at h; exact absurd h (by simp)
      | some d =>
        rw [hv] at h
        injection h with h
        subst h
        simp
    · rw [if_neg hq] at h
      cases hv : valueToDigit (tThreshold k bias +
          (q - tThreshold k bias) % (BASE - tThreshold k bias)) with
      | none => rw [hv] at h; exact absurd h (by simp)
      | some d =>
        rw [hv] at h
        have := ih _ _ _ _ _ h
        simp at this
        omega

/-- If one generalized variable-length integer emission (punycode.rs lines
245-263) produced the digits `ds`, then the decoder's inner loop
(punycode.rs lines 91-121) run on those bytes under the same bias and `k`
either reports an error or performs exactly the insertion step for delta
`q * w`, where `w` is the decoder's current weight. -/
theorem vliEmit_sim (fuel : Nat) : ∀ (q k w P : Nat) (st : InsSt) (ds : List Char)
    (tail : List Nat),
    vliEmit fuel q k st.bias [] = .ok ds →
    (∃ e, insRunE st (some (P, w, k)) (utf8Bytes ds ++ tail) = .error e) ∨
    (∃ c, charFromU32 (st.codePoint + (st.i + q * w) / (st.length + 1)) = some c ∧
      insRunE st (some (P, w, k)) (utf8Bytes ds ++ tail) =
        insRunE
          { codePoint := st.codePoint + (st.i + q * w) / (st.length + 1),
            bias := adapt (st.i + q * w - P) (st.length + 1) (P == 0),
            i := (st.i + q * w) % (st.length + 1) + 1,
            length := st.length + 1,
            buf := st.buf.map (fun e =>
                if (st.i + q * w) % (st.length + 1) ≤ e.1 then (e.1 + 1, e.2) else e)
              ++ [((st.i + q * w) % (st.length + 1), c)] }
          none tail) := by
  induction fuel with
  | zero => intro q k w P st ds tail hemit; exact absurd hemit (by simp [vliEmit])
  | succ f ih =>
    intro q k w P st ds tail hemit
    have ht1 := tThreshold_pos k st.bias
    have ht2 := tThreshold_le k st.bias
    simp only [vliEmit] at hemit
    by_cases hq : q < tThreshold k st.bias
    · rw [if_pos hq] at hemit
      cases hv : valueToDigit q with
      | none => rw [hv] at hemit; exact absurd hemit (by simp)
      | some d =>
        rw [hv] at hemit
        injection hemit with hds
        subst hds
        obtain ⟨hdig, hlt128⟩ := digitOfByte_valueToDigit q d hv
        have hb : utf8Bytes ([] ++ [d]) = [d.toNat] := by
          simp [utf8Bytes, utf8BytesChar, hlt128]
        rw [hb]
        simp only [List.cons_append, List.nil_append]
        simp only [insRunE, hdig]
        by_cases hov : q > (U32MAX - st.i) / w
        · rw [if_pos hov]
          exact Or.inl ⟨_, rfl⟩
        · rw [if_neg hov]
          rw [if_pos hq]
          by_cases hcp : (st.i + q * w) / (st.length + 1) > U32MAX - st.codePoint
          · rw [if_pos hcp]
            exact Or.inl ⟨_, rfl⟩
          · rw [if_neg hcp]
            cases hc : charFromU32 (st.codePoint + (st.i + q * w) / (st.length + 1)) with
            | none => simp only [hc]; exact Or.inl ⟨_, rfl⟩
            | some c =>
              simp only [hc]
              exact Or.inr ⟨c, rfl, rfl⟩
    · rw [if_neg hq] at hemit
      cases hv : valueToDigit (tThreshold k st.bias +
          (q - tThreshold k st.bias) % (BASE - tThreshold k st.bias)) with
      | none => rw [hv] at hemit; exact absurd hemit (by simp)
      | some d =>
        rw [hv] at hemit
        simp only at hemit
        rw [vliEmit_append] at hemit
        cases hE : vliEmit f ((q - tThreshold k st.bias) / (BASE - tThreshold k st.bias))
            (k + BASE) st.bias [] with
        | error e => rw [hE] at hemit; exact absurd hemit (by simp [Except.map])
        | ok ds' =>
          rw [hE] at hemit
          simp only [Except.map, List.nil_append] at hemit
          injection hemit with hds
          subst hds
          obtain ⟨hdig, hlt128⟩ := digitOfByte_valueToDigit _ d hv
          have hmod : (q - tThreshold k st.bias) % (BASE - tThreshold k st.bias) <
              BASE - tThreshold k st.bias :=
            Nat.mod_lt _ (by simp only [BASE]; omega)
          have hb : utf8Bytes (d :: ds') = d.toNat :: utf8Bytes ds' := by
            simp only [utf8Bytes, List.map_cons, List.flatten_cons]
            rw [show utf8BytesChar d = [d.toNat] from by simp [utf8BytesChar, hlt128]]
            rfl
          simp only [List.singleton_append]
          rw [hb]
          simp only [List.cons_append]
          simp only [insRunE, hdig]
          by_cases hov : tThreshold k st.bias +
              (q - tThreshold k st.bias) % (BASE - tThreshold k st.bias) >
              (U32MAX - st.i) / w
          · rw [if_pos hov]
            exact Or.inl ⟨_, rfl⟩
          · rw [if_neg hov]
            rw [if_neg (by omega)]
            by_cases hw : w > U32MAX / (BASE - tThreshold k st.bias)
            · rw [if_pos hw]
              exact Or.inl ⟨_, rfl⟩
            · rw [if_neg hw]
              have hrec := ih ((q - tThreshold k st.bias) / (BASE - tThreshold k st.bias))
                (k + BASE) (w * (BASE - tThreshold k st.bias)) P
                { st with i := st.i + (tThreshold k st.bias +
                    (q - tThreshold k st.bias) % (BASE - tThreshold k st.bias)) * w }
                ds' tail (by simpa using hE)
              have harith : st.i + (tThreshold k st.bias +
                  (q - tThreshold k st.bias) % (BASE - tThreshold k st.bias)) * w +
                  (q - tThreshold k st.bias) / (BASE - tThreshold k st.bias) *
                    (w * (BASE - tThreshold k st.bias)) = st.i + q * w := by
                have hdm := Nat.div_add_mod (q - tThreshold k st.bias)
                  (BASE - tThreshold k st.bias)
                have hqt : tThreshold k st.bias + (q - tThreshold k st.bias) = q := by
                  omega
                calc st.i + (tThreshold k st.bias +
                    (q - tThreshold k st.bias) % (BASE - tThreshold k st.bias)) * w +
                    (q - tThreshold k st.bias) / (BASE - tThreshold k st.bias) *
                      (w * (BASE - tThreshold k st.bias))
                    = st.i + (tThreshold k st.bias +
                        ((q - tThreshold k st.bias) % (BASE - tThreshold k st.bias) +
                         (BASE - tThreshold k st.bias) *
                           ((q - tThreshold k st.bias) / (BASE - tThreshold k st.bias)))) * w := by
                      ring
                  _ = st.i + (tThreshold k st.bias + (q - tThreshold k st.bias)) * w := by
                      rw [Nat.mod_add_div]
                  _ = st.i + q * w := by rw [hqt]
              simp only [InsSt.mk.injEq] at hrec ⊢
              rcases hrec with ⟨e, he⟩ | ⟨c, hc, heq⟩
              · left
                exact ⟨e, by simpa [harith] using he⟩
              · right
                refine ⟨c, ?_, ?_⟩
                · simpa [harith] using hc
                · simpa [harith] using heq

theorem utf8BytesChar_ne_nil (c : Char) : utf8BytesChar c ≠ [] := by
  simp only [utf8BytesChar]
  split_ifs <;> simp

theorem utf8Bytes_cons_ne_nil (c : Char) (l : List Char) : utf8Bytes (c :: l) ≠ [] := by
  cases hx : utf8BytesChar c with
  | nil => exact absurd hx (utf8BytesChar_ne_nil c)
  | cons b bs => simp [utf8Bytes, hx]

theorem insRunE_none_eq_some (st : InsSt) (l : List Nat) (h : l ≠ []) :
    insRunE st none l = insRunE st (some (st.i, 1, BASE)) l := by
  cases l with
  | nil => exact absurd rfl h
  | cons b rest => rfl

theorem lowerDigit_lt128 (c : Char)
    (h : isAsciiLower c = true ∨ isAsciiDigit c = true) : c.toNat < 128 := by
  have := lowerDigit_ascii c (Or.inr (Or.inr h))
  simpa [isAsciiChar] using this

/-- The invariant tying the state of one `encode_into` scan pass
(punycode.rs lines 235-268, at code point `m`, having scanned `pre` with
`suf` remaining) to the state of the decoder of `insertions`
(punycode.rs lines 81-144) that has consumed all digits emitted so far. -/
structure InnerInv (b m : Nat) (pre suf : List Char) (d bias p : Nat) (st : InsSt) : Prop where
  hi : st.i + d = (m - st.codePoint) * (p + 1) + cntLe m (pre.map charVal)
  hcp : st.codePoint ≤ m
  hbias : st.bias = bias
  hlen : st.length = p
  hzero : st.i = 0 ↔ p = b
  hpb : b ≤ p
  hp : p = cntLe m (pre.map charVal) + cntLt m (suf.map charVal)
  hbuf : st.buf.Perm (entsP (fun v => decide (v ≤ m)) 0 pre ++
    entsP (fun v => decide (v < m)) (cntLe m (pre.map charVal)) suf)
  hd : d ≤ U32MAX

theorem cntLe_cast (m : Nat) (l : List Nat) :
    List.countP (fun v => decide (v ≤ m)) l = cntLe m l := rfl

theorem cntLt_cast (m : Nat) (l : List Nat) :
    List.countP (fun v => decide (v < m)) l = cntLt m l := rfl

/-- One full scan pass of `encode_into` (punycode.rs lines 235-268) is
matched, digit block by digit block, by the decoder of `insertions`
(punycode.rs lines 81-144): from any decoder state satisfying the
invariant, consuming the emitted bytes either errors or reaches the
state satisfying the invariant at the end of the pass. -/
theorem encInner_sim (b m : Nat) (hm128 : 128 ≤ m) :
    ∀ (suf pre : List Char) (d bias p : Nat) (out : List Char) (st : InsSt)
      (d2 bias2 p2 : Nat) (out2 : List Char),
    encInner b m suf d bias p out = .ok (d2, bias2, p2, out2) →
    InnerInv b m pre suf d bias p st →
    ∃ ds st2,
      out2 = out ++ ds ∧
      (∀ x ∈ ds, isAsciiLower x = true ∨ isAsciiDigit x = true) ∧
      InnerInv b m (pre ++ suf) [] d2 bias2 p2 st2 ∧
      d2 ≤ d + suf.length ∧
      (m ∈ suf.map charVal → d2 ≤ suf.length) ∧
      ∀ tail, (∃ e, insRunE st none (utf8Bytes ds ++ tail) = .error e) ∨
        insRunE st none (utf8Bytes ds ++ tail) = insRunE st2 none tail := by
  intro suf
  induction suf with
  | nil =>
    intro pre d bias p out st d2 bias2 p2 out2 hrun inv
    simp only [encInner, Except.ok.injEq, Prod.mk.injEq] at hrun
    obtain ⟨h1, h2, h3, h4⟩ := hrun
    subst h1; subst h2; subst h3; subst h4
    refine ⟨[], st, by simp, by simp, by simpa using inv, by simp, by simp, ?_⟩
    intro tail
    right
    simp [utf8Bytes]
  | cons c rest ih =>
    intro pre d bias p out st d2 bias2 p2 out2 hrun inv
    obtain ⟨hi, hcp, hbias, hlen, hzero, hpb, hp, hbuf, hd⟩ := inv
    simp only [encInner] at hrun
    by_cases hlt : charVal c < m
    · -- the character was already handled: delta increases by one
      have hne : ¬ charVal c = m := by omega
      simp only [eq_true hlt, if_true, true_and] at hrun
      by_cases hz : (d + 1) % (U32MAX + 1) = 0
      · rw [if_pos hz] at hrun
        exact absurd hrun (by simp)
      · rw [if_neg hz, if_neg hne] at hrun
        have hd1 : d + 1 < U32MAX + 1 := by
          rcases Nat.lt_or_ge (d + 1) (U32MAX + 1) with h | h
          · exact h
          · exfalso
            have he : d + 1 = U32MAX + 1 := by omega
            rw [he, Nat.mod_self] at hz
            exact hz rfl
        rw [Nat.mod_eq_of_lt hd1] at hrun
        have hcnew : cntLe m ((pre ++ [c]).map charVal) = cntLe m (pre.map charVal) + 1 := by
          simp [cntLe, List.map_append, List.countP_append, List.countP_cons,
            Nat.le_of_lt hlt]
        have hcLt : cntLt m ((c :: rest).map charVal) = cntLt m (rest.map charVal) + 1 := by
          simp [cntLt, List.countP_cons, hlt]
        have hinv1 : InnerInv b m (pre ++ [c]) rest (d + 1) bias p st := by
          refine ⟨?_, hcp, hbias, hlen, hzero, hpb, ?_, ?_, by omega⟩
          · rw [hcnew]; omega
          · rw [hcnew]
            rw [hp, hcLt]
            omega
          · rw [hcnew]
            have hb2 : entsP (fun v => decide (v ≤ m)) 0 (pre ++ [c]) ++
                entsP (fun v => decide (v < m)) (cntLe m (pre.map charVal) + 1) rest =
                entsP (fun v => decide (v ≤ m)) 0 pre ++
                entsP (fun v => decide (v < m)) (cntLe m (pre.map charVal)) (c :: rest) := by
              rw [entsP_append]
              rw [List.append_assoc]
              congr 1
              simp only [Nat.zero_add, cntLe_cast]
              by_cases h2 : 128 ≤ charVal c
              · simp [entsP, Nat.le_of_lt hlt, hlt, h2]
              · simp [entsP, Nat.le_of_lt hlt, hlt, h2]
            rw [hb2]
            exact hbuf
        obtain ⟨ds, st2, hout2, hchars, hinv2, hba, hbb2, hcont⟩ :=
          ih (pre ++ [c]) (d + 1) bias p out st d2 bias2 p2 out2 hrun hinv1
        refine ⟨ds, st2, hout2, hchars, ?_, by simp only [List.length_cons]; omega, ?_,
          hcont⟩
        · rw [List.append_cons]
          exact hinv2
        · intro hmem
          simp only [List.map_cons, List.mem_cons] at hmem
          rcases hmem with hmem | hmem
          · omega
          · have := hbb2 hmem
            simp only [List.length_cons]
            omega
    · by_cases heq : charVal c = m
      · -- an occurrence of the current code point: emit one digit block
        simp only [eq_false hlt, if_false, false_and] at hrun
        rw [if_pos heq] at hrun
        cases hvE : vliEmit (d + 1) d BASE bias out with
        | error e =>
          rw [hvE] at hrun
          exact absurd hrun (by simp)
        | ok out1 =>
          rw [hvE] at hrun
          rw [vliEmit_append] at hvE
          cases hE1 : vliEmit (d + 1) d BASE bias [] with
          | error e =>
            rw [hE1] at hvE
            exact absurd hvE (by simp [Except.map])
          | ok ds1 =>
            rw [hE1] at hvE
            simp only [Except.map] at hvE
            injection hvE with hout1
            subst hout1
            dsimp only at hrun
            have hQle : cntLe m (pre.map charVal) ≤ p := by
              rw [hp]; omega
            have hbb : (st.i == 0) = (p == b) := by
              by_cases hz2 : st.i = 0
              · simp [hz2, hzero.mp hz2]
              · have hz3 : ¬ p = b := fun h => hz2 (hzero.mpr h)
                simp [hz2, hz3]
            have hcnew : cntLe m ((pre ++ [c]).map charVal) =
                cntLe m (pre.map charVal) + 1 := by
              simp [cntLe, List.map_append, List.countP_append, List.countP_cons, heq]
            have hcLt : cntLt m ((c :: rest).map charVal) = cntLt m (rest.map charVal) := by
              simp [cntLt, List.countP_cons, heq]
            have hinv1 : InnerInv b m (pre ++ [c]) rest 0 (adapt d (p + 1) (p == b)) (p + 1)
                { codePoint := m, bias := adapt d (p + 1) (p == b),
                  i := cntLe m (pre.map charVal) + 1, length := p + 1,
                  buf := st.buf.map (fun e => if cntLe m (pre.map charVal) ≤ e.1
                      then (e.1 + 1, e.2) else e) ++ [(cntLe m (pre.map charVal), c)] } := by
              refine ⟨?_, Nat.le_refl m, rfl, rfl, ?_, by omega, ?_, ?_, Nat.zero_le _⟩
              · show cntLe m (pre.map charVal) + 1 + 0 =
                  (m - m) * (p + 1 + 1) + cntLe m ((pre ++ [c]).map charVal)
                rw [hcnew, Nat.sub_self, Nat.zero_mul]
                omega
              · show cntLe m (pre.map charVal) + 1 = 0 ↔ p + 1 = b
                omega
              · rw [hcnew, hp, hcLt]
                omega
              · show (st.buf.map (fun e => if cntLe m (pre.map charVal) ≤ e.1
                    then (e.1 + 1, e.2) else e) ++
                    [(cntLe m (pre.map charVal), c)]).Perm _
                rw [hcnew]
                have hBeq : entsP (fun v => decide (v < m))
                    (cntLe m (pre.map charVal)) (c :: rest) =
                    entsP (fun v => decide (v < m)) (cntLe m (pre.map charVal)) rest := by
                  simp [entsP, heq]
                rw [hBeq] at hbuf
                have hAnew : entsP (fun v => decide (v ≤ m)) 0 (pre ++ [c]) =
                    entsP (fun v => decide (v ≤ m)) 0 pre ++
                      [(cntLe m (pre.map charVal), c)] := by
                  rw [entsP_append]
                  congr 1
                  simp only [Nat.zero_add, cntLe_cast]
                  simp [entsP, heq, hm128]
                rw [hAnew]
                have hmap : st.buf.map (fun e => if cntLe m (pre.map charVal) ≤ e.1
                    then (e.1 + 1, e.2) else e) |>.Perm
                    (entsP (fun v => decide (v ≤ m)) 0 pre ++
                     entsP (fun v => decide (v < m)) (cntLe m (pre.map charVal) + 1) rest) := by
                  have hstep := hbuf.map (fun e => if cntLe m (pre.map charVal) ≤ e.1
                      then (e.1 + 1, e.2) else e)
                  rw [List.map_append] at hstep
                  have hA : (entsP (fun v => decide (v ≤ m)) 0 pre).map
                      (fun e => if cntLe m (pre.map charVal) ≤ e.1
                        then (e.1 + 1, e.2) else e) =
                      entsP (fun v => decide (v ≤ m)) 0 pre := by
                    have hcg : ∀ e ∈ entsP (fun v => decide (v ≤ m)) 0 pre,
                        (if cntLe m (pre.map charVal) ≤ e.1
                          then (e.1 + 1, e.2) else e) = e := by
                      intro e he
                      have hlt2 := entsP_pos_lt _ pre 0 e he
                      rw [cntLe_cast] at hlt2
                      rw [if_neg (by omega)]
                    rw [List.map_congr_left hcg]
                    exact List.map_id _
                  have hB : (entsP (fun v => decide (v < m))
                      (cntLe m (pre.map charVal)) rest).map
                      (fun e => if cntLe m (pre.map charVal) ≤ e.1
                        then (e.1 + 1, e.2) else e) =
                      entsP (fun v => decide (v < m))
                        (cntLe m (pre.map charVal) + 1) rest := by
                    have hcg : ∀ e ∈ entsP (fun v => decide (v < m))
                        (cntLe m (pre.map charVal)) rest,
                        (if cntLe m (pre.map charVal) ≤ e.1
                          then (e.1 + 1, e.2) else e) = (e.1 + 1, e.2) := by
                      intro e he
                      have hge := entsP_pos_ge _ rest (cntLe m (pre.map charVal)) e he
                      rw [if_pos hge]
                    rw [List.map_congr_left hcg, ← entsP_shift]
                  rw [hA, hB] at hstep
                  exact hstep
                have hfinal := hmap.append (List.Perm.refl [(cntLe m (pre.map charVal), c)])
                refine hfinal.trans ?_
                rw [List.append_assoc, List.append_assoc]
                refine List.Perm.append_left _ ?_
                exact List.perm_append_comm
            obtain ⟨ds2, st2, hout2, hchars2, hinv2, hba, hbb2, hcont2⟩ :=
              ih (pre ++ [c]) 0 (adapt d (p + 1) (p == b)) (p + 1) (out ++ ds1) _
                d2 bias2 p2 out2 hrun hinv1
            refine ⟨ds1 ++ ds2, st2, ?_, ?_, ?_, ?_, ?_, ?_⟩
            · rw [hout2, List.append_assoc]
            · intro x hx
              rcases List.mem_append.mp hx with hx | hx
              · rcases vliEmit_chars (d + 1) d BASE bias [] ds1 hE1 x hx with h | h
                · simp at h
                · exact h
              · exact hchars2 x hx
            · rw [List.append_cons]
              exact hinv2
            · simp only [List.length_cons]
              omega
            · intro _
              simp only [List.length_cons]
              omega
            · intro tail
              rw [utf8Bytes_append, List.append_assoc]
              have hne1 : ds1 ≠ [] := by
                have hg := vliEmit_grows (d + 1) d BASE bias [] ds1 hE1
                intro h
                subst h
                simp at hg
              have hbytes_ne : utf8Bytes ds1 ++ (utf8Bytes ds2 ++ tail) ≠ [] := by
                intro h
                rcases List.append_eq_nil.mp h with ⟨h1, _⟩
                cases ds1 with
                | nil => exact hne1 rfl
                | cons x xs => exact utf8Bytes_cons_ne_nil x xs h1
              rw [insRunE_none_eq_some st _ hbytes_ne]
              rcases vliEmit_sim (d + 1) d BASE 1 st.i st ds1 (utf8Bytes ds2 ++ tail)
                  (by rw [hbias]; exact hE1) with ⟨e, he⟩ | ⟨c0, hc0, heqrun⟩
              · exact Or.inl ⟨e, he⟩
              · have hmul : st.i + d * 1 = st.i + d := by ring
                rw [hmul] at hc0 heqrun
                have hidiv : (st.i + d) / (st.length + 1) = m - st.codePoint := by
                  rw [hlen, hi]
                  rw [show (m - st.codePoint) * (p + 1) + cntLe m (pre.map charVal) =
                      (p + 1) * (m - st.codePoint) + cntLe m (pre.map charVal) from by ring]
                  rw [Nat.mul_add_div (by omega)]
                  rw [Nat.div_eq_of_lt (by omega)]
                  omega
                have himod : (st.i + d) % (st.length + 1) = cntLe m (pre.map charVal) := by
                  rw [hlen, hi]
                  rw [show (m - st.codePoint) * (p + 1) + cntLe m (pre.map charVal) =
                      (p + 1) * (m - st.codePoint) + cntLe m (pre.map charVal) from by ring]
                  rw [Nat.mul_add_mod]
                  exact Nat.mod_eq_of_lt (by omega)
                have hcpm : st.codePoint + (st.i + d) / (st.length + 1) = m := by
                  rw [hidiv]
                  omega
                have hcm : charFromU32 m = some c := by
                  rw [← heq]
                  exact charFromU32_self c
                rw [hcpm] at hc0 heqrun
                have hc0c : c0 = c := by
                  rw [hcm] at hc0
                  injection hc0 with h
                  exact h.symm
                subst hc0c
                rw [himod] at heqrun
                have hsub : st.i + d - st.i = d := by omega
                rw [hsub, hlen, hbb] at heqrun
                rcases hcont2 tail with ⟨e, he⟩ | heq2
                · exact Or.inl ⟨e, by rw [heqrun]; exact he⟩
                · exact Or.inr (by rw [heqrun]; exact heq2)
      · -- a later code point: nothing happens
        have hgt : m < charVal c := by omega
        simp only [eq_false hlt, if_false, false_and] at hrun
        rw [if_neg heq] at hrun
        have hcnew : cntLe m ((pre ++ [c]).map charVal) = cntLe m (pre.map charVal) := by
          simp [cntLe, List.map_append, List.countP_append, List.countP_cons,
            Nat.not_le.mpr hgt]
        have hcLt : cntLt m ((c :: rest).map charVal) = cntLt m (rest.map charVal) := by
          simp [cntLt, List.countP_cons, hlt]
        have hinv1 : InnerInv b m (pre ++ [c]) rest d bias p st := by
          refine ⟨?_, hcp, hbias, hlen, hzero, hpb, ?_, ?_, hd⟩
          · rw [hcnew]; exact hi
          · rw [hcnew, hp, hcLt]
          · rw [hcnew]
            have hb2 : entsP (fun v => decide (v ≤ m)) 0 (pre ++ [c]) =
                entsP (fun v => decide (v ≤ m)) 0 pre := by
              rw [entsP_append]
              simp [entsP, Nat.not_le.mpr hgt, Nat.lt_asymm hgt]
            have hBeq : entsP (fun v => decide (v < m))
                (cntLe m (pre.map charVal)) (c :: rest) =
                entsP (fun v => decide (v < m)) (cntLe m (pre.map charVal)) rest := by
              simp [entsP, hlt]
            rw [hb2, ← hBeq]
            exact hbuf
        obtain ⟨ds, st2, hout2, hchars, hinv2, hba, hbb2, hcont⟩ :=
          ih (pre ++ [c]) d bias p out st d2 bias2 p2 out2 hrun hinv1
        refine ⟨ds, st2, hout2, hchars, ?_, by simp only [List.length_cons]; omega, ?_,
          hcont⟩
        · rw [List.append_cons]
          exact hinv2
        · intro hmem
          simp only [List.map_cons, List.mem_cons] at hmem
          rcases hmem with hmem | hmem
          · omega
          · have := hbb2 hmem
            simp only [List.length_cons]
            omega

/-- The invariant tying the state of the `while processed < input_length`
loop of `encode_into` (punycode.rs lines 220-271) to the decoder state of
`insertions` that has consumed all digits emitted so far. -/
structure LoopInv (s : List Char) (b cp delta bias p : Nat) (st : InsSt) : Prop where
  hi : st.i + delta = (cp - st.codePoint) * (p + 1)
  hcp : st.codePoint ≤ cp
  hbias : st.bias = bias
  hlen : st.length = p
  hzero : st.i = 0 ↔ p = b
  hpb : b ≤ p
  hp : p = cntLt cp (s.map charVal)
  hbuf : st.buf.Perm (entsP (fun v => decide (v < cp)) 0 s)
  hdelta : delta ≤ U32MAX
  h128 : 128 ≤ cp

/-- The rounds of `encode_into`'s outer loop (punycode.rs lines 220-271)
are matched by the decoder of `insertions`: from any decoder state
satisfying the loop invariant, consuming the digits the loop emits
either errors or ends in a state whose buffer holds exactly the
insertion entries of the input. -/
theorem encLoop_sim (s : List Char) (b : Nat) (hlen_s : s.length < U32MAX) :
    ∀ (fuel cp delta bias p : Nat) (out : List Char) (st : InsSt) (outF : List Char),
    encLoop s s.length b fuel cp delta bias p out = .ok outF →
    LoopInv s b cp delta bias p st →
    ∃ ds stF,
      outF = out ++ ds ∧
      (∀ x ∈ ds, isAsciiLower x = true ∨ isAsciiDigit x = true) ∧
      stF.buf.Perm (entsP (fun _ => true) 0 s) ∧
      ∀ tail, (∃ e, insRunE st none (utf8Bytes ds ++ tail) = .error e) ∨
        insRunE st none (utf8Bytes ds ++ tail) = insRunE stF none tail := by
  intro fuel
  induction fuel with
  | zero =>
    intro cp delta bias p out st outF hrun _
    exact absurd hrun (by simp [encLoop])
  | succ f ih =>
    intro cp delta bias p out st outF hrun inv
    obtain ⟨hi, hcp, hbias, hlenst, hzero, hpb, hp, hbuf, hdelta, h128⟩ := inv
    simp only [encLoop] at hrun
    by_cases hterm : p < s.length
    · rw [if_pos hterm] at hrun
      cases hmin : ((s.map charVal).filter (fun c => decide (c ≥ cp))).min? with
      | none =>
        rw [hmin] at hrun
        exact absurd hrun (by simp)
      | some m =>
        rw [hmin] at hrun
        dsimp only at hrun
        obtain ⟨hmem, hle⟩ := natMin?_eq_some hmin
        have hmem' : m ∈ s.map charVal := List.mem_of_mem_filter hmem
        have hmge : cp ≤ m := by
          have := List.of_mem_filter hmem
          simpa using this
        have hlow : ∀ v ∈ s.map charVal, cp ≤ v → m ≤ v := by
          intro v hv hcpv
          exact hle v (List.mem_filter.mpr ⟨hv, by simpa using hcpv⟩)
        by_cases hov : m - cp > (U32MAX - delta) / (p + 1)
        · rw [if_pos hov] at hrun
          exact absurd hrun (by simp)
        · rw [if_neg hov] at hrun
          have hdelta2 : delta + (m - cp) * (p + 1) ≤ U32MAX := by
            have h1 : m - cp ≤ (U32MAX - delta) / (p + 1) := Nat.not_lt.mp hov
            have h2 : (m - cp) * (p + 1) ≤ U32MAX - delta :=
              (Nat.le_div_iff_mul_le (by omega)).mp h1
            omega
          cases hinner : encInner b m s (delta + (m - cp) * (p + 1)) bias p out with
          | error e =>
            rw [hinner] at hrun
            exact absurd hrun (by simp)
          | ok q =>
            obtain ⟨d1, bias1, p1, out1⟩ := q
            rw [hinner] at hrun
            dsimp only at hrun
            have hgap : ∀ v ∈ s.map charVal, decide (v < cp) = decide (v < m) := by
              intro v hv
              by_cases hvc : v < cp
              · have hvm : v < m := by omega
                simp [hvc, hvm]
              · have hml := hlow v hv (Nat.le_of_not_lt hvc)
                simp [hvc, Nat.not_lt.mpr hml]
            have hcongrLt : cntLt cp (s.map charVal) = cntLt m (s.map charVal) := by
              refine List.countP_congr ?_
              intro v hv
              rw [hgap v hv]
            have hinv0 : InnerInv b m [] s (delta + (m - cp) * (p + 1)) bias p st := by
              refine ⟨?_, by omega, hbias, hlenst, hzero, hpb, ?_, ?_, hdelta2⟩
              · have hmul : (cp - st.codePoint) * (p + 1) + (m - cp) * (p + 1) =
                    (m - st.codePoint) * (p + 1) := by
                  rw [← Nat.add_mul]
                  congr 1
                  omega
                have hz : cntLe m (([] : List Char).map charVal) = 0 := by
                  simp [cntLe]
                rw [hz]
                omega
              · have hz : cntLe m (([] : List Char).map charVal) = 0 := by
                  simp [cntLe]
                rw [hz, hp, hcongrLt]
                omega
              · have hz : cntLe m (([] : List Char).map charVal) = 0 := by
                  simp [cntLe]
                rw [hz]
                have hcg : entsP (fun v => decide (v < cp)) 0 s =
                    entsP (fun v => decide (v < m)) 0 s := by
                  refine entsP_congr _ _ s 0 ?_
                  intro x hx
                  exact hgap (charVal x) (List.mem_map_of_mem charVal hx)
                simp only [entsP, List.nil_append]
                rw [← hcg]
                exact hbuf
            obtain ⟨ds1, st1, hout1, hchars1, hinvEnd, hdbound, hdbound2, hcont1⟩ :=
              encInner_sim b m (by omega) s [] (delta + (m - cp) * (p + 1)) bias p out st
                d1 bias1 p1 out1 hinner hinv0
            simp only [List.nil_append] at hinvEnd
            obtain ⟨hiE, hcpE, hbiasE, hlenE, hzeroE, hpbE, hpE, hbufE, hdE⟩ := hinvEnd
            have hd1 : d1 ≤ s.length := hdbound2 hmem'
            have hmodid : (d1 + 1) % (U32MAX + 1) = d1 + 1 :=
              Nat.mod_eq_of_lt (by omega)
            rw [hmodid] at hrun
            have hzE : cntLt m (([] : List Char).map charVal) = 0 := by
              simp [cntLt]
            rw [hzE] at hpE
            have hinvNext : LoopInv s b (m + 1) (d1 + 1) bias1 p1 st1 := by
              refine ⟨?_, by omega, hbiasE, hlenE, hzeroE, hpbE, ?_, ?_, by omega, by omega⟩
              · have hx : (m - st1.codePoint) * (p1 + 1) + (p1 + 1) =
                    (m + 1 - st1.codePoint) * (p1 + 1) := by
                  rw [Nat.succ_sub hcpE, Nat.succ_mul]
                omega
              · have hle' : cntLt (m + 1) (s.map charVal) = cntLe m (s.map charVal) := by
                  refine List.countP_congr ?_
                  intro v _
                  simp [Nat.lt_succ_iff]
                rw [hle']
                omega
              · have hcg : entsP (fun v => decide (v < m + 1)) 0 s =
                    entsP (fun v => decide (v ≤ m)) 0 s := by
                  refine entsP_congr _ _ s 0 ?_
                  intro x _
                  simp [Nat.lt_succ_iff]
                rw [hcg]
                simpa [entsP] using hbufE
            obtain ⟨ds2, stF, houtF, hcharsF, hbufF, hcontF⟩ :=
              ih (m + 1) (d1 + 1) bias1 p1 out1 st1 outF hrun hinvNext
            refine ⟨ds1 ++ ds2, stF, ?_, ?_, hbufF, ?_⟩
            · rw [houtF, hout1, List.append_assoc]
            · intro x hx
              rcases List.mem_append.mp hx with hx | hx
              · exact hchars1 x hx
              · exact hcharsF x hx
            · intro tail
              rw [utf8Bytes_append, List.append_assoc]
              rcases hcont1 (utf8Bytes ds2 ++ tail) with ⟨e, he⟩ | heq1
              · exact Or.inl ⟨e, he⟩
              · rcases hcontF tail with ⟨e, he⟩ | heq2
                · exact Or.inl ⟨e, by rw [heq1]; exact he⟩
                · exact Or.inr (by rw [heq1]; exact heq2)
    · rw [if_neg hterm] at hrun
      injection hrun with h
      subst h
      have hple : p ≤ s.length := by
        rw [hp]
        have h1 : cntLt cp (s.map charVal) ≤ (s.map charVal).length :=
          List.countP_le_length _
        simpa using h1
      have hpn : p = s.length := by omega
      have hall : ∀ x ∈ s.map charVal, decide (x < cp) = true := by
        refine List.countP_eq_length.mp ?_
        rw [cntLt_cast, ← hp, hpn]
        simp
      refine ⟨[], st, by simp, by simp, ?_, ?_⟩
      · have hcg : entsP (fun v => decide (v < cp)) 0 s =
          entsP (fun _ => true) 0 s := by
          refine entsP_congr _ _ s 0 ?_
          intro x hx
          rw [hall (charVal x) (List.mem_map_of_mem charVal hx)]
        rw [← hcg]
        exact hbuf
      · intro tail
        right
        simp [utf8Bytes]

theorem insertSorted_perm (p : Nat × Char) (l : List (Nat × Char)) :
    (insertSorted p l).Perm (p :: l) := by
  induction l with
  | nil => simp [insertSorted]
  | cons q rest ih =>
    simp only [insertSorted]
    by_cases h : q.1 ≤ p.1
    · rw [if_pos h]
      exact (ih.cons q).trans (List.Perm.swap p q rest)
    · rw [if_neg h]

theorem sortByPos_perm (l : List (Nat × Char)) : (sortByPos l).Perm l := by
  induction l with
  | nil => simp [sortByPos]
  | cons p rest ih =>
    simp only [sortByPos, List.foldr_cons]
    exact (insertSorted_perm p _).trans (ih.cons p)

theorem insertSorted_sorted (p : Nat × Char) (l : List (Nat × Char))
    (h : l.Pairwise (fun a b => a.1 ≤ b.1)) :
    (insertSorted p l).Pairwise (fun a b => a.1 ≤ b.1) := by
  induction l with
  | nil => simp [insertSorted]
  | cons q rest ih =>
    simp only [insertSorted]
    rcases List.pairwise_cons.mp h with ⟨hq, hrest⟩
    by_cases hle : q.1 ≤ p.1
    · rw [if_pos hle]
      refine List.pairwise_cons.mpr ⟨?_, ih hrest⟩
      intro e he
      have hm := (insertSorted_perm p rest).mem_iff.mp he
      rcases List.mem_cons.mp hm with h2 | h2
      · subst h2; exact hle
      · exact hq e h2
    · rw [if_neg hle]
      refine List.pairwise_cons.mpr ⟨?_, h⟩
      intro e he
      rcases List.mem_cons.mp he with h2 | h2
      · subst h2; omega
      · have := hq e h2
        omega

theorem sortByPos_sorted (l : List (Nat × Char)) :
    (sortByPos l).Pairwise (fun a b => a.1 ≤ b.1) := by
  induction l with
  | nil => simp [sortByPos]
  | cons p rest ih => exact insertSorted_sorted p _ ih

/-- A stable sort of a list with pairwise-distinct keys is determined:
any `≤`-sorted permutation of a strictly sorted list is that list. -/
theorem sorted_perm_unique : ∀ (l2 l1 : List (Nat × Char)),
    l1.Perm l2 → l1.Pairwise (fun a b => a.1 ≤ b.1) →
    l2.Pairwise (fun a b => a.1 < b.1) → l1 = l2 := by
  intro l2
  induction l2 with
  | nil =>
    intro l1 h _ _
    exact h.eq_nil
  | cons y t2 ih =>
    intro l1 hperm hs1 hs2
    cases l1 with
    | nil =>
      have := hperm.length_eq
      simp at this
    | cons x t1 =>
      have hxy : x = y := by
        by_contra hne
        have hx2 : x ∈ y :: t2 := hperm.mem_iff.mp (List.mem_cons_self x t1)
        have hy1 : y ∈ x :: t1 := hperm.mem_iff.mpr (List.mem_cons_self y t2)
        rcases List.mem_cons.mp hx2 with h2 | hx2'
        · exact hne h2
        rcases List.mem_cons.mp hy1 with h2 | hy1'
        · exact hne h2.symm
        have h1 := (List.pairwise_cons.mp hs2).1 x hx2'
        have h2 := (List.pairwise_cons.mp hs1).1 y hy1'
        omega
      subst hxy
      have htail : t1.Perm t2 := hperm.cons_inv
      rw [ih t1 htail (List.pairwise_cons.mp hs1).2 (List.pairwise_cons.mp hs2).2]

/-- `merge` (punycode.rs lines 151-177) rebuilds a string from its ASCII
subsequence and the insertion entries of its non-ASCII characters. -/
theorem merge_rebuild : ∀ (s : List Char) (fuel pos : Nat) (out : List Char),
    s.length < fuel →
    mergeLoop fuel (entsP (fun _ => true) pos s) (s.filter isAsciiChar) pos out =
      some (out ++ s) := by
  intro s
  induction s with
  | nil =>
    intro fuel pos out hf
    obtain ⟨f, rfl⟩ : ∃ f, fuel = f + 1 := ⟨fuel - 1, by omega⟩
    simp [entsP, mergeLoop]
  | cons c rest ih =>
    intro fuel pos out hf
    obtain ⟨f, rfl⟩ : ∃ f, fuel = f + 1 := ⟨fuel - 1, by omega⟩
    have hf' : rest.length < f := by
      simp only [List.length_cons] at hf
      omega
    by_cases hasc : isAsciiChar c = true
    · have h128 : ¬ 128 ≤ charVal c := by
        simp only [isAsciiChar, decide_eq_true_eq] at hasc
        simp only [charVal]
        omega
      have hent : entsP (fun _ => true) pos (c :: rest) =
          entsP (fun _ => true) (pos + 1) rest := by
        simp [entsP, h128]
      rw [hent]
      rw [show (c :: rest).filter isAsciiChar = c :: rest.filter isAsciiChar from by
        simp [List.filter_cons, hasc]]
      simp only [mergeLoop]
      have hih := ih f (pos + 1) (out ++ [c]) hf'
      cases hins : entsP (fun _ => true) (pos + 1) rest with
      | nil =>
        dsimp only
        rw [hins] at hih
        rw [hih]
        simp
      | cons e ins' =>
        obtain ⟨e1, e2⟩ := e
        have hge := entsP_pos_ge (fun _ => true) rest (pos + 1) (e1, e2)
          (by rw [hins]; exact List.mem_cons_self _ ins')
        have hge' : pos + 1 ≤ e1 := by simpa using hge
        dsimp only
        rw [if_neg (by omega)]
        rw [hins] at hih
        rw [hih]
        simp
    · have h128 : 128 ≤ charVal c := by
        simp only [isAsciiChar, decide_eq_true_eq] at hasc
        simp only [charVal]
        omega
      have hent : entsP (fun _ => true) pos (c :: rest) =
          (pos, c) :: entsP (fun _ => true) (pos + 1) rest := by
        simp [entsP, h128]
      rw [hent]
      rw [show (c :: rest).filter isAsciiChar = rest.filter isAsciiChar from by
        simp [List.filter_cons, hasc]]
      simp only [mergeLoop]
      rw [if_true]
      have hih := ih f (pos + 1) (out ++ [c]) hf'
      rw [hih]
      simp

theorem filter_split_length (s : List Char) :
    (s.filter (fun c => true && decide (128 ≤ charVal c))).length +
    (s.filter isAsciiChar).length = s.length := by
  induction s with
  | nil => simp
  | cons c rest ih =>
    by_cases h : isAsciiChar c = true
    · have h2 : (true && decide (128 ≤ charVal c)) = false := by
        simp only [isAsciiChar, decide_eq_true_eq] at h
        simp only [charVal, Bool.true_and, decide_eq_false_iff_not]
        omega
      simp only [List.filter_cons, h, if_true, h2, Bool.false_eq_true, if_false,
        List.length_cons]
      omega
    · have h2 : (true && decide (128 ≤ charVal c)) = true := by
        simp only [isAsciiChar, decide_eq_true_eq] at h
        simp only [charVal, Bool.true_and, decide_eq_true_eq]
        omega
      simp only [List.filter_cons, h, Bool.false_eq_true, if_false, h2, if_true,
        List.length_cons]
      omega

/-- C1 (amended): Punycode round-trip on the decodable range.  If
`encode(s)` succeeds with output `t`, then `decode(t)` either fails (its
overflow checks are stricter than the encoder's, which the counterexample
exercises) or returns exactly `s`; the input length bound keeps the
embedding within the `u32` arithmetic of the source. -/
theorem C1_roundtrip (s t d : List Char) (hn : s.length < U32MAX)
    (he : encode s = some t) (hd : decode t = some d) : d = s := by
  unfold encode at he
  cases henc : encodeInto s with
  | error e =>
    rw [henc] at he
    exact absurd he (by simp)
  | ok t0 =>
    rw [henc] at he
    dsimp only at he
    injection he with he0
    subst he0
    have hbasic : ∀ c ∈ s.filter isAsciiChar, c.toNat < 128 := by
      intro c hc
      have := List.of_mem_filter hc
      simpa [isAsciiChar] using this
    have hblen : utf8Length (s.filter isAsciiChar) = (s.filter isAsciiChar).length :=
      utf8Length_ascii _ hbasic
    have hbcnt : (s.filter isAsciiChar).length = cntLt 128 (s.map charVal) := by
      rw [← List.countP_eq_length_filter]
      unfold cntLt
      rw [List.countP_map]
      refine List.countP_congr ?_
      intro c _
      simp [isAsciiChar, charVal, Function.comp]
    simp only [encodeInto] at henc
    have hinv0 : LoopInv s (s.filter isAsciiChar).length INITIAL_N 0 INITIAL_BIAS
        (s.filter isAsciiChar).length (initSt (s.filter isAsciiChar)) := by
      refine ⟨?_, Nat.le_refl _, rfl, ?_, ?_, Nat.le_refl _, ?_, ?_, Nat.zero_le _, ?_⟩
      · show 0 + 0 = (INITIAL_N - INITIAL_N) * ((s.filter isAsciiChar).length + 1)
        rw [Nat.sub_self, Nat.zero_mul]
      · show utf8Length (s.filter isAsciiChar) = (s.filter isAsciiChar).length
        exact hblen
      · show (0 = 0 ↔ (s.filter isAsciiChar).length = (s.filter isAsciiChar).length)
        simp
      · show (s.filter isAsciiChar).length = cntLt INITIAL_N (s.map charVal)
        rw [hbcnt]
        rfl
      · have hempty : entsP (fun v => decide (v < INITIAL_N)) 0 s = [] := by
          refine entsP_empty _ s 0 ?_
          intro c _ h128c
          simp only [INITIAL_N, decide_eq_false_iff_not, Nat.not_lt]
          exact h128c
        show List.Perm [] (entsP (fun v => decide (v < INITIAL_N)) 0 s)
        rw [hempty]
      · show 128 ≤ INITIAL_N
        exact Nat.le_refl _
    obtain ⟨ds, stF, hout, hchars, hbufF, hcont⟩ :=
      encLoop_sim s ((s.filter isAsciiChar).length) hn (s.length + 1) INITIAL_N 0
        INITIAL_BIAS ((s.filter isAsciiChar).length)
        (s.filter isAsciiChar ++ (if (s.filter isAsciiChar).length > 0 then ['-'] else []))
        (initSt (s.filter isAsciiChar)) t0 henc hinv0
    have hdsnodash : '-' ∉ ds := by
      intro hmem
      rcases hchars '-' hmem with h | h
      · exact absurd h (by decide)
      · exact absurd h (by decide)
    have hsplit : decodeSplit t0 = (s.filter isAsciiChar, ds) := by
      by_cases hbpos : (s.filter isAsciiChar).length > 0
      · rw [if_pos hbpos] at hout
        have ht0 : t0 = s.filter isAsciiChar ++ '-' :: ds := by
          rw [hout, List.append_assoc]
          rfl
        have hfind : rfindDash t0 = some (s.filter isAsciiChar).length := by
          refine rfindDash_last t0 _ ?_ ?_
          · rw [ht0, List.getElem?_append_right (Nat.le_refl _), Nat.sub_self]
            exact List.getElem?_cons_zero
          · intro k hk hklen
            rw [ht0, List.getElem?_append_right (by omega)]
            intro hcontra
            have hkb : k - (s.filter isAsciiChar).length =
                (k - (s.filter isAsciiChar).length - 1) + 1 := by omega
            rw [hkb, List.getElem?_cons_succ] at hcontra
            exact hdsnodash (List.getElem?_mem hcontra)
        unfold decodeSplit
        rw [hfind]
        dsimp only
        rw [if_pos hbpos]
        refine Prod.ext ?_ ?_
        · show t0.take (s.filter isAsciiChar).length = s.filter isAsciiChar
          rw [ht0]
          exact List.take_left _ _
        · show t0.drop ((s.filter isAsciiChar).length + 1) = ds
          rw [ht0, List.drop_append 1]
          rfl
      · have hfe : s.filter isAsciiChar = [] := List.length_eq_zero.mp (by omega)
        rw [if_neg hbpos] at hout
        have ht0 : t0 = ds := by
          rw [hout, hfe]
          simp
        have hfind : rfindDash t0 = none := by
          refine rfindDash_no_dash t0 ?_
          rw [ht0]
          exact hdsnodash
        unfold decodeSplit
        rw [hfind, hfe, ht0]
    rcases hcont [] with ⟨e, he2⟩ | heqr
    · exfalso
      rw [List.append_nil] at he2
      unfold decode at hd
      unfold insertions at hd
      rw [hsplit] at hd
      dsimp only at hd
      rw [he2] at hd
      simp at hd
    · rw [List.append_nil] at heqr
      have hrun : insRunE (initSt (s.filter isAsciiChar)) none (utf8Bytes ds) =
          .ok stF.buf := by
        rw [heqr]
        rfl
      unfold decode at hd
      unfold insertions at hd
      rw [hsplit] at hd
      dsimp only at hd
      rw [hrun] at hd
      dsimp only at hd
      have hsorteq : sortByPos stF.buf = entsP (fun _ => true) 0 s := by
        refine sorted_perm_unique _ _ ?_ ?_ ?_
        · exact (sortByPos_perm stF.buf).trans hbufF
        · exact sortByPos_sorted _
        · exact entsP_pairwise _ s 0
      rw [hsorteq] at hd
      have hmerge : merge (s.filter isAsciiChar) (entsP (fun _ => true) 0 s) = some s := by
        unfold merge
        have hfuel : (entsP (fun _ => true) 0 s).length +
            (s.filter isAsciiChar).length + 1 = s.length + 1 := by
          rw [entsP_length]
          have := filter_split_length s
          omega
        rw [hfuel]
        have := merge_rebuild s (s.length + 1) 0 [] (by omega)
        simpa using this
      rw [hmerge] at hd
      injection hd with hd2
      exact hd2.symm

theorem encInner_nil (bl cp d bias p : Nat) (out : List Char) :
    encInner bl cp [] d bias p out = .ok (d, bias, p, out) := rfl

theorem encInner_bump (bl cp : Nat) (c : Char) (rest : List Char) (d bias p : Nat)
    (out : List Char) (hcv : charVal c < cp) (hdb : d + 1 ≤ U32MAX) :
    encInner bl cp (c :: rest) d bias p out = encInner bl cp rest (d + 1) bias p out := by
  simp only [encInner]
  simp only [eq_true hcv, if_true, true_and]
  rw [Nat.mod_eq_of_lt (by simp only [U32MAX] at hdb ⊢; omega)]
  rw [if_neg (by omega), if_neg (by omega)]

theorem encInner_skip (bl cp : Nat) (c : Char) (rest : List Char) (d bias p : Nat)
    (out : List Char) (hcv : cp < charVal c) :
    encInner bl cp (c :: rest) d bias p out = encInner bl cp rest d bias p out := by
  simp only [encInner]
  have hnlt : ¬ charVal c < cp := by omega
  have hne : ¬ charVal c = cp := by omega
  simp only [eq_false hnlt, if_false, false_and]
  rw [if_neg hne]

theorem encInner_emit (bl cp : Nat) (c : Char) (rest : List Char) (d bias p : Nat)
    (out ds : List Char) (hcv : charVal c = cp)
    (hemit : vliEmit (d + 1) d BASE bias [] = .ok ds) :
    encInner bl cp (c :: rest) d bias p out =
      encInner bl cp rest 0 (adapt d (p + 1) (p == bl)) (p + 1) (out ++ ds) := by
  simp only [encInner]
  have hnlt : ¬ charVal c < cp := by omega
  simp only [eq_false hnlt, if_false, false_and]
  rw [if_pos hcv]
  rw [vliEmit_append, hemit]
  dsimp only [Except.map]

theorem encInner_replicate (n : Nat) (c : Char) (bl cp : Nat) (rest : List Char)
    (bias p : Nat) : ∀ (d : Nat) (out : List Char), charVal c < cp → d + n ≤ U32MAX →
    encInner bl cp (List.replicate n c ++ rest) d bias p out =
      encInner bl cp rest (d + n) bias p out := by
  induction n with
  | zero => intro d out _ _; simp
  | succ k ih =>
    intro d out hcv hdb
    rw [List.replicate_succ, List.cons_append]
    rw [encInner_bump bl cp c _ d bias p out hcv (by omega)]
    rw [ih (d + 1) out hcv (by omega)]
    congr 1
    omega

theorem encLoop_round (s : List Char) (n b f cp delta bias p : Nat) (out : List Char)
    (m : Nat)
    (hp : p < n)
    (hmin : ((s.map charVal).filter (fun c => decide (c ≥ cp))).min? = some m)
    (hov : ¬ m - cp > (U32MAX - delta) / (p + 1)) :
    encLoop s n b (f + 1) cp delta bias p out =
      match encInner b m s (delta + (m - cp) * (p + 1)) bias p out with
      | .error e => .error e
      | .ok (d1, b1, p1, o1) =>
        encLoop s n b f (m + 1) ((d1 + 1) % (U32MAX + 1)) b1 p1 o1 := by
  simp only [encLoop]
  rw [if_pos hp, hmin]
  dsimp only
  rw [if_neg hov]

theorem encLoop_done (s : List Char) (n b f cp delta bias p : Nat) (out : List Char)
    (hp : ¬ p < n) :
    encLoop s n b (f + 1) cp delta bias p out = .ok out := by
  simp only [encLoop]
  rw [if_neg hp]

theorem filter_replicate_pos {α : Type} (p : α → Bool) (n : Nat) (a : α)
    (h : p a = true) : (List.replicate n a).filter p = List.replicate n a := by
  induction n with
  | zero => rfl
  | succ k ih =>
    rw [List.replicate_succ, List.filter_cons, if_pos h, ih, ← List.replicate_succ]

theorem filter_replicate_neg {α : Type} (p : α → Bool) (n : Nat) (a : α)
    (h : p a = false) : (List.replicate n a).filter p = [] := by
  induction n with
  | zero => rfl
  | succ k ih =>
    rw [List.replicate_succ, List.filter_cons, if_neg (by simp [h]), ih]

/-- The split `insertions` performs when the last `-` delimits a non-empty
base (punycode.rs lines 63-73). -/
theorem decodeSplit_dash (base ext : List Char) (hnd : '-' ∉ ext)
    (hb : 0 < base.length) :
    decodeSplit (base ++ '-' :: ext) = (base, ext) := by
  have hfind : rfindDash (base ++ '-' :: ext) = some base.length := by
    refine rfindDash_last _ _ ?_ ?_
    · rw [List.getElem?_append_right (Nat.le_refl _), Nat.sub_self]
      exact List.getElem?_cons_zero
    · intro k hk hklen
      rw [List.getElem?_append_right (by omega)]
      intro hcontra
      have hkb : k - base.length = (k - base.length - 1) + 1 := by omega
      rw [hkb, List.getElem?_cons_succ] at hcontra
      exact hnd (List.getElem?_mem hcontra)
  unfold decodeSplit
  rw [hfind]
  dsimp only
  rw [if_pos hb]
  refine Prod.ext ?_ ?_
  · show List.take base.length (base ++ '-' :: ext) = base
    exact List.take_left _ _
  · show List.drop (base.length + 1) (base ++ '-' :: ext) = ext
    rw [List.drop_append 1]
    rfl

/-- C1: the claim as stated fails.  `encode` accepts this 4097-character
input (its overflow checks bound the per-round `delta`), but the decoder
additionally carries the running index `i` across rounds, and on the
second digit block `i` (4096) plus the encoded delta (4294967040) exceeds
`u32::MAX`, so `decode` rejects an output `encode` produced. -/
theorem C1_counterexample :
    encode (List.replicate 4095 'a' ++ [Char.ofNat 0x80, Char.ofNat 0xFFF80]) =
      some (List.replicate 4095 'a' ++
        ['-', '9', 'l', 'd', '4', '5', '1', '8', '7', '0', '6', '0', '4', 'b']) ∧
    decode (List.replicate 4095 'a' ++
        ['-', '9', 'l', 'd', '4', '5', '1', '8', '7', '0', '6', '0', '4', 'b']) = none := by
  have henc : encodeInto (List.replicate 4095 'a' ++
      [Char.ofNat 0x80, Char.ofNat 0xFFF80]) =
      .ok (List.replicate 4095 'a' ++
        ['-', '9', 'l', 'd', '4', '5', '1', '8', '7', '0', '6', '0', '4', 'b']) := by
    have hfilter : (List.replicate 4095 'a' ++
        [Char.ofNat 0x80, Char.ofNat 0xFFF80]).filter isAsciiChar =
        List.replicate 4095 'a' := by
      rw [List.filter_append, filter_replicate_pos _ _ _ (by decide)]
      rw [show [Char.ofNat 0x80, Char.ofNat 0xFFF80].filter isAsciiChar =
        ([] : List Char) from by decide]
      rw [List.append_nil]
    have hlen2 : (List.replicate 4095 'a' ++
        [Char.ofNat 0x80, Char.ofNat 0xFFF80]).length = 4097 := by
      rw [List.length_append, List.length_replicate]
      rfl
    have hmap : (List.replicate 4095 'a' ++
        [Char.ofNat 0x80, Char.ofNat 0xFFF80]).map charVal =
        List.replicate 4095 97 ++ [128, 1048448] := by
      rw [List.map_append, List.map_replicate]
      rfl
    simp only [encodeInto]
    rw [hfilter, hlen2, List.length_replicate]
    rw [if_pos (by norm_num : (4095:Nat) > 0)]
    have hmin1 : (((List.replicate 4095 'a' ++
        [Char.ofNat 0x80, Char.ofNat 0xFFF80]).map charVal).filter
          (fun c => decide (c ≥ INITIAL_N))).min? = some 128 := by
      rw [hmap, List.filter_append, filter_replicate_neg _ _ _ (by decide)]
      rfl
    rw [encLoop_round _ _ _ 4097 _ _ _ _ _ 128 (by norm_num) hmin1 (by decide)]
    rw [show (0 + (128 - INITIAL_N) * (4095 + 1) : Nat) = 0 from by decide]
    have hinner1 : encInner 4095 128
        (List.replicate 4095 'a' ++ [Char.ofNat 0x80, Char.ofNat 0xFFF80]) 0
        INITIAL_BIAS 4095 (List.replicate 4095 'a' ++ ['-']) =
        .ok (0, 4, 4096, (List.replicate 4095 'a' ++ ['-']) ++ ['9', 'l', 'd']) := by
      rw [encInner_replicate 4095 'a' 4095 128 _ INITIAL_BIAS 4095 0 _ (by decide)
        (by decide)]
      rw [show (0 + 4095 : Nat) = 4095 from rfl]
      rw [encInner_emit 4095 128 (Char.ofNat 0x80) [Char.ofNat 0xFFF80] 4095 INITIAL_BIAS
        4095 _ ['9', 'l', 'd'] (by decide) rfl]
      rw [show adapt 4095 (4095 + 1) ((4095:Nat) == 4095) = 4 from rfl]
      rw [encInner_skip 4095 128 (Char.ofNat 0xFFF80) [] 0 4 (4095 + 1) _ (by decide)]
      rfl
    rw [hinner1]
    dsimp only
    rw [show ((0:Nat) + 1) % (U32MAX + 1) = 1 from by decide]
    rw [show (4097:Nat) = 4096 + 1 from rfl]
    have hmin2 : (((List.replicate 4095 'a' ++
        [Char.ofNat 0x80, Char.ofNat 0xFFF80]).map charVal).filter
          (fun c => decide (c ≥ 128 + 1))).min? = some 1048448 := by
      rw [hmap, List.filter_append, filter_replicate_neg _ _ _ (by decide)]
      rfl
    rw [encLoop_round _ _ _ 4096 _ _ _ _ _ 1048448 (by norm_num) hmin2 (by decide)]
    rw [show (1 + (1048448 - (128 + 1)) * (4096 + 1) : Nat) = 4294962944 from by decide]
    have hinner2 : encInner 4095 1048448
        (List.replicate 4095 'a' ++ [Char.ofNat 0x80, Char.ofNat 0xFFF80]) 4294962944
        4 4096 ((List.replicate 4095 'a' ++ ['-']) ++ ['9', 'l', 'd']) =
        .ok (0, 198, 4097, ((List.replicate 4095 'a' ++ ['-']) ++ ['9', 'l', 'd']) ++
          ['4', '5', '1', '8', '7', '0', '6', '0', '4', 'b']) := by
      rw [encInner_replicate 4095 'a' 4095 1048448 _ 4 4096 4294962944 _ (by decide)
        (by decide)]
      rw [show (4294962944 + 4095 : Nat) = 4294967039 from rfl]
      rw [encInner_bump 4095 1048448 (Char.ofNat 0x80) _ 4294967039 4 4096 _ (by decide)
        (by decide)]
      rw [show (4294967039 + 1 : Nat) = 4294967040 from rfl]
      rw [encInner_emit 4095 1048448 (Char.ofNat 0xFFF80) [] 4294967040 4 4096 _
        ['4', '5', '1', '8', '7', '0', '6', '0', '4', 'b'] (by decide) rfl]
      rw [show adapt 4294967040 (4096 + 1) ((4096:Nat) == 4095) = 198 from rfl]
      rfl
    rw [hinner2]
    dsimp only
    rw [show ((0:Nat) + 1) % (U32MAX + 1) = 1 from by decide]
    rw [show (4096:Nat) = 4095 + 1 from rfl]
    rw [encLoop_done _ _ _ _ _ _ _ _ _ (by norm_num)]
    rw [List.append_assoc, List.append_assoc]
    rfl
  constructor
  · unfold encode
    rw [henc]
  · have hinit : initSt (List.replicate 4095 'a') =
        (⟨INITIAL_N, INITIAL_BIAS, 0, 4095, []⟩ : InsSt) := by
      unfold initSt
      rw [utf8Length_ascii _ (by
        intro c hc
        rw [List.eq_of_mem_replicate hc]
        decide), List.length_replicate]
    have hsplit := decodeSplit_dash (List.replicate 4095 'a')
      ['9', 'l', 'd', '4', '5', '1', '8', '7', '0', '6', '0', '4', 'b']
      (by decide) (by rw [List.length_replicate]; norm_num)
    unfold decode insertions
    rw [hsplit]
    dsimp only
    rw [hinit]
    rw [show insRunE (⟨INITIAL_N, INITIAL_BIAS, 0, 4095, []⟩ : InsSt) none
        (utf8Bytes ['9', 'l', 'd', '4', '5', '1', '8', '7', '0', '6', '0', '4', 'b']) =
        .error .overflowDelta from rfl]

/-- C1 at a concrete input: `encode` maps `b` followed by U+0300 to
`b-vbb`, decoding succeeds, and the round-trip theorem recovers the
input. -/
theorem C1_witness :
    (['b', Char.ofNat 0x300] : List Char).length < U32MAX ∧
    encode ['b', Char.ofNat 0x300] = some ['b', '-', 'v', 'b', 'b'] ∧
    decode ['b', '-', 'v', 'b', 'b'] = some ['b', Char.ofNat 0x300] ∧
    (['b', Char.ofNat 0x300] : List Char) = ['b', Char.ofNat 0x300] :=
  ⟨by decide, rfl, rfl,
    C1_roundtrip ['b', Char.ofNat 0x300] ['b', '-', 'v', 'b', 'b']
      ['b', Char.ofNat 0x300] (by decide) rfl rfl⟩

end Idna
